import Mathlib

/-!
# Verification of the `merkle_notes` Merkle-tree library

Shallow embedding of the append-only fixed-height Merkle tree from the
`merkle_notes` repository (src/lib.rs, src/linked/mod.rs, src/vector/mod.rs,
src/sled/mod.rs), together with theorems settling the specification claims.

Modelling conventions:
* Rust `usize`/`u32` indices become `Nat`.  Places where the Rust code can
  panic (index out of range, integer underflow, explicit `panic!`,
  `unimplemented!`, `expect`/`unwrap` failure) are modelled by the
  `Except PanicKind` monad: `.error k` means the Rust call aborts
  (panic-class), `.ok v` means it returns `v` normally.  In release builds a
  usize underflow wraps and the resulting huge index makes the subsequent
  slice access panic, so both build modes abort and `.error` is faithful.
* Unbounded upward walks over the node arena (which in Rust would recurse or
  loop until the data runs out, and diverge or overflow the stack on a
  corrupted arena) are given fuel `nodes.length + 1`; exhausting the fuel is
  modelled as a panic.  On every state the algorithms are actually run on,
  the walk is bounded by the tree depth, which is below the fuel.
* The Rust `MerkleHasher` trait is split into the hashing part
  (`MerkleHasher` below) and the byte codec part (`ElementCodec`), because
  only the vector tree's `read`/`write` use the codec.
-/

namespace MerkleNotes

/-- The ways the Rust code can abort (panic-class, per spec §7 all of these
are unrecoverable programmer errors). -/
inductive PanicKind : Type where
  /-- slice/vector index out of bounds (`unwrap` on `get`, `self.nodes[i]`). -/
  | outOfBounds
  /-- `panic!("Tree is full")` in `add`. -/
  | treeFull
  /-- `unimplemented!` on reaching `Empty` in the insertion walk. -/
  | emptyUnhandled
  /-- `panic!("depth should not reach empty node")` in `past_root`. -/
  | depthEmpty
  /-- `panic!` when truncation's new subtree root is not a left node. -/
  | notLeftNode
  /-- usize subtraction underflow (debug panic; in release the wrapped index
  makes the following access panic). -/
  | underflow
  /-- `panic!("Invalid tree structure")` / iterator unwrap in the vector tree. -/
  | invalidStructure
  /-- `expect` failure on a missing hash. -/
  | expectFailed
  /-- fuel exhaustion: models divergence / stack overflow of an unbounded
  walk on a corrupted arena. -/
  | fuelOut
deriving DecidableEq, Repr

/-- Result of running a possibly-panicking Rust operation. -/
abbrev Res (α : Type) : Type := Except PanicKind α

instance {α : Type} [DecidableEq α] : DecidableEq (Res α) := fun a b =>
  match a, b with
  | .error x, .error y =>
      if h : x = y then .isTrue (by rw [h]) else .isFalse (by simp [h])
  | .ok x, .ok y =>
      if h : x = y then .isTrue (by rw [h]) else .isFalse (by simp [h])
  | .error _, .ok _ => .isFalse (by simp)
  | .ok _, .error _ => .isFalse (by simp)

/-- The hashing half of the Rust `MerkleHasher` trait (src/lib.rs):
an element hash and a depth-aware pairwise combine. -/
structure MerkleHasher (E H : Type) : Type where
  /-- `HashableElement::merkle_hash`. -/
  merkle_hash : E → H
  /-- `MerkleHasher::combine_hash`: depth 0 combines two leaf hashes. -/
  combine_hash : ℕ → H → H → H

/-- The byte-codec half of the Rust `MerkleHasher` trait: element
serialization, modelled over byte lists.  `read_element` returns the decoded
element and the remaining bytes, or `none` for an I/O-class error. -/
structure ElementCodec (E : Type) : Type where
  write_element : E → List ℕ
  read_element : List ℕ → Option (E × List ℕ)

/-- `WitnessNode` (src/lib.rs): one level of an authentication path.  The
constructor records the side of THIS node; the stored hash is the sibling's. -/
inductive WitnessNode (H : Type) : Type where
  | Left (sibling_hash : H)
  | Right (sibling_hash : H)
deriving DecidableEq, Repr

/-- `Witness` (src/lib.rs): commitment that a leaf exists, with the tree size
and root hash at capture time. -/
structure Witness (H : Type) : Type where
  tree_size : ℕ
  root_hash : H
  auth_path : List (WitnessNode H)
deriving DecidableEq, Repr

/-- The fold inside `Witness::verify` (src/lib.rs lines 190-200): combine the
running hash with each path entry, the running enumeration index `i` being
the combine depth. -/
def verify_from {E H : Type} (hasher : MerkleHasher E H) :
    ℕ → List (WitnessNode H) → H → H
  | _, [], cur => cur
  | i, .Left right_hash :: rest, cur =>
      verify_from hasher (i + 1) rest (hasher.combine_hash i cur right_hash)
  | i, .Right left_hash :: rest, cur =>
      verify_from hasher (i + 1) rest (hasher.combine_hash i left_hash cur)

/-- `Witness::verify` (src/lib.rs): fold the authentication path up from the
candidate leaf hash and compare with the captured root hash. -/
def Witness.verify {E H : Type} [DecidableEq H] (w : Witness H)
    (hasher : MerkleHasher E H) (my_hash : H) : Bool :=
  decide (verify_from hasher 0 w.auth_path my_hash = w.root_hash)

/-- The test-oracle string hasher (src/test_helper.rs `StringHasher`):
`merkle_hash` is the identity and
roughly: combine d x y is the bracketed string x bar y dash d. -/
def StringHasher : MerkleHasher String String where
  merkle_hash := id
  combine_hash := fun depth left right =>
    "<" ++ left ++ "|" ++ right ++ "-" ++ toString depth ++ ">"

/-- The test-oracle counting hasher (src/test_helper.rs `CountHasher`):
`merkle_hash` is the identity and combining returns `left + 1`. -/
def CountHasher : MerkleHasher ℕ ℕ where
  merkle_hash := id
  combine_hash := fun _ left _ => left + 1

/-- A minimal hasher over booleans, for exercising the serialization
roundtrip at a concrete element type. -/
def BoolHasher : MerkleHasher Bool ℕ where
  merkle_hash := fun b => cond b 1 0
  combine_hash := fun depth left right => 2 * left + 3 * right + 5 * depth + 7

/-- A one-byte element codec for booleans whose decoder inverts its encoder
on every byte stream, exercising the roundtrip hypothesis of `read`. -/
def BoolCodec : ElementCodec Bool where
  write_element := fun b => [cond b 1 0]
  read_element := fun bytes =>
    match bytes with
    | 1 :: rest => some (true, rest)
    | 0 :: rest => some (false, rest)
    | _ => none

/-- Fuelled floor base-2 logarithm; with fuel at least the argument it
agrees with `Nat.log2` (see `floor_log2_eq_log2`), and unlike `Nat.log2`
(defined by well-founded recursion) it reduces in the kernel, so concrete
trees can be evaluated by `decide`/`rfl`. -/
def log2_fuel : ℕ → ℕ → ℕ
  | 0, _ => 0
  | fuel + 1, n => if n ≤ 1 then 0 else log2_fuel fuel (n / 2) + 1

/-- `floor(log2 n)` (and 0 at 0), kernel-reducible. -/
def floor_log2 (n : ℕ) : ℕ := log2_fuel n n

theorem log2_fuel_eq_log2 : ∀ fuel n : ℕ, n ≤ fuel →
    log2_fuel fuel n = Nat.log2 n := by
  intro fuel
  induction fuel with
  | zero =>
      intro n hn
      have : n = 0 := Nat.le_zero.mp hn
      subst this
      rw [Nat.log2]
      rfl
  | succ fuel ih =>
      intro n hn
      rw [Nat.log2]
      by_cases h1 : n ≤ 1
      · have : ¬ n ≥ 2 := by omega
        simp [log2_fuel, h1, this]
      · have h2 : n ≥ 2 := by omega
        have hdiv : n / 2 ≤ fuel := by omega
        simp [log2_fuel, h1, h2, ih _ hdiv]

theorem floor_log2_eq_log2 (n : ℕ) : floor_log2 n = Nat.log2 n :=
  log2_fuel_eq_log2 n n le_rfl

theorem floor_log2_pow (k : ℕ) : floor_log2 (2 ^ k) = k := by
  rw [floor_log2_eq_log2, Nat.log2_eq_log_two]
  exact Nat.log_pow Nat.one_lt_two k

theorem pow_floor_log2_le {n : ℕ} (h : n ≠ 0) : 2 ^ floor_log2 n ≤ n := by
  rw [floor_log2_eq_log2]
  exact Nat.log2_self_le h

theorem lt_pow_floor_log2 (n : ℕ) : n < 2 ^ (floor_log2 n + 1) := by
  rw [floor_log2_eq_log2]
  exact Nat.lt_log2_self

theorem floor_log2_eq_of {n k : ℕ} (h1 : 2 ^ k ≤ n) (h2 : n < 2 ^ (k + 1)) :
    floor_log2 n = k := by
  have hp : 0 < 2 ^ k := Nat.pow_pos (by norm_num)
  have hn : n ≠ 0 := by omega
  have hle : 2 ^ floor_log2 n ≤ n := pow_floor_log2_le hn
  have hlt : n < 2 ^ (floor_log2 n + 1) := lt_pow_floor_log2 n
  have hk : k < floor_log2 n + 1 :=
    (Nat.pow_lt_pow_iff_right Nat.one_lt_two).mp (lt_of_le_of_lt h1 hlt)
  have hk' : floor_log2 n < k + 1 :=
    (Nat.pow_lt_pow_iff_right Nat.one_lt_two).mp (lt_of_le_of_lt hle h2)
  omega

/-- `is_right_leaf` (src/linked/mod.rs): leaf `k` is a right child iff `k`
is odd. -/
def is_right_leaf (value : ℕ) : Prop := value % 2 = 1

instance (value : ℕ) : Decidable (is_right_leaf value) := by
  unfold is_right_leaf; infer_instance

/-- `depth_at_leaf_count` (src/linked/mod.rs lines 514-520 and
src/sled/mod.rs lines 497-503), in the exact integer form its doc comment
states: `0, 1, floor(log2(n-1)) + 2`.  The Rust source computes the
logarithm through `f32`; that computation agrees with this integer formula
for all `n` with `n - 1 ≤ 2^24` and deviates at larger counts, which is
settled separately via `depth_at_leaf_count_f32` (claim C9). -/
def depth_at_leaf_count : ℕ → ℕ
  | 0 => 0
  | 1 => 1
  | n + 2 => floor_log2 (n + 1) + 2

/-- IEEE-754 binary32 rounding (round to nearest, ties to even) of a natural
number, returned as the exact natural value of the resulting float.  This is
the value of Rust's `n as f32` for `n < 2^128`: naturals up to `2^24` are
exact; above that the 24-bit significand forces rounding to a multiple of
`2^(log2 n - 23)`, possibly landing on the next power of two. -/
def toF32Round (n : ℕ) : ℕ :=
  if n ≤ 2 ^ 24 then n
  else
    let k := floor_log2 n
    let u := 2 ^ (k - 23)
    let q := n / u
    let r := n % u
    if 2 * r < u then q * u
    else if 2 * r > u then (q + 1) * u
    else if q % 2 = 0 then q * u else (q + 1) * u

/-- The `depth_at_leaf_count` computation as the Rust source actually
performs it: `((n - 1) as f32).log2() as usize + 2`.  The conversion to
`f32` is modelled exactly by `toF32Round`; the `log2`-then-truncate step is
modelled as the floor logarithm of the rounded value, which is exact
whenever the rounded value is a power of two (a faithfully rounded `log2f`
returns the exact representable integer there, and the `usize` cast keeps
it).  The deviation theorems below only evaluate this function at such
points. -/
def depth_at_leaf_count_f32 : ℕ → ℕ
  | 0 => 0
  | 1 => 1
  | n + 2 => floor_log2 (toF32Round (n + 1)) + 2

/-- Specification-side Merkle root: the hash of a height-`j` subtree whose
leaf hashes are the given list (at most `2^j` of them), with every vacant
right subtree filled by self-pairing at each level (spec §3/§8: "padded on
the right by self-pairing at each vacant slot"); `none` for an empty
subtree. -/
def padHash {E H : Type} (hasher : MerkleHasher E H) : ℕ → List H → Option H
  | _, [] => none
  | 0, h :: _ => some h
  | j + 1, hs =>
    match padHash hasher j (hs.take (2 ^ j)), padHash hasher j (hs.drop (2 ^ j)) with
    | some l, some r => some (hasher.combine_hash j l r)
    | some l, none => some (hasher.combine_hash j l l)
    | none, _ => none

/-- `InternalNode` (src/linked/mod.rs lines 43-63), also the `Node` of the
sled embodiment: internal nodes cache the hash of their *sibling* subtree.
A `Left` stores its parent index, a `Right` stores its left sibling's index
(the parent is reached through it), and the sentinel `Empty` lives at arena
index 0 as the parent of the root. -/
inductive InternalNode (H : Type) : Type where
  | Empty
  | Left (hash_of_sibling : H) (parent : ℕ)
  | Right (hash_of_sibling : H) (left : ℕ)
deriving DecidableEq, Repr

namespace Sled

/-- The storage backing a `SledMerkleTree` (src/sled/mod.rs): counters,
leaf metadata and the node arena, as laid out in the three sled trees.
Modelled from the spec: src/sled/sledder.rs is not under src/, so the
`Sledder` accessors are modelled from the arena contract of spec §4.B/§6
(positional get/set of leaves and nodes, counters governing the logical
lengths).  The key/value maps are total functions; keys beyond the counters
correspond to stale or absent entries whose values the algorithms never
rely on. -/
structure SledState (E H : Type) : Type where
  num_leaves : ℕ
  num_nodes : ℕ
  leaf_hash : ℕ → H
  leaf_parent : ℕ → ℕ
  leaf_element : ℕ → E
  node : ℕ → InternalNode H

variable {E H : Type}

/-- `set_node` of the sledder: overwrite the node at an index. -/
def set_node (s : SledState E H) (i : ℕ) (n : InternalNode H) : SledState E H :=
  { s with node := fun j => if j = i then n else s.node j }

def set_leaf_parent (s : SledState E H) (k : ℕ) (p : ℕ) : SledState E H :=
  { s with leaf_parent := fun j => if j = k then p else s.leaf_parent j }

def set_leaf_hash (s : SledState E H) (k : ℕ) (h : H) : SledState E H :=
  { s with leaf_hash := fun j => if j = k then h else s.leaf_hash j }

def set_leaf_element (s : SledState E H) (k : ℕ) (e : E) : SledState E H :=
  { s with leaf_element := fun j => if j = k then e else s.leaf_element j }

def set_num_leaves (s : SledState E H) (n : ℕ) : SledState E H :=
  { s with num_leaves := n }

def set_num_nodes (s : SledState E H) (n : ℕ) : SledState E H :=
  { s with num_nodes := n }

/-- Fuelled worker for `node_parent`. -/
def node_parent_go (s : SledState E H) : ℕ → ℕ → ℕ
  | 0, _ => 0
  | fuel + 1, i =>
    match s.node i with
    | .Left _ parent => parent
    | .Right _ left => node_parent_go s fuel left
    | .Empty => 0

/-- `node_parent` of the sledder, the analogue of `parent_index` in
src/linked/mod.rs lines 144-150 (the sled tree is "Based on
LinkedMerkleTree"): a left node's parent is stored, a right node's parent is
its left sibling's parent, the sentinel's parent is the sentinel. -/
def node_parent (s : SledState E H) (i : ℕ) : ℕ :=
  node_parent_go s (s.num_nodes + 1) i

/-- One sibling-hash-capturing step per level of `witness`
(src/sled/mod.rs lines 452-481): the `for depth in 1..self.tree_depth`
loop, returning the entries pushed and the final folded hash.  The first
argument is the number of remaining iterations, the second the current
`depth`. -/
def witness_steps (hasher : MerkleHasher E H) (s : SledState E H) :
    ℕ → ℕ → ℕ → H → List (WitnessNode H) × H
  | 0, _, _, cur => ([], cur)
  | n + 1, depth, pos, cur =>
    match s.node pos with
    | .Empty =>
        let t := witness_steps hasher s n (depth + 1) pos
          (hasher.combine_hash depth cur cur)
        (.Left cur :: t.1, t.2)
    | .Left hos parent =>
        let t := witness_steps hasher s n (depth + 1) parent
          (hasher.combine_hash depth cur hos)
        (.Left hos :: t.1, t.2)
    | .Right hos left =>
        let t := witness_steps hasher s n (depth + 1) (node_parent s left)
          (hasher.combine_hash depth hos cur)
        (.Right hos :: t.1, t.2)

/-- `SledMerkleTree::witness` (src/sled/mod.rs lines 426-490).  `tree_depth`
is the struct field, i.e. the constructor argument minus one.  Out-of-range
positions give `none`; otherwise the authentication path is built from the
leaf level (three cases: right leaf, left leaf with right sibling, lone
rightmost left leaf) and then one entry per depth `1..tree_depth`; the
returned `root_hash` is the final folded hash (the code's commented-out
alternative called `root_hash()` instead). -/
def witness (hasher : MerkleHasher E H) (s : SledState E H) (tree_depth : ℕ)
    (position : ℕ) : Option (Witness H) :=
  if s.num_leaves = 0 ∨ position ≥ s.num_leaves then none
  else
    let current_hash := s.leaf_hash position
    let current_position := s.leaf_parent position
    let start : WitnessNode H × H :=
      if is_right_leaf position then
        let sibling_hash := s.leaf_hash (position - 1)
        (.Right sibling_hash, hasher.combine_hash 0 sibling_hash current_hash)
      else if position < s.num_leaves - 1 then
        let sibling_hash := s.leaf_hash (position + 1)
        (.Left sibling_hash, hasher.combine_hash 0 current_hash sibling_hash)
      else
        (.Left current_hash, hasher.combine_hash 0 current_hash current_hash)
    let t := witness_steps hasher s (tree_depth - 1) 1 current_position start.2
    some ⟨s.num_leaves, t.2, start.1 :: t.1⟩

/-- The upward walk of `past_root` (src/sled/mod.rs lines 371-390): the
`for depth in 1..min(root_depth, tree_depth)` loop.  First argument is the
remaining iteration count, second the current depth. -/
def past_root_steps (hasher : MerkleHasher E H) (s : SledState E H) :
    ℕ → ℕ → ℕ → H → Res H
  | 0, _, _, cur => .ok cur
  | n + 1, depth, pos, cur =>
    match s.node pos with
    | .Empty => .error .depthEmpty
    | .Left _ parent =>
        past_root_steps hasher s n (depth + 1) parent
          (hasher.combine_hash depth cur cur)
    | .Right hos left =>
        past_root_steps hasher s n (depth + 1) (node_parent s left)
          (hasher.combine_hash depth hos cur)

/-- Self-pairing lift: `combine_hash d cur cur` for `count` successive
depths starting at `start`.  Used by the trailing
`for depth in root_depth..tree_depth` loops. -/
def lift_self (hasher : MerkleHasher E H) : ℕ → ℕ → H → H
  | _, 0, cur => cur
  | start, count + 1, cur =>
      lift_self hasher (start + 1) count (hasher.combine_hash start cur cur)

/-- `SledMerkleTree::past_root` (src/sled/mod.rs lines 349-399): `none` when
the tree is empty, the size is zero, or the size exceeds the leaf count;
otherwise fold up from leaf `past_size - 1` and self-pair up to the full
tree depth.  The code computes `depth_at_leaf_count` through `f32` (see `depth_at_leaf_count_f32` and claim C9); the exact integer form is used here, and the two agree — under any faithful libm — for the sizes the theorems below exercise. -/
def past_root (hasher : MerkleHasher E H) (s : SledState E H)
    (tree_depth : ℕ) (past_size : ℕ) : Res (Option H) := do
  if s.num_leaves = 0 ∨ past_size > s.num_leaves ∨ past_size = 0 then
    return none
  let root_depth := depth_at_leaf_count past_size
  let leaf_index := past_size - 1
  let lh := s.leaf_hash leaf_index
  let current_hash :=
    if is_right_leaf leaf_index then
      hasher.combine_hash 0 (s.leaf_hash (leaf_index - 1)) lh
    else
      hasher.combine_hash 0 lh lh
  let current_hash ← past_root_steps hasher s (min root_depth tree_depth - 1) 1
    (s.leaf_parent leaf_index) current_hash
  return some (lift_self hasher root_depth (tree_depth - root_depth) current_hash)

/-- `SledMerkleTree::root_hash` (src/sled/mod.rs lines 340-344):
`self.past_root(self.len())`. -/
def root_hash (hasher : MerkleHasher E H) (s : SledState E H)
    (tree_depth : ℕ) : Res (Option H) :=
  past_root hasher s tree_depth s.num_leaves

/-- Fuelled loop of `rehash_right_path` (src/sled/mod.rs lines 71-113):
walk up from a node, rewriting the rightmost path's cached sibling hashes.
`depth` is incremented at the top of each iteration, before any combine. -/
def rehash_right_path_go (hasher : MerkleHasher E H) :
    ℕ → SledState E H → ℕ → ℕ → H → Res (SledState E H)
  | 0, _, _, _, _ => .error .fuelOut
  | fuel + 1, s, depth, parent_index, parent_hash =>
    match s.node parent_index with
    | .Empty => .ok s
    | .Left _ parent =>
        rehash_right_path_go hasher fuel
          (set_node s parent_index (.Left parent_hash parent))
          (depth + 1) parent
          (hasher.combine_hash (depth + 1) parent_hash parent_hash)
    | .Right hos left =>
        let parent_index' := node_parent s left
        rehash_right_path_go hasher fuel
          (set_node s left (.Left parent_hash parent_index'))
          (depth + 1) parent_index'
          (hasher.combine_hash (depth + 1) hos parent_hash)

/-- `rehash_right_path` (src/sled/mod.rs lines 60-114): recompute the hashes
along the path from the most recently added leaf to the root. -/
def rehash_right_path (hasher : MerkleHasher E H) (s : SledState E H) :
    Res (SledState E H) := do
  if s.num_leaves = 0 then throw .underflow
  let leaf_index := s.num_leaves - 1
  let lh := s.leaf_hash leaf_index
  let parent_hash :=
    if is_right_leaf leaf_index then
      hasher.combine_hash 0 (s.leaf_hash (leaf_index - 1)) lh
    else
      hasher.combine_hash 0 lh lh
  rehash_right_path_go hasher (s.num_nodes + 2) s 0
    (s.leaf_parent leaf_index) parent_hash

/-- Fuelled insertion walk of `add` (src/sled/mod.rs lines 194-244): climb
from the previous leaf's parent, appending a chain of new left nodes over
each completed right subtree, then a right node beside the first left node
found (plus a new root above it when that left node was the root).
Arguments: fuel, state, `next_node_index`, `previous_parent_index`,
`my_hash`, `depth`. -/
def add_walk (hasher : MerkleHasher E H) :
    ℕ → SledState E H → ℕ → ℕ → H → ℕ → Res (SledState E H)
  | 0, _, _, _, _, _ => .error .fuelOut
  | fuel + 1, s, next_node_index, previous_parent_index, my_hash, depth =>
    match s.node previous_parent_index with
    | .Left hos parent =>
        let s := set_node s next_node_index (.Right hos previous_parent_index)
        let next_node_index := next_node_index + 1
        let s := set_num_nodes s next_node_index
        if parent = 0 then
          let new_parent : InternalNode H :=
            .Left (hasher.combine_hash depth hos my_hash) 0
          let s := set_node s next_node_index new_parent
          let s := set_node s previous_parent_index (.Left hos next_node_index)
          let s := set_num_nodes s (next_node_index + 1)
          .ok s
        else
          .ok s
    | .Right _ left =>
        let my_hash := hasher.combine_hash depth my_hash my_hash
        let s := set_node s next_node_index (.Left my_hash (next_node_index + 1))
        let next_node_index := next_node_index + 1
        let s := set_num_nodes s next_node_index
        add_walk hasher fuel s next_node_index (node_parent s left) my_hash
          (depth + 1)
    | .Empty => .error .emptyUnhandled

/-- `SledMerkleTree::add` (src/sled/mod.rs lines 152-255): panic when the
leaf count reaches `2 ^ tree_depth` (the struct field, constructor argument
minus one), otherwise append the leaf, link or create its parent per the
four cases, and rehash the rightmost path. -/
def add (hasher : MerkleHasher E H) (s : SledState E H) (tree_depth : ℕ)
    (element : E) : Res (SledState E H) := do
  let index_of_new_leaf := s.num_leaves
  if index_of_new_leaf ≥ 2 ^ tree_depth then throw .treeFull
  let leaf_hash := hasher.merkle_hash element
  let sp ←
    if index_of_new_leaf = 0 then
      pure (s, 0)
    else if index_of_new_leaf = 1 then do
      let left_leaf_hash := s.leaf_hash 0
      let hos := hasher.combine_hash 0 left_leaf_hash leaf_hash
      let s := set_leaf_parent s 0 1
      let s := set_num_nodes s 2
      let s := set_node s 1 (.Left hos 0)
      pure (s, 1)
    else if is_right_leaf index_of_new_leaf then
      pure (s, s.leaf_parent (index_of_new_leaf - 1))
    else do
      let next_node_index := s.num_nodes
      let previous_parent_index := s.leaf_parent (index_of_new_leaf - 1)
      let my_hash := hasher.combine_hash 0 leaf_hash leaf_hash
      let s' ← add_walk hasher (s.num_nodes + tree_depth + 2) s
        next_node_index previous_parent_index my_hash 1
      pure (s', next_node_index)
  let s := set_num_leaves sp.1 (index_of_new_leaf + 1)
  let s := set_leaf_parent s index_of_new_leaf sp.2
  let s := set_leaf_hash s index_of_new_leaf leaf_hash
  let s := set_leaf_element s index_of_new_leaf element
  rehash_right_path hasher s

/-- The bounded walk of `truncate` (src/sled/mod.rs lines 294-303):
follow parent links for the given number of steps, tracking the maximum
node index visited.  Returns (final parent, maximum). -/
def truncate_walk (s : SledState E H) : ℕ → ℕ → ℕ → ℕ × ℕ
  | 0, parent, max_parent => (parent, max_parent)
  | d + 1, parent, max_parent =>
    let parent' := node_parent s parent
    truncate_walk s d parent' (max max_parent parent')

/-- `SledMerkleTree::truncate` (src/sled/mod.rs lines 275-323): no-op at or
above the current size; sizes 0 and 1 reset the arena to the sentinel;
otherwise walk up from the new last leaf, rebind the surviving subtree root
to the sentinel, drop the node tail (logically, by lowering the counter)
and rehash the rightmost path.  The code computes `depth_at_leaf_count` through `f32` (see `depth_at_leaf_count_f32` and claim C9); the exact integer form is used here, and the two agree — under any faithful libm — for the sizes the theorems below exercise. -/
def truncate (hasher : MerkleHasher E H) (s : SledState E H)
    (past_size : ℕ) : Res (SledState E H) := do
  if past_size ≥ s.num_leaves then return s
  let s := set_num_leaves s past_size
  if past_size = 0 then
    return set_num_nodes (set_num_leaves s 0) 1
  else if past_size = 1 then
    return set_num_nodes (set_leaf_parent s 0 0) 1
  else
    let depth := depth_at_leaf_count past_size - 2
    let pm := truncate_walk s depth (s.leaf_parent (past_size - 1))
      (s.leaf_parent (past_size - 1))
    let s ←
      match s.node pm.1 with
      | .Left hos _ => pure (set_node s pm.1 (.Left hos 0))
      | _ => throw .notLeftNode
    let s := set_num_nodes s (pm.2 + 1)
    rehash_right_path hasher s

/-- A freshly opened sled tree: zero leaves, the sentinel node at index 0.
Modelled from the spec (§4.E: "Index 0 holds Empty"); the default values of
the total maps stand for absent keys and are never read. -/
def new_state (e₀ : E) (h₀ : H) : SledState E H :=
  ⟨0, 1, fun _ => h₀, fun _ => 0, fun _ => e₀, fun _ => .Empty⟩

/-- Build a sled tree by adding the given elements in order to a fresh
state. -/
def build (hasher : MerkleHasher E H) (tree_depth : ℕ) (e₀ : E) (h₀ : H)
    (elements : List E) : Res (SledState E H) :=
  elements.foldlM (fun s e => add hasher s tree_depth e) (new_state e₀ h₀)

end Sled

namespace Linked

/-- `LeafNode` (src/linked/mod.rs lines 87-100): an element and the arena
index of its internal parent (0 = sentinel). -/
structure LeafNode (E : Type) : Type where
  element : E
  parent : ℕ
deriving DecidableEq, Repr

/-- `LinkedMerkleTree` (src/linked/mod.rs lines 102-107): the leaf arena,
the internal-node arena (index 0 always the `Empty` sentinel) and the
`tree_depth` field.  `new_with_size(hasher, d)` stores `tree_depth = d - 1`,
so the field of the default 33 tree is 32. -/
structure LinkedMerkleTree (E H : Type) : Type where
  leaves : List (LeafNode E)
  nodes : List (InternalNode H)
  tree_depth : ℕ
deriving DecidableEq, Repr

variable {E H : Type}

/-- `new_with_size` (src/linked/mod.rs lines 113-120): empty leaves, the
sentinel node, and `tree_depth` one below the requested depth. -/
def new_with_size (tree_depth : ℕ) : LinkedMerkleTree E H :=
  ⟨[], [.Empty], tree_depth - 1⟩

/-- `node_at` (src/linked/mod.rs lines 132-135): clone of the node at an
index; out of range is a panic. -/
def node_at (t : LinkedMerkleTree E H) (i : ℕ) : Res (InternalNode H) :=
  match t.nodes[i]? with
  | some n => .ok n
  | none => .error .outOfBounds

/-- `set_node` (src/linked/mod.rs lines 137-139). -/
def set_node (t : LinkedMerkleTree E H) (i : ℕ) (n : InternalNode H) :
    Res (LinkedMerkleTree E H) :=
  if i < t.nodes.length then .ok { t with nodes := t.nodes.set i n }
  else .error .outOfBounds

/-- Fuelled worker for `parent_index`. -/
def parent_index_go (t : LinkedMerkleTree E H) : ℕ → ℕ → Res ℕ
  | 0, _ => .error .fuelOut
  | fuel + 1, i => do
    match ← node_at t i with
    | .Left _ parent => .ok parent
    | .Right _ left => parent_index_go t fuel left
    | .Empty => .ok 0

/-- `parent_index` (src/linked/mod.rs lines 144-150): a left node's stored
parent; a right node's parent is reached through its left sibling; the
sentinel maps to itself. -/
def parent_index (t : LinkedMerkleTree E H) (i : ℕ) : Res ℕ :=
  parent_index_go t (t.nodes.length + 1) i

/-- The hash of the element stored in a leaf. -/
def leaf_merkle_hash (hasher : MerkleHasher E H) (leaf : LeafNode E) : H :=
  hasher.merkle_hash leaf.element

/-- Leaf lookup, panicking out of range (`self.leaves[i]`). -/
def leaf_at (t : LinkedMerkleTree E H) (i : ℕ) : Res (LeafNode E) :=
  match t.leaves[i]? with
  | some l => .ok l
  | none => .error .outOfBounds

/-- Fuelled loop of `rehash_right_path` (src/linked/mod.rs lines 177-221).
`depth` is incremented at the top of each iteration, before any combine. -/
def rehash_right_path_go (hasher : MerkleHasher E H) :
    ℕ → LinkedMerkleTree E H → ℕ → ℕ → H → Res (LinkedMerkleTree E H)
  | 0, _, _, _, _ => .error .fuelOut
  | fuel + 1, t, depth, parent_index₀, parent_hash => do
    match ← node_at t parent_index₀ with
    | .Empty => .ok t
    | .Left _ parent => do
        let t ← set_node t parent_index₀ (.Left parent_hash parent)
        rehash_right_path_go hasher fuel t (depth + 1) parent
          (hasher.combine_hash (depth + 1) parent_hash parent_hash)
    | .Right hos left => do
        let parent_index' ← parent_index t left
        let t ← set_node t left (.Left parent_hash parent_index')
        rehash_right_path_go hasher fuel t (depth + 1) parent_index'
          (hasher.combine_hash (depth + 1) hos parent_hash)

/-- `rehash_right_path` (src/linked/mod.rs lines 158-222): recompute the
hashes along the path from the most recently added leaf to the root. -/
def rehash_right_path (hasher : MerkleHasher E H) (t : LinkedMerkleTree E H) :
    Res (LinkedMerkleTree E H) := do
  if t.leaves.length = 0 then throw .underflow
  let leaf_index := t.leaves.length - 1
  let leaf ← leaf_at t leaf_index
  let parent_hash ←
    if is_right_leaf leaf_index then do
      let prev ← leaf_at t (leaf_index - 1)
      pure (hasher.combine_hash 0 (leaf_merkle_hash hasher prev)
        (leaf_merkle_hash hasher leaf))
    else
      pure (hasher.combine_hash 0 (leaf_merkle_hash hasher leaf)
        (leaf_merkle_hash hasher leaf))
  rehash_right_path_go hasher (t.nodes.length + 2) t 0 leaf.parent parent_hash

/-- `len` (src/linked/mod.rs lines 239-241). -/
def len (t : LinkedMerkleTree E H) : ℕ := t.leaves.length

/-- `is_empty` (src/linked/mod.rs lines 234-236). -/
def is_empty (t : LinkedMerkleTree E H) : Prop := len t = 0

instance (t : LinkedMerkleTree E H) : Decidable (is_empty t) := by
  unfold is_empty; infer_instance

/-- `get` (src/linked/mod.rs lines 244-246). -/
def get (t : LinkedMerkleTree E H) (position : ℕ) : Option E :=
  (t.leaves[position]?).map LeafNode.element

/-- The upward loop of `root_hash` (src/linked/mod.rs lines 271-291):
`while depth != tree_depth`, with the new node index computed by
`parent_index` on the index just read.  First argument counts the remaining
iterations (`tree_depth - depth`). -/
def root_hash_go (hasher : MerkleHasher E H) (t : LinkedMerkleTree E H) :
    ℕ → ℕ → ℕ → H → Res H
  | 0, _, _, cur => .ok cur
  | n + 1, depth, idx, cur => do
    let node ← node_at t idx
    let cur' :=
      match node with
      | .Left hos _ => hasher.combine_hash depth cur hos
      | .Right hos _ => hasher.combine_hash depth hos cur
      | .Empty => hasher.combine_hash depth cur cur
    let idx' ← parent_index t idx
    root_hash_go hasher t n (depth + 1) idx' cur'

/-- `LinkedMerkleTree::root_hash` (src/linked/mod.rs lines 256-293): `none`
iff empty, otherwise combine leaf 1 (or leaf 0 self-paired) with leaf 0 and
walk up `tree_depth - 1` further levels.  (The Rust `while depth !=
tree_depth` loop is modelled as `tree_depth - 1` iterations; for
`tree_depth = 0`, where the Rust loop would never terminate, the model
returns after the leaf combine.) -/
def root_hash (hasher : MerkleHasher E H) (t : LinkedMerkleTree E H) :
    Res (Option H) := do
  if len t = 0 then return none
  let leaf₀ ← leaf_at t 0
  let left_hash := leaf_merkle_hash hasher leaf₀
  let right_hash :=
    match t.leaves[1]? with
    | some l => leaf_merkle_hash hasher l
    | none => left_hash
  let cur := hasher.combine_hash 0 left_hash right_hash
  let r ← root_hash_go hasher t (t.tree_depth - 1) 1 leaf₀.parent cur
  return some r

/-- The upward walk of `past_root` (src/linked/mod.rs lines 317-339):
`for depth in 1..min(root_depth, tree_depth)`. -/
def past_root_steps (hasher : MerkleHasher E H) (t : LinkedMerkleTree E H) :
    ℕ → ℕ → ℕ → H → Res H
  | 0, _, _, cur => .ok cur
  | n + 1, depth, idx, cur => do
    match ← node_at t idx with
    | .Empty => .error .depthEmpty
    | .Left _ parent =>
        past_root_steps hasher t n (depth + 1) parent
          (hasher.combine_hash depth cur cur)
    | .Right hos left => do
        let p ← parent_index t left
        past_root_steps hasher t n (depth + 1) p
          (hasher.combine_hash depth hos cur)

/-- `LinkedMerkleTree::past_root` (src/linked/mod.rs lines 295-346): `none`
when the tree is empty or `past_size > len`; for `past_size = 0` on a
non-empty tree the Rust `past_size - 1` underflows (a panic in either build
mode, since the wrapped index is far out of range), which the model makes
explicit.  Otherwise fold up from leaf `past_size - 1` and self-pair up to
the full tree depth.  The code computes `depth_at_leaf_count` through `f32` (see `depth_at_leaf_count_f32` and claim C9); the exact integer form is used here, and the two agree — under any faithful libm — for the sizes the theorems below exercise. -/
def past_root (hasher : MerkleHasher E H) (t : LinkedMerkleTree E H)
    (past_size : ℕ) : Res (Option H) := do
  let root_depth := depth_at_leaf_count past_size
  if len t = 0 ∨ past_size > len t then return none
  if past_size = 0 then throw .underflow
  let leaf_index := past_size - 1
  let leaf ← leaf_at t leaf_index
  let current_hash ←
    if is_right_leaf leaf_index then do
      let prev ← leaf_at t (leaf_index - 1)
      pure (hasher.combine_hash 0 (leaf_merkle_hash hasher prev)
        (leaf_merkle_hash hasher leaf))
    else
      pure (hasher.combine_hash 0 (leaf_merkle_hash hasher leaf)
        (leaf_merkle_hash hasher leaf))
  let current_hash ← past_root_steps hasher t
    (min root_depth t.tree_depth - 1) 1 leaf.parent current_hash
  return some (Sled.lift_self hasher root_depth (t.tree_depth - root_depth)
    current_hash)

/-- Fuelled insertion walk of `add` (src/linked/mod.rs lines 399-446),
mirrored by the sled embodiment: climb from the previous leaf's parent,
pushing a chain of new left nodes over each completed right subtree, then a
right node beside the first left node found (plus a new root when that left
node was the old root). -/
def add_walk (hasher : MerkleHasher E H) :
    ℕ → LinkedMerkleTree E H → ℕ → H → ℕ → Res (LinkedMerkleTree E H)
  | 0, _, _, _, _ => .error .fuelOut
  | fuel + 1, t, previous_parent_index, my_hash, depth => do
    match ← node_at t previous_parent_index with
    | .Left hos parent => do
        let t := { t with nodes := t.nodes ++ [.Right hos previous_parent_index] }
        if parent = 0 then do
          let new_parent : InternalNode H :=
            .Left (hasher.combine_hash depth hos my_hash) 0
          let t := { t with nodes := t.nodes ++ [new_parent] }
          let t ← set_node t previous_parent_index
            (.Left hos (t.nodes.length - 1))
          .ok t
        else
          .ok t
    | .Right _ left => do
        let my_hash := hasher.combine_hash depth my_hash my_hash
        let t := { t with nodes := t.nodes ++ [.Left my_hash (t.nodes.length + 1)] }
        let previous_parent_index' ← parent_index t left
        add_walk hasher fuel t previous_parent_index' my_hash (depth + 1)
    | .Empty => .error .emptyUnhandled

/-- `LinkedMerkleTree::add` (src/linked/mod.rs lines 350-449): panic when
the leaf count reaches `2 ^ tree_depth` (the struct field, constructor
argument minus one) before any mutation; otherwise push the leaf, link or
create its parent per the cases, and rehash the rightmost path. -/
def add (hasher : MerkleHasher E H) (t : LinkedMerkleTree E H) (element : E) :
    Res (LinkedMerkleTree E H) := do
  let index_of_new_leaf := t.leaves.length
  if t.leaves.length ≥ 2 ^ t.tree_depth then throw .treeFull
  let new_parent_index := if t.leaves.length = 0 then 0 else t.nodes.length
  let leaf_hash := hasher.merkle_hash element
  let t := { t with leaves := t.leaves ++ [⟨element, new_parent_index⟩] }
  if t.leaves.length = 1 then return t
  let t ←
    if is_right_leaf index_of_new_leaf then do
      let left_leaf ← leaf_at t (index_of_new_leaf - 1)
      let parent ← node_at t left_leaf.parent
      match parent with
      | .Empty => do
          let new_parent_of_both : InternalNode H :=
            .Left (hasher.combine_hash 0 (leaf_merkle_hash hasher left_leaf)
              leaf_hash) 0
          let t := { t with nodes := t.nodes ++ [new_parent_of_both] }
          pure { t with
            leaves := t.leaves.set (index_of_new_leaf - 1)
              ⟨left_leaf.element, new_parent_index⟩ }
      | _ => do
          let prev ← leaf_at t (index_of_new_leaf - 1)
          pure { t with
            leaves := t.leaves.set index_of_new_leaf ⟨element, prev.parent⟩ }
    else do
      let prev ← leaf_at t (index_of_new_leaf - 1)
      let my_hash := hasher.combine_hash 0 leaf_hash leaf_hash
      add_walk hasher (t.nodes.length + t.tree_depth + 2) t prev.parent
        my_hash 1
  rehash_right_path hasher t

/-- The bounded walk of `truncate` (src/linked/mod.rs lines 478-486):
follow parent links for the given number of steps, tracking the maximum
node index visited.  Returns (final parent, maximum). -/
def truncate_walk (t : LinkedMerkleTree E H) : ℕ → ℕ → ℕ → Res (ℕ × ℕ)
  | 0, parent, max_parent => .ok (parent, max_parent)
  | d + 1, parent, max_parent => do
    let parent' ← parent_index t parent
    truncate_walk t d parent' (max max_parent parent')

/-- `LinkedMerkleTree::truncate` (src/linked/mod.rs lines 459-503): no-op at
or above the current size; sizes 0 and 1 reset the node arena to the
sentinel (size 1 also rebinding leaf 0's parent); otherwise pop leaves, walk
up from the new last leaf, rebind the surviving subtree root's parent to
the sentinel, pop the node tail above the maximum visited index, and rehash
the rightmost path.  The code computes `depth_at_leaf_count` through `f32` (see `depth_at_leaf_count_f32` and claim C9); the exact integer form is used here, and the two agree — under any faithful libm — for the sizes the theorems below exercise. -/
def truncate (hasher : MerkleHasher E H) (t : LinkedMerkleTree E H)
    (past_size : ℕ) : Res (LinkedMerkleTree E H) := do
  if past_size ≥ len t then return t
  let t := { t with leaves := t.leaves.take past_size }
  let t ←
    if past_size = 1 then do
      let leaf₀ ← leaf_at t 0
      pure { t with leaves := t.leaves.set 0 ⟨leaf₀.element, 0⟩ }
    else pure t
  if past_size = 0 ∨ past_size = 1 then
    return { t with nodes := [.Empty] }
  let depth := depth_at_leaf_count (len t) - 2
  let last ← leaf_at t (len t - 1)
  let pm ← truncate_walk t depth last.parent last.parent
  let t ←
    match ← node_at t pm.1 with
    | .Left hos _ => set_node t pm.1 (.Left hos 0)
    | _ => throw .notLeftNode
  if t.nodes.length < pm.2 + 1 then throw .underflow
  let t := { t with nodes := t.nodes.take (pm.2 + 1) }
  rehash_right_path hasher t

/-- Build a linked tree of the given constructor depth by adding the
elements in order (the trees the tests construct). -/
def build (hasher : MerkleHasher E H) (ctor_depth : ℕ) (elements : List E) :
    Res (LinkedMerkleTree E H) :=
  elements.foldlM (add hasher) (new_with_size ctor_depth)

/-! ### Canonical form of the linked arena

The node arena of a linked tree reachable by `add` is determined by the
leaf list alone: nodes are appended in chronological creation order, the
heap node of depth `d` covering leaves `[q·2^d, (q+1)·2^d)` being created
while leaf `q·2^d` (or `2^(d-1)` for a root) is added.  `lcanon` below is
that canonical state. -/

/-- Fuelled 2-adic valuation; with fuel at least the argument it is the
exponent of 2 in the argument. -/
def v2_fuel : ℕ → ℕ → ℕ
  | 0, _ => 0
  | fuel + 1, m => if m % 2 = 1 ∨ m = 0 then 0 else v2_fuel fuel (m / 2) + 1

/-- 2-adic valuation (of a positive number). -/
def nu2 (m : ℕ) : ℕ := v2_fuel m m

/-- Number of nodes created while leaf index `i` is added. -/
def bsize (i : ℕ) : ℕ :=
  if i = 0 then 0
  else if i % 2 = 1 then (if i = 1 then 1 else 0)
  else nu2 i + (if 2 ^ nu2 i = i then 1 else 0)

/-- Arena length (node count including the sentinel) at `m` leaves. -/
def arena_len : ℕ → ℕ
  | 0 => 1
  | m + 1 => arena_len m + bsize m

/-- Leaf index whose `add` creates heap node `(d, q)` (depth `d ≥ 1`,
position `q` at that depth). -/
def cleaf (d q : ℕ) : ℕ := if q = 0 then 2 ^ (d - 1) else q * 2 ^ d

/-- Arena index of heap node `(d, q)`. -/
def lidx (d q : ℕ) : ℕ := arena_len (cleaf d q) + (d - 1)

/-- Parent pointer of heap node `(d, q)` in the arena at `n` leaves: the
parent's index when the parent exists, the sentinel otherwise. -/
def lpar (n d q : ℕ) : ℕ :=
  if cleaf (d + 1) (q / 2) < n then lidx (d + 1) (q / 2) else 0

/-- The canonical value of heap node `(d, q)` at `n` leaves: a right child
stores the hash of its left sibling and that sibling's index; a left child
(or root) stores the hash of its right sibling — of itself when the sibling
slot is vacant — and its parent pointer. -/
def lnode (hasher : MerkleHasher E H) (hs : List H) (n d q : ℕ) :
    InternalNode H :=
  if q % 2 = 1 then
    match padHash hasher d ((hs.drop ((q - 1) * 2 ^ d)).take (2 ^ d)) with
    | some h => .Right h (lidx d (q - 1))
    | none => .Empty
  else
    match padHash hasher d ((hs.drop ((q + 1) * 2 ^ d)).take (2 ^ d)),
        padHash hasher d ((hs.drop (q * 2 ^ d)).take (2 ^ d)) with
    | some sib, _ => .Left sib (lpar n d q)
    | none, some own => .Left own (lpar n d q)
    | none, none => .Empty

/-- The heap nodes created while leaf index `i` is added, in creation
order: the new left chain bottom-up, the right node closing it, and a new
root when the tree was full. -/
def lblock (i : ℕ) : List (ℕ × ℕ) :=
  if i = 0 then []
  else if i % 2 = 1 then (if i = 1 then [(1, 0)] else [])
  else ((List.range (nu2 i)).map fun j => (j + 1, i / 2 ^ (j + 1))) ++
    (if 2 ^ nu2 i = i then [(nu2 i + 1, 0)] else [])

/-- The canonical linked tree for a leaf list: every leaf points at its
depth-1 parent, and the node arena lists the sentinel followed by the
blocks of every add in order. -/
def lcanon (hasher : MerkleHasher E H) (tree_depth : ℕ) (ℓ : List E) :
    LinkedMerkleTree E H :=
  ⟨ℓ.mapIdx (fun i e =>
      ⟨e, if ℓ.length = 1 then 0 else lidx 1 (i / 2)⟩),
    .Empty :: (List.range ℓ.length).flatMap (fun i =>
      (lblock i).map fun dq =>
        lnode hasher (ℓ.map hasher.merkle_hash) ℓ.length dq.1 dq.2),
    tree_depth⟩

end Linked

namespace VectorTree

/-- `Node` of the vector embodiment (src/vector/mod.rs lines 13-18). -/
inductive VNode (E H : Type) : Type where
  | Leaf (element : E)
  | Internal (hash : H)
  | Empty
deriving DecidableEq, Repr

/-- `VectorMerkleTree` (src/vector/mod.rs lines 79-83): a deque holding a
complete binary tree in level order (modelled as a list whose head is the
deque front), plus the `tree_depth` field, which for this embodiment is the
constructor argument itself (default 33). -/
structure VectorMerkleTree (E H : Type) : Type where
  nodes : List (VNode E H)
  tree_depth : ℕ
deriving DecidableEq, Repr

variable {E H : Type}

/-- `new_with_size` (src/vector/mod.rs lines 93-99). -/
def new_with_size (tree_depth : ℕ) : VectorMerkleTree E H := ⟨[], tree_depth⟩

/-- `is_complete` (src/vector/mod.rs lines 432-435): the node count is one
below a power of two. -/
def is_complete (num_nodes : ℕ) : Prop := (num_nodes + 1) &&& num_nodes = 0

instance (n : ℕ) : Decidable (is_complete n) := by
  unfold is_complete; infer_instance

/-- `is_leftmost_path` (src/vector/mod.rs lines 441-443): same test as
`is_complete`. -/
def is_leftmost_path (my_index : ℕ) : Prop := is_complete my_index

instance (n : ℕ) : Decidable (is_leftmost_path n) := by
  unfold is_leftmost_path; infer_instance

/-- `depth_at_index` (src/vector/mod.rs lines 448-450):
`floor(log2(index+1)) + 1`, in exact integer form — the value the
surrounding index arithmetic is written for.  The Rust source computes the
logarithm through `f32`; that computation, modelled by `depth_at_index_f32`
below, agrees with this under any faithful libm only for small indices and
deviates inside the reachable range (first libm-independently at
`index + 1 = 2^25 - 1`, whose `f32` cast rounds up to `2^25`) — the
divergence conjuncts of claims C3, C5, C7 and C8 settle the consequences
for `root_hash`, `witness`, `write`/`read` and `add`. -/
def depth_at_index (index : ℕ) : ℕ := floor_log2 (index + 1) + 1

/-- The value `first_leaf` (src/vector/mod.rs lines 454-459) computes for a
non-empty tree: `(1 <<< (depth_at_index (num_nodes - 1) - 1)) - 1`. -/
def first_leaf_val (num_nodes : ℕ) : ℕ :=
  (1 <<< (depth_at_index (num_nodes - 1) - 1)) - 1

/-- `first_leaf` itself panics on an empty tree. -/
def first_leaf (num_nodes : ℕ) : Res ℕ :=
  if num_nodes = 0 then .error .outOfBounds else .ok (first_leaf_val num_nodes)

/-- `first_leaf_by_num_leaves` (src/vector/mod.rs lines 463-469). -/
def first_leaf_by_num_leaves (num_leaves : ℕ) : Res ℕ :=
  match num_leaves with
  | 0 => .error .outOfBounds
  | 1 => .ok 0
  | n + 2 => .ok ((1 <<< depth_at_index n) - 1)

/-- `left_child_index` (src/vector/mod.rs lines 473-475). -/
def left_child_index (my_index : ℕ) : ℕ := (my_index + 1) * 2 - 1

/-- `parent_index` (src/vector/mod.rs lines 478-483): `ceil(i / 2) - 1`,
i.e. `(i - 1) / 2` for `i ≥ 1`, panicking at the root — the exact integer
form.  The Rust source casts the index to `f32` before the (exact) halving,
so the code computes `parent_index_val_f32` below, which deviates from this
at indices above `2^24` (at `i = 2^24 + 1` the cast ties to even, giving
`2^23 - 1` instead of `2^23`). -/
def parent_index (my_index : ℕ) : Res ℕ :=
  if my_index = 0 then .error .outOfBounds else .ok ((my_index - 1) / 2)

/-- `is_left_child` (src/vector/mod.rs lines 485-487): odd indices are left
children. -/
def is_left_child (my_index : ℕ) : Prop := my_index % 2 = 1

instance (n : ℕ) : Decidable (is_left_child n) := by
  unfold is_left_child; infer_instance

/-- `extract_hash` (src/vector/mod.rs lines 201-208): the hash carried at a
position, `none` when the position is missing or `Empty`. -/
def extract_hash (hasher : MerkleHasher E H) (nodes : List (VNode E H))
    (position : ℕ) : Option H :=
  match nodes[position]? with
  | none => none
  | some .Empty => none
  | some (.Leaf element) => some (hasher.merkle_hash element)
  | some (.Internal h) => some h

/-- One internal node as recomputed by `rehash_all_levels`
(src/vector/mod.rs lines 138-151), from the child hashes found in the
current deque. -/
def internal_from_children (hasher : MerkleHasher E H) (child_node_depth : ℕ)
    (left right : Option H) : Res (VNode E H) :=
  match left, right with
  | none, none => .ok .Empty
  | some h, none => .ok (.Internal (hasher.combine_hash child_node_depth h h))
  | some l, some r => .ok (.Internal (hasher.combine_hash child_node_depth l r))
  | none, some _ => .error .invalidStructure

/-- The push-front loop of `rehash_all_levels` (src/vector/mod.rs lines
133-158), processing internal indices downward from the current one.  At
index `i` the deque holds the already-rebuilt internals `i+1 ..` followed by
the leaves, so the children of `i` (global indices `2i+1`, `2i+2`) sit at
deque offsets `i` and `i+1`. -/
def rehash_levels_go (hasher : MerkleHasher E H) (internal_depth : ℕ) :
    ℕ → List (VNode E H) → Res (List (VNode E H))
  | 0, dq => do
    let n ← internal_from_children hasher (internal_depth - depth_at_index 0)
      (extract_hash hasher dq 0) (extract_hash hasher dq 1)
    .ok (n :: dq)
  | i + 1, dq => do
    let n ← internal_from_children hasher
      (internal_depth - depth_at_index (i + 1))
      (extract_hash hasher dq (i + 1)) (extract_hash hasher dq (i + 2))
    rehash_levels_go hasher internal_depth i (n :: dq)

/-- `rehash_all_levels` (src/vector/mod.rs lines 126-159): assuming the
deque holds only leaves, push all internal nodes onto the front, deepest
level first. -/
def rehash_all_levels (hasher : MerkleHasher E H) (t : VectorMerkleTree E H) :
    Res (VectorMerkleTree E H) := do
  let num_internal ← first_leaf_by_num_leaves t.nodes.length
  if num_internal = 0 then return t
  let internal_depth := depth_at_index (num_internal - 1)
  let dq ← rehash_levels_go hasher internal_depth (num_internal - 1) t.nodes
  return { t with nodes := dq }

/-- The parent-updating loop of `rehash_leaf_path` (src/vector/mod.rs lines
161-192), walking from a position to the root and rewriting each parent's
hash. -/
def rehash_leaf_path_go (hasher : MerkleHasher E H) :
    ℕ → ℕ → ℕ → List (VNode E H) → Res (List (VNode E H))
  | 0, _, _, _ => .error .fuelOut
  | _ + 1, 0, _, dq => .ok dq
  | fuel + 1, current_position, depth, dq => do
    let parent_position := (current_position - 1) / 2
    let left :=
      if is_left_child current_position then
        extract_hash hasher dq current_position
      else extract_hash hasher dq (current_position - 1)
    let right :=
      if is_left_child current_position then
        extract_hash hasher dq (current_position + 1)
      else extract_hash hasher dq current_position
    let parent_hash ←
      match left, right with
      | some h, none => .ok (hasher.combine_hash depth h h)
      | some l, some r => .ok (hasher.combine_hash depth l r)
      | _, _ => .error .invalidStructure
    rehash_leaf_path_go hasher fuel parent_position (depth + 1)
      (dq.set parent_position (.Internal parent_hash))

/-- `rehash_leaf_path` (src/vector/mod.rs lines 161-192): recompute the
hashes on the path from the last node to the root. -/
def rehash_leaf_path (hasher : MerkleHasher E H) (t : VectorMerkleTree E H) :
    Res (VectorMerkleTree E H) := do
  if t.nodes.length = 0 then throw .underflow
  let dq ← rehash_leaf_path_go hasher (t.nodes.length + 1) (t.nodes.length - 1)
    0 t.nodes
  return { t with nodes := dq }

/-- `len` (src/vector/mod.rs lines 264-270). -/
def len (t : VectorMerkleTree E H) : ℕ :=
  if t.nodes.length = 0 then 0
  else t.nodes.length - first_leaf_val t.nodes.length

/-- `add_leaf_rehash` (src/vector/mod.rs lines 105-114): push the new leaf,
drop the old internal prefix, and rebuild every level. -/
def add_leaf_rehash (hasher : MerkleHasher E H) (t : VectorMerkleTree E H)
    (element : E) : Res (VectorMerkleTree E H) := do
  let old_leaf_start ← first_leaf t.nodes.length
  let t := { t with nodes := (t.nodes ++ [VNode.Leaf element]).drop old_leaf_start }
  rehash_all_levels hasher t

/-- `VectorMerkleTree::add` (src/vector/mod.rs lines 237-249): first leaf
straight in; on a complete tree check capacity (panic when a new level
would exceed `tree_depth + 1` levels) and rebuild; otherwise push and
rehash the leaf path. -/
def add (hasher : MerkleHasher E H) (t : VectorMerkleTree E H) (element : E) :
    Res (VectorMerkleTree E H) := do
  if t.nodes.length = 0 then
    return { t with nodes := [VNode.Leaf element] }
  if is_complete t.nodes.length then
    if depth_at_index t.nodes.length = t.tree_depth + 1 then
      throw .treeFull
    else
      add_leaf_rehash hasher t element
  else
    rehash_leaf_path hasher { t with nodes := t.nodes ++ [VNode.Leaf element] }

/-- `get` (src/vector/mod.rs lines 252-261). -/
def get (t : VectorMerkleTree E H) (position : ℕ) : Option E :=
  if t.nodes.length = 0 then none
  else
    match t.nodes[first_leaf_val t.nodes.length + position]? with
    | some (.Leaf element) => some element
    | _ => none

/-- `truncate` (src/vector/mod.rs lines 273-293): no-op at or above the
current size, clear at zero; otherwise pop the dropped leaves from the
back, pop the old internals from the front, and rebuild every level. -/
def truncate (hasher : MerkleHasher E H) (t : VectorMerkleTree E H)
    (past_size : ℕ) : Res (VectorMerkleTree E H) := do
  if past_size ≥ len t then return t
  if past_size = 0 then return { t with nodes := [] }
  let old_leaf_start := first_leaf_val t.nodes.length
  let t := { t with
    nodes := (t.nodes.take (t.nodes.length - (len t - past_size))).drop
      old_leaf_start }
  rehash_all_levels hasher t

/-- `iter_notes` (src/vector/mod.rs lines 22-56, 297-301): clones of the
nodes from the first leaf onward, panicking if one of them is not a leaf. -/
def iter_notes (t : VectorMerkleTree E H) : Res (List E) :=
  (t.nodes.drop (if t.nodes.length = 0 then 0
    else first_leaf_val t.nodes.length)).mapM fun n =>
      match n with
      | .Leaf element => .ok element
      | _ => .error .invalidStructure

/-- `VectorMerkleTree::root_hash` (src/vector/mod.rs lines 304-312): the
hash at position 0 lifted by self-pairing once per missing level, the
combine depth running from `depth_at_index (nodes.len() - 1) - 1`. -/
def root_hash (hasher : MerkleHasher E H) (t : VectorMerkleTree E H) :
    Option H :=
  (extract_hash hasher t.nodes 0).map fun h =>
    Sled.lift_self hasher (depth_at_index (t.nodes.length - 1) - 1)
      (t.tree_depth - depth_at_index (t.nodes.length - 1)) h

/-- The upward walk of `past_root` (src/vector/mod.rs lines 324-341): climb
until the leftmost path is reached, self-pairing at left children and
combining with the left sibling at right children. -/
def past_root_go (hasher : MerkleHasher E H) (nodes : List (VNode E H)) :
    ℕ → ℕ → ℕ → H → Res (ℕ × H)
  | 0, _, _, _ => .error .fuelOut
  | fuel + 1, cur, depth, current_hash =>
    if is_leftmost_path cur then .ok (depth, current_hash)
    else do
      let current_hash ←
        if is_left_child cur then
          Except.ok (hasher.combine_hash depth current_hash current_hash)
        else
          match extract_hash hasher nodes (cur - 1) with
          | some sibling =>
              Except.ok (hasher.combine_hash depth sibling current_hash)
          | none => Except.error .expectFailed
      past_root_go hasher nodes fuel ((cur - 1) / 2) (depth + 1) current_hash

/-- `VectorMerkleTree::past_root` (src/vector/mod.rs lines 315-350): `none`
when the tree is empty or `past_size > len`.  There is no check for
`past_size = 0`: the start position is then `first_leaf - 1`, so on a tree
with at least two leaves the walk starts at the last internal node before
the leaves and returns a hash (for a single-node tree the subtraction
underflows, a panic). -/
def past_root (hasher : MerkleHasher E H) (t : VectorMerkleTree E H)
    (past_size : ℕ) : Res (Option H) := do
  if t.nodes.length = 0 ∨ past_size > len t then return none
  if first_leaf_val t.nodes.length + past_size = 0 then throw .underflow
  let cur := first_leaf_val t.nodes.length + past_size - 1
  let current_hash ←
    match extract_hash hasher t.nodes cur with
    | some h => Except.ok h
    | none => Except.error .expectFailed
  let dh ← past_root_go hasher t.nodes (cur + 1) cur 0 current_hash
  return some (Sled.lift_self hasher dh.1 (t.tree_depth - 1 - dh.1) dh.2)

/-- The climbing loop of `witness` (src/vector/mod.rs lines 381-399): record
the sibling hash at each level from the leaf to the root.  Returns the path
entries in push order together with the final depth. -/
def witness_go (hasher : MerkleHasher E H) (nodes : List (VNode E H)) :
    ℕ → ℕ → ℕ → Res (List (WitnessNode H) × ℕ)
  | 0, _, _ => .error .fuelOut
  | _ + 1, 0, depth => .ok ([], depth)
  | fuel + 1, cur, depth => do
    let my_hash ←
      match extract_hash hasher nodes cur with
      | some h => Except.ok h
      | none => Except.error .invalidStructure
    let entry : WitnessNode H ←
      if is_left_child cur then
        Except.ok (.Left ((extract_hash hasher nodes (cur + 1)).getD my_hash))
      else
        match extract_hash hasher nodes (cur - 1) with
        | some sibling => Except.ok (.Right sibling)
        | none => Except.error .expectFailed
    let rest ← witness_go hasher nodes fuel ((cur - 1) / 2) (depth + 1)
    .ok (entry :: rest.1, rest.2)

/-- The padding loop of `witness` (src/vector/mod.rs lines 404-411): append
`Left` entries of the running self-paired hash until the path has
`tree_depth - 1` entries. -/
def witness_pad (hasher : MerkleHasher E H) :
    ℕ → ℕ → H → List (WitnessNode H)
  | 0, _, _ => []
  | count + 1, depth, sibling_hash =>
    .Left sibling_hash ::
      witness_pad hasher count (depth + 1)
        (hasher.combine_hash depth sibling_hash sibling_hash)

/-- `VectorMerkleTree::witness` (src/vector/mod.rs lines 373-418): `none`
out of range; otherwise climb from the leaf collecting sibling hashes, pad
with self-paired copies of the subtree root up to `tree_depth - 1` entries,
and capture `root_hash()` and `len()`. -/
def witness (hasher : MerkleHasher E H) (t : VectorMerkleTree E H)
    (position : ℕ) : Res (Option (Witness H)) := do
  if len t = 0 ∨ position ≥ len t then return none
  let start := first_leaf_val t.nodes.length + position
  let pd ← witness_go hasher t.nodes (start + 1) start 0
  let sibling_hash ←
    match extract_hash hasher t.nodes 0 with
    | some h => Except.ok h
    | none => Except.error .expectFailed
  let auth_path := pd.1 ++
    witness_pad hasher (t.tree_depth - 1 - pd.1.length) pd.2 sibling_hash
  let root ←
    match root_hash hasher t with
    | some h => Except.ok h
    | none => Except.error .expectFailed
  return some ⟨len t, root, auth_path⟩

/-- Little-endian `u32` bytes of a number (after `as u32` truncation). -/
def le32 (n : ℕ) : List ℕ :=
  [n % 2 ^ 32 % 256, n % 2 ^ 32 / 256 % 256, n % 2 ^ 32 / 2 ^ 16 % 256,
    n % 2 ^ 32 / 2 ^ 24 % 256]

/-- `VectorMerkleTree::write` (src/vector/mod.rs lines 420-427):
`tree_depth` as one byte, the leaf count as little-endian `u32`, then each
element through the hasher's codec. -/
def write (codec : ElementCodec E) (t : VectorMerkleTree E H) :
    Res (List ℕ) := do
  let notes ← iter_notes t
  return [t.tree_depth % 256] ++ le32 (len t) ++
    (notes.map codec.write_element).flatten

/-- The element-reading loop of `read`: decode and `add` the given number of
elements.  `.ok none` is an I/O-class decode failure, `.error` a panic
inside `add`. -/
def read_go (hasher : MerkleHasher E H) (codec : ElementCodec E) :
    ℕ → List ℕ → VectorMerkleTree E H →
    Except PanicKind (Option (VectorMerkleTree E H))
  | 0, _, t => .ok (some t)
  | n + 1, bytes, t =>
    match codec.read_element bytes with
    | none => .ok none
    | some (e, rest) =>
      match add hasher t e with
      | .error k => .error k
      | .ok t' => read_go hasher codec n rest t'

/-- `VectorMerkleTree::read` (src/vector/mod.rs lines 214-222): one depth
byte, a little-endian `u32` count, then that many elements added in order
to a fresh tree of the read depth. -/
def read (hasher : MerkleHasher E H) (codec : ElementCodec E)
    (bytes : List ℕ) : Except PanicKind (Option (VectorMerkleTree E H)) :=
  match bytes with
  | d :: b0 :: b1 :: b2 :: b3 :: rest =>
    read_go hasher codec (b0 + 256 * b1 + 2 ^ 16 * b2 + 2 ^ 24 * b3) rest
      (new_with_size d)
  | _ => .ok none

/-- Build a vector tree of the given depth by adding the elements in
order. -/
def build (hasher : MerkleHasher E H) (tree_depth : ℕ) (elements : List E) :
    Res (VectorMerkleTree E H) :=
  elements.foldlM (add hasher) (new_with_size tree_depth)

/-! ### Canonical form

The deque of a vector tree holding `n` leaves is a complete binary tree in
level order: `internal_count n` internal slots followed by the `n` leaves,
where the number of levels is `depth_at_leaf_count n`.  The value of every
slot is a function of the leaf list alone; `canon` below is that canonical
state, and the theorems that follow show `add` and `truncate` map canonical
states to canonical states, which characterizes every reachable tree. -/

/-- Number of internal (non-leaf) slots of the canonical deque for `n`
leaves: `2 ^ (levels - 1) - 1`. -/
def internal_count (n : ℕ) : ℕ := 2 ^ (depth_at_leaf_count n - 1) - 1

/-- Height above the leaf level of heap position `i` in a tree of `L`
levels. -/
def node_height (L i : ℕ) : ℕ := L - 1 - floor_log2 (i + 1)

/-- Index of the first leaf lying under heap position `i` in a tree of `L`
levels. -/
def seg_start (L i : ℕ) : ℕ :=
  (i + 1) * 2 ^ node_height L i - 2 ^ (L - 1)

/-- The canonical internal node at heap position `i`: the padded subtree
hash of its leaf segment, or `Empty` when no leaf lies under it. -/
def inode (hasher : MerkleHasher E H) (hs : List H) (L i : ℕ) : VNode E H :=
  match padHash hasher (node_height L i)
      ((hs.drop (seg_start L i)).take (2 ^ node_height L i)) with
  | some x => .Internal x
  | none => .Empty

/-- The canonical deque for a given leaf list. -/
def canon_nodes (hasher : MerkleHasher E H) (ℓ : List E) : List (VNode E H) :=
  (List.range (internal_count ℓ.length)).map
    (inode hasher (ℓ.map hasher.merkle_hash) (depth_at_leaf_count ℓ.length))
    ++ ℓ.map VNode.Leaf

/-- The canonical vector tree for a given leaf list. -/
def canon (hasher : MerkleHasher E H) (tree_depth : ℕ) (ℓ : List E) :
    VectorMerkleTree E H :=
  ⟨canon_nodes hasher ℓ, tree_depth⟩

/-! #### Shape arithmetic -/

theorem depth_at_leaf_count_pos {n : ℕ} (h : 1 ≤ n) :
    1 ≤ depth_at_leaf_count n := by
  match n, h with
  | 1, _ => exact le_refl 1
  | k + 2, _ => simp [depth_at_leaf_count]

/-- `n` leaves fit in `levels n` levels. -/
theorem le_pow_depth {n : ℕ} (h : 1 ≤ n) :
    n ≤ 2 ^ (depth_at_leaf_count n - 1) := by
  match n, h with
  | 1, _ => simp [depth_at_leaf_count]
  | k + 2, _ =>
      have hL : depth_at_leaf_count (k + 2) - 1 = floor_log2 (k + 1) + 1 := by
        simp [depth_at_leaf_count]
      rw [hL]
      have h2 := lt_pow_floor_log2 (k + 1)
      omega

/-- `n` leaves overflow `levels n - 1` levels: more than half the bottom
level is occupied. -/
theorem pow_depth_lt {n : ℕ} (h : 1 ≤ n) :
    2 ^ (depth_at_leaf_count n - 1) < 2 * n := by
  match n, h with
  | 1, _ => simp [depth_at_leaf_count]
  | k + 2, _ =>
      have hL : depth_at_leaf_count (k + 2) - 1 = floor_log2 (k + 1) + 1 := by
        simp [depth_at_leaf_count]
      rw [hL, pow_succ]
      have h1 := pow_floor_log2_le (n := k + 1) (by omega)
      omega

/-- Children of heap position `i` sit one level lower: left child. -/
theorem floor_log2_left_child (i : ℕ) :
    floor_log2 (2 * i + 2) = floor_log2 (i + 1) + 1 := by
  have h1 := pow_floor_log2_le (n := i + 1) (by omega)
  have h2 := lt_pow_floor_log2 (i + 1)
  refine floor_log2_eq_of ?_ ?_ <;> rw [pow_succ] <;> omega

/-- Children of heap position `i` sit one level lower: right child. -/
theorem floor_log2_right_child (i : ℕ) :
    floor_log2 (2 * i + 3) = floor_log2 (i + 1) + 1 := by
  have h1 := pow_floor_log2_le (n := i + 1) (by omega)
  have h2 := lt_pow_floor_log2 (i + 1)
  refine floor_log2_eq_of ?_ ?_
  · rw [pow_succ]; omega
  · rw [pow_succ, pow_succ]; omega

/-- A heap position's weight reaches the bottom level: no underflow in
`seg_start`. -/
theorem pow_le_mul_node_height {L i : ℕ} (h : floor_log2 (i + 1) ≤ L - 1) :
    2 ^ (L - 1) ≤ (i + 1) * 2 ^ node_height L i := by
  have h1 := pow_floor_log2_le (n := i + 1) (by omega)
  have : 2 ^ (L - 1) = 2 ^ floor_log2 (i + 1) * 2 ^ node_height L i := by
    rw [← pow_add]
    congr 1
    unfold node_height
    omega
  rw [this]
  exact Nat.mul_le_mul_right _ h1

theorem node_height_left_child {L i : ℕ}
    (h : floor_log2 (i + 1) + 2 ≤ L) :
    node_height L (2 * i + 1) = node_height L i - 1 := by
  unfold node_height
  have : 2 * i + 1 + 1 = 2 * i + 2 := rfl
  rw [this, floor_log2_left_child]
  omega

theorem node_height_right_child {L i : ℕ}
    (h : floor_log2 (i + 1) + 2 ≤ L) :
    node_height L (2 * i + 2) = node_height L i - 1 := by
  unfold node_height
  have : 2 * i + 2 + 1 = 2 * i + 3 := rfl
  rw [this, floor_log2_right_child]
  omega

theorem node_height_pos {L i : ℕ} (h : floor_log2 (i + 1) + 2 ≤ L) :
    1 ≤ node_height L i := by
  unfold node_height
  omega

theorem seg_start_left_child {L i : ℕ}
    (h : floor_log2 (i + 1) + 2 ≤ L) :
    seg_start L (2 * i + 1) = seg_start L i := by
  unfold seg_start
  rw [node_height_left_child h]
  obtain ⟨k, hk⟩ : ∃ k, node_height L i = k + 1 :=
    ⟨node_height L i - 1, by have := node_height_pos h; omega⟩
  rw [hk]
  simp only [Nat.add_sub_cancel]
  have hexp : (2 * i + 1 + 1) * 2 ^ k = (i + 1) * 2 ^ (k + 1) := by
    rw [pow_succ]
    ring
  rw [hexp]

theorem seg_start_right_child {L i : ℕ}
    (h : floor_log2 (i + 1) + 2 ≤ L) :
    seg_start L (2 * i + 2) = seg_start L i + 2 ^ (node_height L i - 1) := by
  unfold seg_start
  rw [node_height_right_child h]
  obtain ⟨k, hk⟩ : ∃ k, node_height L i = k + 1 :=
    ⟨node_height L i - 1, by have := node_height_pos h; omega⟩
  have hle := pow_le_mul_node_height (L := L) (i := i) (by omega)
  rw [hk] at hle ⊢
  simp only [Nat.add_sub_cancel]
  have hexp : (2 * i + 2 + 1) * 2 ^ k = (i + 1) * 2 ^ (k + 1) + 2 ^ k := by
    rw [pow_succ]
    ring
  rw [hexp, Nat.sub_add_comm hle]

theorem canon_nodes_length (hasher : MerkleHasher E H) (ℓ : List E) :
    (canon_nodes hasher ℓ).length = internal_count ℓ.length + ℓ.length := by
  simp [canon_nodes]

theorem internal_count_pos_iff {n : ℕ} (h : 1 ≤ n) :
    1 ≤ internal_count n ↔ 2 ≤ n := by
  unfold internal_count
  constructor
  · intro hI
    by_contra hn
    have : n = 1 := by omega
    subst this
    simp [depth_at_leaf_count] at hI
  · intro h2
    match n, h2 with
    | k + 2, _ =>
        have : depth_at_leaf_count (k + 2) - 1 = floor_log2 (k + 1) + 1 := by
          simp [depth_at_leaf_count]
        rw [this]
        have : (1:ℕ) ≤ 2 ^ (floor_log2 (k + 1) + 1) :=
          Nat.one_le_two_pow
        omega

/-- Positions below `internal_count` are strictly above the leaf level. -/
theorem internal_level {n i : ℕ} (hi : i < internal_count n) :
    floor_log2 (i + 1) + 2 ≤ depth_at_leaf_count n := by
  unfold internal_count at hi
  by_contra hcon
  have hfl : depth_at_leaf_count n - 1 ≤ floor_log2 (i + 1) := by omega
  have h1 : 2 ^ (depth_at_leaf_count n - 1) ≤ 2 ^ floor_log2 (i + 1) :=
    Nat.pow_le_pow_right (by norm_num) hfl
  have h2 := pow_floor_log2_le (n := i + 1) (by omega)
  omega

/-- Leaf positions of the canonical deque sit exactly at the bottom
level. -/
theorem leaf_level {n i : ℕ} (h1 : 1 ≤ n) (hm : internal_count n ≤ i)
    (hi : i < internal_count n + n) :
    floor_log2 (i + 1) = depth_at_leaf_count n - 1 := by
  have hn := le_pow_depth h1
  unfold internal_count at hm hi
  have hp : (1:ℕ) ≤ 2 ^ (depth_at_leaf_count n - 1) := Nat.one_le_two_pow
  refine floor_log2_eq_of (by omega) ?_
  have : 2 ^ (depth_at_leaf_count n - 1 + 1) = 2 ^ (depth_at_leaf_count n - 1) * 2 := by
    rw [pow_succ]
  omega

/-- Positions past the canonical deque are at or below the bottom level. -/
theorem beyond_level {n i : ℕ} (h1 : 1 ≤ n)
    (hi : internal_count n + n ≤ i) :
    depth_at_leaf_count n - 1 ≤ floor_log2 (i + 1) := by
  have hp : (1:ℕ) ≤ 2 ^ (depth_at_leaf_count n - 1) := Nat.one_le_two_pow
  unfold internal_count at hi
  by_contra hcon
  have hlt : floor_log2 (i + 1) + 1 ≤ depth_at_leaf_count n - 1 := by omega
  have h2 : 2 ^ (floor_log2 (i + 1) + 1) ≤ 2 ^ (depth_at_leaf_count n - 1) :=
    Nat.pow_le_pow_right (by norm_num) hlt
  have h3 := lt_pow_floor_log2 (i + 1)
  omega

/-- The central extraction identity: the hash found at any position of the
canonical deque is the padded subtree hash of that position's leaf
segment. -/
theorem padHash_nil (hasher : MerkleHasher E H) (j : ℕ) :
    padHash hasher j [] = none := by
  cases j <;> rfl

theorem extract_canon (hasher : MerkleHasher E H) (ℓ : List E) (i : ℕ) :
    extract_hash hasher (canon_nodes hasher ℓ) i =
      padHash hasher (node_height (depth_at_leaf_count ℓ.length) i)
        (((ℓ.map hasher.merkle_hash).drop
          (seg_start (depth_at_leaf_count ℓ.length) i)).take
          (2 ^ node_height (depth_at_leaf_count ℓ.length) i)) := by
  rcases Nat.eq_zero_or_pos ℓ.length with h0 | hpos
  · have hℓ : ℓ = [] := List.length_eq_zero.mp h0
    subst hℓ
    have hm0 : internal_count 0 = 0 := by
      norm_num [internal_count, depth_at_leaf_count]
    simp [canon_nodes, hm0, extract_hash, padHash_nil]
  · have hmval : internal_count ℓ.length =
        2 ^ (depth_at_leaf_count ℓ.length - 1) - 1 := rfl
    have hpow : (1:ℕ) ≤ 2 ^ (depth_at_leaf_count ℓ.length - 1) :=
      Nat.one_le_two_pow
    rcases Nat.lt_or_ge i (internal_count ℓ.length) with hint | hge
    · have hget : (canon_nodes hasher ℓ)[i]? =
          some (inode hasher (ℓ.map hasher.merkle_hash)
            (depth_at_leaf_count ℓ.length) i) := by
        unfold canon_nodes
        rw [List.getElem?_append_left (by simpa using hint)]
        simp [List.getElem?_range, hint]
      simp only [extract_hash, hget]
      unfold inode
      cases hp : padHash hasher (node_height (depth_at_leaf_count ℓ.length) i)
          (((ℓ.map hasher.merkle_hash).drop
            (seg_start (depth_at_leaf_count ℓ.length) i)).take
            (2 ^ node_height (depth_at_leaf_count ℓ.length) i)) with
      | none => simp [hp]
      | some x => simp [hp]
    · rcases Nat.lt_or_ge i (internal_count ℓ.length + ℓ.length) with hlt | hbig
      · have hfl : floor_log2 (i + 1) = depth_at_leaf_count ℓ.length - 1 :=
          leaf_level hpos hge hlt
        have hht : node_height (depth_at_leaf_count ℓ.length) i = 0 := by
          unfold node_height
          omega
        have hseg : seg_start (depth_at_leaf_count ℓ.length) i =
            i - internal_count ℓ.length := by
          unfold seg_start
          rw [hht]
          simp only [pow_zero, Nat.mul_one]
          omega
        have hidx : i - internal_count ℓ.length < ℓ.length := by omega
        have hget : (canon_nodes hasher ℓ)[i]? =
            some (.Leaf (ℓ.get ⟨i - internal_count ℓ.length, hidx⟩)) := by
          unfold canon_nodes
          rw [List.getElem?_append_right (by simpa using hge)]
          simp only [List.length_map, List.length_range]
          rw [List.getElem?_map]
          simp [List.getElem?_eq_getElem hidx, List.get_eq_getElem]
        simp only [extract_hash, hget, hseg, hht, pow_zero]
        have hdrop : (ℓ.map hasher.merkle_hash).drop
            (i - internal_count ℓ.length) =
            hasher.merkle_hash (ℓ.get ⟨i - internal_count ℓ.length, hidx⟩) ::
              (ℓ.map hasher.merkle_hash).drop
                (i - internal_count ℓ.length + 1) := by
          rw [List.drop_eq_getElem_cons (by simpa using hidx)]
          simp [List.get_eq_getElem]
        rw [hdrop]
        simp [padHash]
      · have hget : (canon_nodes hasher ℓ)[i]? = none := by
          rw [List.getElem?_eq_none]
          rw [canon_nodes_length]
          omega
        simp only [extract_hash, hget]
        have hfl : depth_at_leaf_count ℓ.length - 1 ≤ floor_log2 (i + 1) :=
          beyond_level hpos hbig
        have hht : node_height (depth_at_leaf_count ℓ.length) i = 0 := by
          unfold node_height
          omega
        have hseg : ℓ.length ≤ seg_start (depth_at_leaf_count ℓ.length) i := by
          unfold seg_start
          rw [hht]
          simp only [pow_zero, Nat.mul_one]
          omega
        have hdrop : (ℓ.map hasher.merkle_hash).drop
            (seg_start (depth_at_leaf_count ℓ.length) i) = [] := by
          rw [List.drop_eq_nil_iff_le]
          simpa using hseg
        rw [hdrop]
        simp [padHash_nil]

theorem padHash_succ (hasher : MerkleHasher E H) (j : ℕ) (hs : List H)
    (hne : hs ≠ []) :
    padHash hasher (j + 1) hs =
      match padHash hasher j (hs.take (2 ^ j)),
          padHash hasher j (hs.drop (2 ^ j)) with
      | some l, some r => some (hasher.combine_hash j l r)
      | some l, none => some (hasher.combine_hash j l l)
      | none, _ => none := by
  cases hs with
  | nil => exact absurd rfl hne
  | cons a l => rfl

theorem padHash_eq_none_iff (hasher : MerkleHasher E H) :
    ∀ (j : ℕ) (hs : List H), padHash hasher j hs = none ↔ hs = [] := by
  intro j
  induction j with
  | zero =>
      intro hs
      cases hs with
      | nil => simp [padHash_nil]
      | cons a l => simp [padHash]
  | succ j ih =>
      intro hs
      cases hs with
      | nil => simp [padHash_nil]
      | cons a l =>
          rw [padHash_succ hasher j (a :: l) (by simp)]
          have hpow : 1 ≤ 2 ^ j := Nat.one_le_two_pow
          have hne : (a :: l).take (2 ^ j) ≠ [] := by
            cases hp : 2 ^ j with
            | zero => omega
            | succ k => simp [List.take_cons]
          cases hl : padHash hasher j ((a :: l).take (2 ^ j)) with
          | none => exact absurd ((ih _).mp hl) hne
          | some x =>
              cases hr : padHash hasher j ((a :: l).drop (2 ^ j)) with
              | none => simp
              | some y => simp

/-- Splitting a canonical segment at an internal position into the segments
of its two children. -/
theorem padHash_children (hasher : MerkleHasher E H) (hs : List H) {L i : ℕ}
    (h : floor_log2 (i + 1) + 2 ≤ L) :
    padHash hasher (node_height L i)
      ((hs.drop (seg_start L i)).take (2 ^ node_height L i)) =
      match
        padHash hasher (node_height L (2 * i + 1))
          ((hs.drop (seg_start L (2 * i + 1))).take
            (2 ^ node_height L (2 * i + 1))),
        padHash hasher (node_height L (2 * i + 2))
          ((hs.drop (seg_start L (2 * i + 2))).take
            (2 ^ node_height L (2 * i + 2))) with
      | some l, some r =>
          some (hasher.combine_hash (node_height L i - 1) l r)
      | some l, none => some (hasher.combine_hash (node_height L i - 1) l l)
      | none, _ => none := by
  rw [node_height_left_child h, node_height_right_child h,
    seg_start_left_child h, seg_start_right_child h]
  obtain ⟨k, hk⟩ : ∃ k, node_height L i = k + 1 :=
    ⟨node_height L i - 1, by have := node_height_pos h; omega⟩
  rw [hk]
  simp only [Nat.add_sub_cancel]
  have htake : ((hs.drop (seg_start L i)).take (2 ^ (k + 1))).take (2 ^ k) =
      (hs.drop (seg_start L i)).take (2 ^ k) := by
    rw [List.take_take]
    congr 1
    have : (2:ℕ) ^ k ≤ 2 ^ (k + 1) := Nat.pow_le_pow_right (by norm_num) (by omega)
    omega
  have hdrop : ((hs.drop (seg_start L i)).take (2 ^ (k + 1))).drop (2 ^ k) =
      (hs.drop (seg_start L i + 2 ^ k)).take (2 ^ k) := by
    rw [List.drop_take, List.drop_drop]
    have e1 : 2 ^ (k + 1) - 2 ^ k = 2 ^ k := by
      rw [pow_succ]
      omega
    rw [e1]
  cases hseg : hs.drop (seg_start L i) with
  | nil =>
      have hseg2 : hs.drop (seg_start L i + 2 ^ k) = [] := by
        have e2 : hs.drop (seg_start L i + 2 ^ k) =
            (hs.drop (seg_start L i)).drop (2 ^ k) := by
          rw [List.drop_drop]
        rw [e2, hseg, List.drop_nil]
      rw [hseg2]
      simp [padHash_nil]
  | cons a l =>
      have hne : ((a :: l).take (2 ^ (k + 1))) ≠ [] := by
        have hpow : 1 ≤ 2 ^ (k + 1) := Nat.one_le_two_pow
        cases hp : 2 ^ (k + 1) with
        | zero => omega
        | succ q => simp [List.take_cons]
      rw [padHash_succ hasher k _ hne]
      rw [← hseg, htake, hdrop]

/-- The loop body of `rehash_all_levels` recomputes exactly the canonical
internal node. -/
theorem internal_from_children_canon (hasher : MerkleHasher E H)
    (ℓ : List E) {i : ℕ} (hi : i < internal_count ℓ.length) :
    internal_from_children hasher
      (depth_at_leaf_count ℓ.length - 1 - depth_at_index i)
      (extract_hash hasher (canon_nodes hasher ℓ) (2 * i + 1))
      (extract_hash hasher (canon_nodes hasher ℓ) (2 * i + 2)) =
      .ok (inode hasher (ℓ.map hasher.merkle_hash)
        (depth_at_leaf_count ℓ.length) i) := by
  have hlev := internal_level hi
  have hdepth : depth_at_leaf_count ℓ.length - 1 - depth_at_index i =
      node_height (depth_at_leaf_count ℓ.length) i - 1 := by
    unfold depth_at_index node_height
    omega
  rw [hdepth, extract_canon, extract_canon]
  unfold inode
  rw [padHash_children hasher (ℓ.map hasher.merkle_hash) hlev]
  have hpow : 1 ≤ 2 ^ node_height (depth_at_leaf_count ℓ.length) (2 * i + 1) :=
    Nat.one_le_two_pow
  cases hl : padHash hasher (node_height (depth_at_leaf_count ℓ.length) (2 * i + 1))
      (((ℓ.map hasher.merkle_hash).drop
        (seg_start (depth_at_leaf_count ℓ.length) (2 * i + 1))).take
        (2 ^ node_height (depth_at_leaf_count ℓ.length) (2 * i + 1))) with
  | none =>
      have hnil := (padHash_eq_none_iff hasher _ _).mp hl
      have hnil' : (ℓ.map hasher.merkle_hash).drop
          (seg_start (depth_at_leaf_count ℓ.length) (2 * i + 1)) = [] := by
        rcases List.take_eq_nil_iff.mp hnil with h | h
        · omega
        · exact h
      have hnil2 : padHash hasher
          (node_height (depth_at_leaf_count ℓ.length) (2 * i + 2))
          (((ℓ.map hasher.merkle_hash).drop
            (seg_start (depth_at_leaf_count ℓ.length) (2 * i + 2))).take
            (2 ^ node_height (depth_at_leaf_count ℓ.length) (2 * i + 2))) =
          none := by
        rw [padHash_eq_none_iff hasher _ _]
        have hmono : seg_start (depth_at_leaf_count ℓ.length) (2 * i + 1) ≤
            seg_start (depth_at_leaf_count ℓ.length) (2 * i + 2) := by
          rw [seg_start_left_child hlev, seg_start_right_child hlev]
          exact Nat.le_add_right _ _
        have hlen := List.drop_eq_nil_iff_le.mp hnil'
        rw [List.take_eq_nil_iff]
        right
        rw [List.drop_eq_nil_iff_le]
        omega
      rw [hnil2]
      simp [internal_from_children]
  | some x =>
      cases hr : padHash hasher
          (node_height (depth_at_leaf_count ℓ.length) (2 * i + 2))
          (((ℓ.map hasher.merkle_hash).drop
            (seg_start (depth_at_leaf_count ℓ.length) (2 * i + 2))).take
            (2 ^ node_height (depth_at_leaf_count ℓ.length) (2 * i + 2))) with
      | none => simp [internal_from_children]
      | some y => simp [internal_from_children]

theorem getElem_shift {α : Type} (X Y : List α) (k o : ℕ) (hk : k ≤ X.length) :
    (X.drop k ++ Y)[o]? = (X ++ Y)[k + o]? := by
  rcases Nat.lt_or_ge o (X.length - k) with h | h
  · rw [List.getElem?_append_left (by simp only [List.length_drop]; omega),
      List.getElem?_append_left (by omega), List.getElem?_drop]
  · rw [List.getElem?_append_right (by simp only [List.length_drop]; omega),
      List.getElem?_append_right (by omega)]
    congr 1
    simp only [List.length_drop]
    omega

theorem extract_shift (hasher : MerkleHasher E H) (X Y : List (VNode E H))
    (k o : ℕ) (hk : k ≤ X.length) :
    extract_hash hasher (X.drop k ++ Y) o = extract_hash hasher (X ++ Y) (k + o) := by
  unfold extract_hash
  rw [getElem_shift X Y k o hk]

/-- The canonical internal prefix. -/
def canon_internals (hasher : MerkleHasher E H) (ℓ : List E) : List (VNode E H) :=
  (List.range (internal_count ℓ.length)).map
    (inode hasher (ℓ.map hasher.merkle_hash) (depth_at_leaf_count ℓ.length))

theorem canon_internals_length (hasher : MerkleHasher E H) (ℓ : List E) :
    (canon_internals hasher ℓ).length = internal_count ℓ.length := by
  simp [canon_internals]

theorem canon_internals_drop (hasher : MerkleHasher E H) (ℓ : List E)
    {j : ℕ} (hj : j < internal_count ℓ.length) :
    (canon_internals hasher ℓ).drop j =
      inode hasher (ℓ.map hasher.merkle_hash) (depth_at_leaf_count ℓ.length) j ::
        (canon_internals hasher ℓ).drop (j + 1) := by
  rw [List.drop_eq_getElem_cons (by simpa [canon_internals] using hj)]
  congr 1
  unfold canon_internals
  rw [List.getElem_map, List.getElem_range]

theorem canon_nodes_split (hasher : MerkleHasher E H) (ℓ : List E) :
    canon_nodes hasher ℓ = canon_internals hasher ℓ ++ ℓ.map VNode.Leaf := rfl

/-- Pushing the internal nodes from the deepest index down to index `j`
onto a deque that already holds the higher-indexed internals and the
leaves rebuilds the canonical deque. -/
theorem rehash_levels_go_canon (hasher : MerkleHasher E H) (ℓ : List E) :
    ∀ j, j < internal_count ℓ.length →
      rehash_levels_go hasher (depth_at_leaf_count ℓ.length - 1) j
        ((canon_internals hasher ℓ).drop (j + 1) ++ ℓ.map VNode.Leaf) =
        .ok (canon_nodes hasher ℓ) := by
  intro j
  induction j with
  | zero =>
      intro hj
      unfold rehash_levels_go
      rw [extract_shift hasher _ _ 1 0 (by rw [canon_internals_length]; omega),
        extract_shift hasher _ _ 1 1 (by rw [canon_internals_length]; omega)]
      rw [← canon_nodes_split]
      have hkey := internal_from_children_canon hasher ℓ (i := 0) hj
      norm_num at hkey ⊢
      rw [hkey]
      simp only [bind, Except.bind]
      have hdecomp := canon_internals_drop hasher ℓ (j := 0) hj
      norm_num at hdecomp
      rw [canon_nodes_split, hdecomp, List.cons_append]
      simp only [List.tail_cons]
  | succ j ih =>
      intro hj
      unfold rehash_levels_go
      rw [extract_shift hasher _ _ (j + 2) (j + 1)
          (by rw [canon_internals_length]; omega),
        extract_shift hasher _ _ (j + 2) (j + 2)
          (by rw [canon_internals_length]; omega)]
      rw [← canon_nodes_split]
      rw [show j + 2 + (j + 1) = 2 * (j + 1) + 1 by omega,
        show j + 2 + (j + 2) = 2 * (j + 1) + 2 by omega]
      rw [internal_from_children_canon hasher ℓ (i := j + 1) hj]
      simp only [bind, Except.bind]
      rw [← List.cons_append, ← canon_internals_drop hasher ℓ hj]
      exact ih (by omega)

theorem first_leaf_by_num_leaves_canon {n : ℕ} (h : 1 ≤ n) :
    first_leaf_by_num_leaves n = .ok (internal_count n) := by
  match n, h with
  | 1, _ =>
      have : internal_count 1 = 0 := by
        norm_num [internal_count, depth_at_leaf_count]
      rw [this]
      rfl
  | k + 2, _ =>
      show Except.ok ((1 <<< depth_at_index k) - 1) = _
      have : depth_at_index k = depth_at_leaf_count (k + 2) - 1 := by
        simp [depth_at_index, depth_at_leaf_count]
      rw [this]
      unfold internal_count
      rw [Nat.shiftLeft_eq, one_mul]

theorem depth_at_index_internal {n : ℕ} (h : 2 ≤ n) :
    depth_at_index (internal_count n - 1) = depth_at_leaf_count n - 1 := by
  have hL : 2 ≤ depth_at_leaf_count n := by
    match n, h with
    | k + 2, _ => simp [depth_at_leaf_count]
  have hm : internal_count n = 2 ^ (depth_at_leaf_count n - 1) - 1 := rfl
  have hpow2 : 2 ^ (depth_at_leaf_count n - 2) * 2 = 2 ^ (depth_at_leaf_count n - 1) := by
    rw [← pow_succ]
    congr 1
    omega
  have hpos : (1:ℕ) ≤ 2 ^ (depth_at_leaf_count n - 2) := Nat.one_le_two_pow
  unfold depth_at_index
  have harg : internal_count n - 1 + 1 = 2 ^ (depth_at_leaf_count n - 1) - 1 := by
    have hpos1 : (1:ℕ) ≤ 2 ^ (depth_at_leaf_count n - 1) := Nat.one_le_two_pow
    omega
  rw [harg]
  have hfl : floor_log2 (2 ^ (depth_at_leaf_count n - 1) - 1) =
      depth_at_leaf_count n - 2 := by
    refine floor_log2_eq_of (by omega) (by omega)
  rw [hfl]
  omega

/-- `rehash_all_levels` on a leaves-only deque produces the canonical
deque. -/
theorem rehash_all_levels_canon (hasher : MerkleHasher E H) (ℓ : List E)
    (td : ℕ) (h1 : 1 ≤ ℓ.length) :
    rehash_all_levels hasher ⟨ℓ.map VNode.Leaf, td⟩ = .ok (canon hasher td ℓ) := by
  unfold rehash_all_levels
  simp only [List.length_map]
  rw [first_leaf_by_num_leaves_canon h1]
  simp only [bind, Except.bind]
  rcases Nat.lt_or_ge ℓ.length 2 with hn1 | hn2
  · have hℓ1 : ℓ.length = 1 := by omega
    have hm : internal_count ℓ.length = 0 := by
      rw [hℓ1]
      norm_num [internal_count, depth_at_leaf_count]
    rw [hm]
    simp only [if_true]
    unfold canon
    rw [canon_nodes_split]
    unfold canon_internals
    rw [hm]
    simp only [List.range_zero, List.map_nil, List.nil_append]
    rfl
  · have hm : 1 ≤ internal_count ℓ.length :=
      (internal_count_pos_iff (by omega)).mpr hn2
    rw [if_neg (by omega)]
    rw [depth_at_index_internal hn2]
    have hstart : (ℓ.map VNode.Leaf : List (VNode E H)) =
        (canon_internals hasher ℓ).drop (internal_count ℓ.length - 1 + 1) ++
          ℓ.map VNode.Leaf := by
      rw [List.drop_eq_nil_of_le (by rw [canon_internals_length]; omega)]
      rfl
    rw [hstart, rehash_levels_go_canon hasher ℓ (internal_count ℓ.length - 1)
      (by omega)]
    rfl

/-! #### The incremental leaf-path rehash -/

theorem lt_div_succ_mul (a b : ℕ) (hb : 0 < b) : a < (a / b + 1) * b := by
  have h := Nat.div_add_mod a b
  have h2 := Nat.mod_lt a hb
  have h3 : (a / b + 1) * b = b * (a / b) + b := by ring
  omega

/-- `q` is a strict ancestor of `p` in heap coordinates. -/
def StrictAnc (q p : ℕ) : Prop := ∃ d, 1 ≤ d ∧ q + 1 = (p + 1) / 2 ^ d

theorem not_strictAnc_zero (q : ℕ) : ¬ StrictAnc q 0 := by
  rintro ⟨d, hd, hq⟩
  rw [show (0:ℕ) + 1 = 1 from rfl] at hq
  have h1 : (1:ℕ) / 2 ^ d = 0 := by
    apply Nat.div_eq_of_lt
    have : (2:ℕ) ^ 1 ≤ 2 ^ d := Nat.pow_le_pow_right (by norm_num) hd
    omega
  omega

theorem not_strictAnc_self (p : ℕ) : ¬ StrictAnc p p := by
  rintro ⟨d, hd, hq⟩
  have h2 : (2:ℕ) ^ 1 ≤ 2 ^ d := Nat.pow_le_pow_right (by norm_num) hd
  have : (p + 1) / 2 ^ d ≤ (p + 1) / 2 := by
    apply Nat.div_le_div_left (by omega) (by omega)
  omega

theorem parent_succ (p : ℕ) (hp : 1 ≤ p) : (p - 1) / 2 + 1 = (p + 1) / 2 := by
  omega

theorem strictAnc_step {q p : ℕ} (hp : 1 ≤ p) :
    StrictAnc q p ↔ q = (p - 1) / 2 ∨ StrictAnc q ((p - 1) / 2) := by
  constructor
  · rintro ⟨d, hd, hq⟩
    match d, hd with
    | 1, _ =>
        left
        rw [pow_one] at hq
        omega
    | e + 2, _ =>
        right
        refine ⟨e + 1, by omega, ?_⟩
        rw [parent_succ p hp, Nat.div_div_eq_div_mul]
        rw [show (2:ℕ) ^ (e + 2) = 2 * 2 ^ (e + 1) by ring] at hq
        exact hq
  · rintro (hq | ⟨d, hd, hq⟩)
    · exact ⟨1, le_refl 1, by rw [pow_one]; omega⟩
    · refine ⟨d + 1, by omega, ?_⟩
      rw [parent_succ p hp, Nat.div_div_eq_div_mul] at hq
      rw [show (2:ℕ) ^ (d + 1) = 2 * 2 ^ d by ring]
      exact hq

theorem floor_log2_div_pow {x d f : ℕ} (hf : floor_log2 x = f)
    (hd : d ≤ f) (hx : 1 ≤ x) :
    floor_log2 (x / 2 ^ d) = f - d := by
  have hle : 2 ^ f ≤ x := by rw [← hf]; exact pow_floor_log2_le (by omega)
  have hlt : x < 2 ^ (f + 1) := by rw [← hf]; exact lt_pow_floor_log2 x
  refine floor_log2_eq_of ?_ ?_
  · have : 2 ^ (f - d) = 2 ^ f / 2 ^ d := by
      rw [Nat.pow_div hd (by norm_num)]
    rw [this]
    exact Nat.div_le_div_right hle
  · rw [Nat.div_lt_iff_lt_mul (Nat.pos_pow_of_pos d (by norm_num))]
    calc x < 2 ^ (f + 1) := hlt
    _ ≤ 2 ^ (f - d + 1) * 2 ^ d := by
        rw [← pow_add]
        exact Nat.pow_le_pow_right (by norm_num) (by omega)

/-- Adding one leaf to a non-full bottom level keeps the level count. -/
theorem depth_succ_eq {n : ℕ} (h1 : 1 ≤ n)
    (h2 : n < 2 ^ (depth_at_leaf_count n - 1)) :
    depth_at_leaf_count (n + 1) = depth_at_leaf_count n := by
  match n, h1 with
  | 1, _ => norm_num [depth_at_leaf_count] at h2
  | k + 2, _ =>
      have hd : depth_at_leaf_count (k + 2) = floor_log2 (k + 1) + 2 := by
        simp [depth_at_leaf_count]
      have hd' : depth_at_leaf_count (k + 3) = floor_log2 (k + 2) + 2 := by
        simp [depth_at_leaf_count]
      rw [hd] at h2
      have heq : floor_log2 (k + 1) + 2 - 1 = floor_log2 (k + 1) + 1 := by
        omega
      rw [heq] at h2
      have hfl : floor_log2 (k + 2) = floor_log2 (k + 1) := by
        refine floor_log2_eq_of ?_ ?_
        · have := pow_floor_log2_le (n := k + 1) (by omega)
          omega
        · omega
      rw [hd, hd', hfl]

/-- Appending a leaf outside a window leaves the window unchanged. -/
theorem seg_stable (hs : List H) (x : H) {s c : ℕ}
    (hwin : hs.length < s ∨ s + c ≤ hs.length) :
    ((hs ++ [x]).drop s).take c = (hs.drop s).take c := by
  rcases hwin with h | h
  · have h1 : (hs ++ [x]).drop s = [] :=
      List.drop_eq_nil_of_le (by simp; omega)
    have h2 : hs.drop s = [] := List.drop_eq_nil_of_le (by omega)
    rw [h1, h2]
  · rw [List.drop_append_eq_append_drop]
    have h0 : s - hs.length = 0 := by omega
    rw [h0, List.drop_zero, List.take_append_eq_append_take]
    have hc : c - (hs.drop s).length = 0 := by
      simp only [List.length_drop]
      omega
    rw [hc, List.take_zero, List.append_nil]

theorem extract_congr (hasher : MerkleHasher E H) (dq dq' : List (VNode E H))
    (q : ℕ) (h : dq[q]? = dq'[q]?) :
    extract_hash hasher dq q = extract_hash hasher dq' q := by
  unfold extract_hash
  rw [h]

theorem floor_log2_ge_one {m : ℕ} (h : 2 ≤ m) : 1 ≤ floor_log2 m := by
  by_contra hc
  have h0 : floor_log2 m = 0 := by omega
  have h2 := lt_pow_floor_log2 m
  rw [h0] at h2
  norm_num at h2
  omega

theorem strictAnc_le {q p : ℕ} (h : StrictAnc q p) : q + 1 ≤ (p + 1) / 2 := by
  obtain ⟨d, hd, hq⟩ := h
  have h2 : (2:ℕ) ^ 1 ≤ 2 ^ d := Nat.pow_le_pow_right (by norm_num) hd
  have h3 : (p + 1) / 2 ^ d ≤ (p + 1) / 2 := by
    apply Nat.div_le_div_left (by omega) (by omega)
  omega

/-- The parent-walk of `rehash_leaf_path` started at the freshly appended
last leaf of the deque rewrites exactly the strict ancestors of that leaf:
if the deque already agrees with the canonical deque at every position that
is not a strict ancestor of the current one, the walk lands on the
canonical deque. -/
theorem rehash_leaf_path_go_canon (hasher : MerkleHasher E H) (ℓ : List E)
    (h1 : 1 ≤ ℓ.length) :
    ∀ fuel p d dq,
      p + 1 = (2 ^ (depth_at_leaf_count ℓ.length - 1) + (ℓ.length - 1)) / 2 ^ d →
      d ≤ depth_at_leaf_count ℓ.length - 1 →
      p + 1 ≤ fuel →
      dq.length = (canon_nodes hasher ℓ).length →
      (∀ q, ¬ StrictAnc q p → dq[q]? = (canon_nodes hasher ℓ)[q]?) →
      rehash_leaf_path_go hasher fuel p d dq = .ok (canon_nodes hasher ℓ) := by
  have hfl_P : floor_log2 (2 ^ (depth_at_leaf_count ℓ.length - 1) +
      (ℓ.length - 1)) = depth_at_leaf_count ℓ.length - 1 := by
    have hnS := le_pow_depth h1
    refine floor_log2_eq_of (Nat.le_add_right _ _) ?_
    rw [pow_succ]
    omega
  intro fuel
  induction fuel with
  | zero =>
      intro p d dq hp hd hfuel hlen hagree
      exact absurd hfuel (by omega)
  | succ f ih =>
      intro p d dq hp hd hfuel hlen hagree
      cases p with
      | zero =>
          have hdq : dq = canon_nodes hasher ℓ :=
            List.ext_getElem? fun q => hagree q (not_strictAnc_zero q)
          rw [hdq]
          rfl
      | succ pp =>
          have hflp : floor_log2 (pp + 1 + 1) =
              depth_at_leaf_count ℓ.length - 1 - d := by
            rw [hp]
            exact floor_log2_div_pow hfl_P hd (by
              have hpw : (1:ℕ) ≤ 2 ^ (depth_at_leaf_count ℓ.length - 1) :=
                Nat.one_le_two_pow
              omega)
          have h1fl : 1 ≤ floor_log2 (pp + 1 + 1) :=
            floor_log2_ge_one (by omega)
          have hdlt : d + 1 ≤ depth_at_leaf_count ℓ.length - 1 := by omega
          obtain ⟨m, hm2⟩ : ∃ m, (pp + 1 - 1) / 2 = m := ⟨_, rfl⟩
          have hchild : pp + 1 = 2 * m + 1 ∨ pp + 1 = 2 * m + 2 := by omega
          have hp' : m + 1 = (2 ^ (depth_at_leaf_count ℓ.length - 1) +
              (ℓ.length - 1)) / 2 ^ (d + 1) := by
            have he : m + 1 = (pp + 1 + 1) / 2 := by omega
            rw [he, hp, Nat.div_div_eq_div_mul, ← pow_succ]
          have hflm : floor_log2 (m + 1) =
              depth_at_leaf_count ℓ.length - 1 - (d + 1) := by
            rw [hp']
            exact floor_log2_div_pow hfl_P hdlt (by
              have hpw : (1:ℕ) ≤ 2 ^ (depth_at_leaf_count ℓ.length - 1) :=
                Nat.one_le_two_pow
              omega)
          have hlev_m : floor_log2 (m + 1) + 2 ≤
              depth_at_leaf_count ℓ.length := by omega
          have hht_m : node_height (depth_at_leaf_count ℓ.length) m = d + 1 := by
            unfold node_height
            omega
          have hm_int : m < internal_count ℓ.length := by
            have h2 := lt_pow_floor_log2 (m + 1)
            rw [hflm] at h2
            have h3 : (2:ℕ) ^ (depth_at_leaf_count ℓ.length - 1 - (d + 1) + 1) ≤
                2 ^ (depth_at_leaf_count ℓ.length - 1) :=
              Nat.pow_le_pow_right (by norm_num) (by omega)
            unfold internal_count
            omega
          have hmul : (m + 1) * 2 ^ (d + 1) ≤
              2 ^ (depth_at_leaf_count ℓ.length - 1) + (ℓ.length - 1) := by
            rw [hp']
            exact Nat.div_mul_le_self _ _
          have hseg_le : seg_start (depth_at_leaf_count ℓ.length) m ≤
              ℓ.length - 1 := by
            unfold seg_start
            rw [hht_m]
            omega
          have hna1 : ¬ StrictAnc (2 * m + 1) (pp + 1) := by
            intro hanc
            have hle := strictAnc_le hanc
            omega
          have hna2 : ¬ StrictAnc (2 * m + 2) (pp + 1) := by
            intro hanc
            have hle := strictAnc_le hanc
            omega
          have hLeq : extract_hash hasher dq (2 * m + 1) =
              extract_hash hasher (canon_nodes hasher ℓ) (2 * m + 1) :=
            extract_congr hasher _ _ _ (hagree _ hna1)
          have hReq : extract_hash hasher dq (2 * m + 2) =
              extract_hash hasher (canon_nodes hasher ℓ) (2 * m + 2) :=
            extract_congr hasher _ _ _ (hagree _ hna2)
          obtain ⟨lh, hPL⟩ : ∃ lh,
              extract_hash hasher (canon_nodes hasher ℓ) (2 * m + 1) =
                some lh := by
            cases hx : extract_hash hasher (canon_nodes hasher ℓ) (2 * m + 1) with
            | some y => exact ⟨y, rfl⟩
            | none =>
                exfalso
                rw [extract_canon] at hx
                rw [padHash_eq_none_iff] at hx
                rcases List.take_eq_nil_iff.mp hx with hz | hz
                · have hpw : (1:ℕ) ≤
                      2 ^ node_height (depth_at_leaf_count ℓ.length)
                        (2 * m + 1) := Nat.one_le_two_pow
                  omega
                · have hlen2 := List.drop_eq_nil_iff_le.mp hz
                  rw [seg_start_left_child hlev_m] at hlen2
                  simp only [List.length_map] at hlen2
                  omega
          have hlc_eq : (if is_left_child (pp + 1) then
                extract_hash hasher dq (pp + 1)
              else extract_hash hasher dq (pp + 1 - 1)) =
              extract_hash hasher dq (2 * m + 1) := by
            rcases hchild with h | h
            · rw [if_pos (by unfold is_left_child; omega)]
              rw [h]
            · rw [if_neg (by unfold is_left_child; omega)]
              congr 1
              omega
          have hrc_eq : (if is_left_child (pp + 1) then
                extract_hash hasher dq (pp + 1 + 1)
              else extract_hash hasher dq (pp + 1)) =
              extract_hash hasher dq (2 * m + 2) := by
            rcases hchild with h | h
            · rw [if_pos (by unfold is_left_child; omega)]
              congr 1
              omega
            · rw [if_neg (by unfold is_left_child; omega)]
              rw [h]
          have hmlen : m < dq.length := by
            rw [hlen, canon_nodes_length]
            omega
          have hNm0 : (canon_nodes hasher ℓ)[m]? =
              some (inode hasher (ℓ.map hasher.merkle_hash)
                (depth_at_leaf_count ℓ.length) m) := by
            unfold canon_nodes
            rw [List.getElem?_append_left (by simpa using hm_int)]
            simp [List.getElem?_range, hm_int]
          have hstep : ∀ v : VNode E H,
              (canon_nodes hasher ℓ)[m]? = some v →
              rehash_leaf_path_go hasher f m (d + 1) (dq.set m v) =
                .ok (canon_nodes hasher ℓ) := by
            intro v hv
            apply ih m (d + 1) (dq.set m v) hp' hdlt (by omega)
              (by rw [List.length_set]; exact hlen)
            intro q hq
            rcases eq_or_ne q m with rfl | hne
            · rw [List.getElem?_set_eq_of_lt _ hmlen, hv]
            · rw [List.getElem?_set_ne (by omega)]
              apply hagree
              intro hanc
              rw [strictAnc_step (by omega)] at hanc
              rw [hm2] at hanc
              rcases hanc with h | h
              · exact hne h
              · exact hq h
          have hsplit := padHash_children hasher (ℓ.map hasher.merkle_hash)
            hlev_m
          rw [← extract_canon hasher ℓ (2 * m + 1),
            ← extract_canon hasher ℓ (2 * m + 2), hPL] at hsplit
          simp only [rehash_leaf_path_go]
          rw [hlc_eq, hrc_eq, hLeq, hReq, hPL]
          cases hPR : extract_hash hasher (canon_nodes hasher ℓ) (2 * m + 2) with
          | some rh =>
              rw [hPR] at hsplit
              simp only [hht_m, Nat.add_sub_cancel] at hsplit
              simp only [bind, Except.bind]
              rw [hm2]
              exact hstep (VNode.Internal (hasher.combine_hash d lh rh)) (by
                rw [hNm0]
                unfold inode
                rw [hht_m, hsplit])
          | none =>
              rw [hPR] at hsplit
              simp only [hht_m, Nat.add_sub_cancel] at hsplit
              simp only [bind, Except.bind]
              rw [hm2]
              exact hstep (VNode.Internal (hasher.combine_hash d lh lh)) (by
                rw [hNm0]
                unfold inode
                rw [hht_m, hsplit])

/-! #### `add` maps canonical states to canonical states -/

theorem first_leaf_val_canon {n : ℕ} (h : 1 ≤ n) :
    first_leaf_val (internal_count n + n) = internal_count n := by
  have hS : (1:ℕ) ≤ 2 ^ (depth_at_leaf_count n - 1) := Nat.one_le_two_pow
  have hnS := le_pow_depth h
  have hm : internal_count n = 2 ^ (depth_at_leaf_count n - 1) - 1 := rfl
  unfold first_leaf_val depth_at_index
  have harg : internal_count n + n - 1 + 1 = internal_count n + n := by omega
  rw [harg]
  have hfl : floor_log2 (internal_count n + n) =
      depth_at_leaf_count n - 1 := by
    refine floor_log2_eq_of (by omega) ?_
    rw [pow_succ]
    omega
  rw [hfl]
  simp only [Nat.add_sub_cancel]
  rw [Nat.shiftLeft_eq, one_mul, hm]

theorem is_complete_iff (k : ℕ) : is_complete k ↔ ∃ j, k + 1 = 2 ^ j := by
  constructor
  · intro hc
    unfold is_complete at hc
    refine ⟨floor_log2 (k + 1), ?_⟩
    by_contra hne
    have hle : 2 ^ floor_log2 (k + 1) ≤ k + 1 := pow_floor_log2_le (by omega)
    have hlt : k + 1 < 2 ^ (floor_log2 (k + 1) + 1) := lt_pow_floor_log2 (k + 1)
    have hp2 : 2 ^ (floor_log2 (k + 1) + 1) =
        2 ^ floor_log2 (k + 1) * 2 := pow_succ 2 _
    have hdk : k / 2 ^ floor_log2 (k + 1) = 1 :=
      Nat.div_eq_of_lt_le (by omega) (by omega)
    have hdk1 : (k + 1) / 2 ^ floor_log2 (k + 1) = 1 :=
      Nat.div_eq_of_lt_le (by omega) (by omega)
    have hbit := congrArg (fun x => x.testBit (floor_log2 (k + 1))) hc
    simp only [Nat.testBit_and, Nat.zero_testBit] at hbit
    rw [Nat.testBit_to_div_mod, Nat.testBit_to_div_mod, hdk, hdk1] at hbit
    norm_num at hbit
  · rintro ⟨j, hj⟩
    unfold is_complete
    have hk : k = 2 ^ j - 1 := by omega
    apply Nat.eq_of_testBit_eq
    intro i
    rw [Nat.testBit_and, Nat.zero_testBit, hj, hk,
      Nat.testBit_two_pow_sub_one]
    rcases eq_or_ne j i with rfl | hne
    · simp
    · simp [Nat.testBit_two_pow_of_ne hne]

theorem is_complete_canon_iff {n : ℕ} (h : 1 ≤ n) :
    is_complete (internal_count n + n) ↔
      n = 2 ^ (depth_at_leaf_count n - 1) := by
  rw [is_complete_iff]
  have hS : (1:ℕ) ≤ 2 ^ (depth_at_leaf_count n - 1) := Nat.one_le_two_pow
  have hnS := le_pow_depth h
  have hm : internal_count n = 2 ^ (depth_at_leaf_count n - 1) - 1 := rfl
  constructor
  · rintro ⟨j, hj⟩
    have h1 : 2 ^ (depth_at_leaf_count n - 1) < 2 ^ j := by omega
    have h2 : depth_at_leaf_count n - 1 < j :=
      (Nat.pow_lt_pow_iff_right (by norm_num)).mp h1
    have h3 : 2 ^ (depth_at_leaf_count n - 1) * 2 ≤ 2 ^ j := by
      calc 2 ^ (depth_at_leaf_count n - 1) * 2 =
          2 ^ (depth_at_leaf_count n - 1 + 1) := (pow_succ 2 _).symm
        _ ≤ 2 ^ j := Nat.pow_le_pow_right (by norm_num) (by omega)
    omega
  · intro hn
    refine ⟨depth_at_leaf_count n, ?_⟩
    have hps : 2 ^ depth_at_leaf_count n =
        2 ^ (depth_at_leaf_count n - 1) * 2 := by
      rw [← pow_succ]
      congr 1
      have := depth_at_leaf_count_pos h
      omega
    omega

theorem depth_at_leaf_count_pow (j : ℕ) : depth_at_leaf_count (2 ^ j) = j + 1 := by
  cases j with
  | zero => norm_num [depth_at_leaf_count]
  | succ i =>
      have h1 : (1:ℕ) ≤ 2 ^ i := Nat.one_le_two_pow
      have hps : (2:ℕ) ^ (i + 1) = 2 ^ i * 2 := pow_succ 2 i
      obtain ⟨k, hk⟩ : ∃ k, 2 ^ (i + 1) = k + 2 := ⟨2 ^ (i + 1) - 2, by omega⟩
      rw [hk]
      have hd : depth_at_leaf_count (k + 2) = floor_log2 (k + 1) + 2 := by
        simp [depth_at_leaf_count]
      rw [hd]
      have hfl : floor_log2 (k + 1) = i :=
        floor_log2_eq_of (by omega) (by omega)
      omega

/-- Appending one leaf to a non-full bottom level changes the canonical
deque only at the new leaf slot and at its strict ancestors. -/
theorem canon_append_agree (hasher : MerkleHasher E H) (ℓ : List E) (e : E)
    (hpos : 1 ≤ ℓ.length)
    (hlt : ℓ.length < 2 ^ (depth_at_leaf_count ℓ.length - 1)) :
    ∀ q, ¬ StrictAnc q (internal_count ℓ.length + ℓ.length) →
      (canon_nodes hasher ℓ ++ [VNode.Leaf e])[q]? =
        (canon_nodes hasher (ℓ ++ [e]))[q]? := by
  have hlen1 : (ℓ ++ [e]).length = ℓ.length + 1 := by simp
  have hL' : depth_at_leaf_count (ℓ ++ [e]).length =
      depth_at_leaf_count ℓ.length := by
    rw [hlen1]
    exact depth_succ_eq hpos hlt
  have hM' : internal_count (ℓ ++ [e]).length = internal_count ℓ.length := by
    unfold internal_count
    rw [hL']
  intro q hq
  rcases Nat.lt_or_ge q (internal_count ℓ.length) with hqM | hqM
  · have hget1 : (canon_nodes hasher ℓ ++ [VNode.Leaf e])[q]? =
        some (inode hasher (ℓ.map hasher.merkle_hash)
          (depth_at_leaf_count ℓ.length) q) := by
      rw [List.getElem?_append_left (by rw [canon_nodes_length]; omega)]
      unfold canon_nodes
      rw [List.getElem?_append_left (by simpa using hqM)]
      simp [List.getElem?_range, hqM]
    have hqM2 : q < internal_count (ℓ ++ [e]).length := by
      rw [hM']
      exact hqM
    have hget2 : (canon_nodes hasher (ℓ ++ [e]))[q]? =
        some (inode hasher ((ℓ ++ [e]).map hasher.merkle_hash)
          (depth_at_leaf_count (ℓ ++ [e]).length) q) := by
      unfold canon_nodes
      rw [List.getElem?_append_left (by simpa using hqM2)]
      rw [List.getElem?_map, List.getElem?_range hqM2]
      rfl
    rw [hget1, hget2]
    have hlev := internal_level hqM
    have hht1 := node_height_pos hlev
    have hwin : ℓ.length < seg_start (depth_at_leaf_count ℓ.length) q ∨
        seg_start (depth_at_leaf_count ℓ.length) q +
          2 ^ node_height (depth_at_leaf_count ℓ.length) q ≤ ℓ.length := by
      by_contra hcon
      push_neg at hcon
      obtain ⟨hc1, hc2⟩ := hcon
      apply hq
      refine ⟨node_height (depth_at_leaf_count ℓ.length) q, hht1, ?_⟩
      have hS : (1:ℕ) ≤ 2 ^ (depth_at_leaf_count ℓ.length - 1) :=
        Nat.one_le_two_pow
      have hmle := pow_le_mul_node_height
        (show floor_log2 (q + 1) ≤ depth_at_leaf_count ℓ.length - 1 by omega)
      have hmm : internal_count ℓ.length =
          2 ^ (depth_at_leaf_count ℓ.length - 1) - 1 := rfl
      unfold seg_start at hc1 hc2
      have hexp : (q + 1 + 1) * 2 ^ node_height (depth_at_leaf_count ℓ.length) q =
          (q + 1) * 2 ^ node_height (depth_at_leaf_count ℓ.length) q +
            2 ^ node_height (depth_at_leaf_count ℓ.length) q := by ring
      have hdiv : (internal_count ℓ.length + ℓ.length + 1) /
          2 ^ node_height (depth_at_leaf_count ℓ.length) q = q + 1 :=
        Nat.div_eq_of_lt_le (by omega) (by omega)
      omega
    unfold inode
    rw [hL']
    have hmap : (ℓ ++ [e]).map hasher.merkle_hash =
        ℓ.map hasher.merkle_hash ++ [hasher.merkle_hash e] := by simp
    rw [hmap]
    rw [seg_stable _ _ (by simpa using hwin)]
  · have hq1 : (canon_nodes hasher ℓ ++ [VNode.Leaf e])[q]? =
        (ℓ.map VNode.Leaf ++ [VNode.Leaf e])[q - internal_count ℓ.length]? := by
      rw [canon_nodes_split, List.append_assoc]
      rw [List.getElem?_append_right (by rw [canon_internals_length]; omega)]
      rw [canon_internals_length]
    have hq2 : (canon_nodes hasher (ℓ ++ [e]))[q]? =
        ((ℓ ++ [e]).map VNode.Leaf)[q - internal_count ℓ.length]? := by
      rw [canon_nodes_split]
      rw [List.getElem?_append_right
        (by rw [canon_internals_length, hM']; omega)]
      rw [canon_internals_length, hM']
    rw [hq1, hq2, List.map_append]
    rfl

theorem add_leaf_rehash_canon (hasher : MerkleHasher E H) (td : ℕ)
    (ℓ : List E) (e : E) (hpos : 1 ≤ ℓ.length) :
    add_leaf_rehash hasher (canon hasher td ℓ) e =
      .ok (canon hasher td (ℓ ++ [e])) := by
  unfold add_leaf_rehash
  have h1 : first_leaf (canon hasher td ℓ).nodes.length =
      .ok (internal_count ℓ.length) := by
    show first_leaf (canon_nodes hasher ℓ).length = _
    rw [canon_nodes_length]
    unfold first_leaf
    rw [if_neg (by omega)]
    rw [first_leaf_val_canon hpos]
  rw [h1]
  simp only [bind, Except.bind]
  have h2 : ((canon hasher td ℓ).nodes ++ [VNode.Leaf e]).drop
      (internal_count ℓ.length) = (ℓ ++ [e]).map VNode.Leaf := by
    show ((canon_nodes hasher ℓ) ++ [VNode.Leaf e]).drop _ = _
    rw [canon_nodes_split, List.append_assoc,
      ← canon_internals_length hasher ℓ, List.drop_left]
    rw [List.map_append]
    rfl
  rw [h2]
  show rehash_all_levels hasher ⟨(ℓ ++ [e]).map VNode.Leaf, td⟩ = _
  exact rehash_all_levels_canon hasher (ℓ ++ [e]) td (by simp)

theorem add_canon_ok (hasher : MerkleHasher E H) (td : ℕ) (ℓ : List E) (e : E)
    (hlen : ℓ.length < 2 ^ (td - 1)) :
    add hasher (canon hasher td ℓ) e = .ok (canon hasher td (ℓ ++ [e])) := by
  rcases Nat.eq_zero_or_pos ℓ.length with h0 | hpos
  · have hℓ : ℓ = [] := List.length_eq_zero.mp h0
    subst hℓ
    rfl
  · unfold add
    have hproj : (canon hasher td ℓ).nodes = canon_nodes hasher ℓ := rfl
    have hproj2 : (canon hasher td ℓ).tree_depth = td := rfl
    rw [hproj, hproj2, canon_nodes_length]
    rw [if_neg (by omega)]
    by_cases hcomp : ℓ.length = 2 ^ (depth_at_leaf_count ℓ.length - 1)
    · rw [if_pos ((is_complete_canon_iff hpos).mpr hcomp)]
      have hS : (1:ℕ) ≤ 2 ^ (depth_at_leaf_count ℓ.length - 1) :=
        Nat.one_le_two_pow
      have hmm : internal_count ℓ.length =
          2 ^ (depth_at_leaf_count ℓ.length - 1) - 1 := rfl
      have hps : 2 ^ depth_at_leaf_count ℓ.length =
          2 ^ (depth_at_leaf_count ℓ.length - 1) * 2 := by
        rw [← pow_succ]
        congr 1
        have := depth_at_leaf_count_pos hpos
        omega
      have hargs : internal_count ℓ.length + ℓ.length + 1 =
          2 ^ depth_at_leaf_count ℓ.length := by omega
      have hdai : depth_at_index (internal_count ℓ.length + ℓ.length) =
          depth_at_leaf_count ℓ.length + 1 := by
        unfold depth_at_index
        rw [hargs, floor_log2_pow]
      have hLlt : depth_at_leaf_count ℓ.length - 1 < td - 1 := by
        by_contra hc
        have hle : (2:ℕ) ^ (td - 1) ≤
            2 ^ (depth_at_leaf_count ℓ.length - 1) :=
          Nat.pow_le_pow_right (by norm_num) (by omega)
        omega
      rw [hdai, if_neg (by omega)]
      exact add_leaf_rehash_canon hasher td ℓ e hpos
    · rw [if_neg (fun h => hcomp ((is_complete_canon_iff hpos).mp h))]
      show rehash_leaf_path hasher
        ⟨canon_nodes hasher ℓ ++ [VNode.Leaf e], td⟩ = _
      unfold rehash_leaf_path
      rw [if_neg (by simp)]
      have hnlt : ℓ.length < 2 ^ (depth_at_leaf_count ℓ.length - 1) := by
        have := le_pow_depth hpos
        omega
      have hlen1 : (ℓ ++ [e]).length = ℓ.length + 1 := by simp
      have hL' : depth_at_leaf_count (ℓ ++ [e]).length =
          depth_at_leaf_count ℓ.length := by
        rw [hlen1]
        exact depth_succ_eq hpos hnlt
      have hM' : internal_count (ℓ ++ [e]).length = internal_count ℓ.length := by
        unfold internal_count
        rw [hL']
      have hS : (1:ℕ) ≤ 2 ^ (depth_at_leaf_count ℓ.length - 1) :=
        Nat.one_le_two_pow
      have hmm : internal_count ℓ.length =
          2 ^ (depth_at_leaf_count ℓ.length - 1) - 1 := rfl
      have hplen : (canon_nodes hasher ℓ ++ [VNode.Leaf e]).length - 1 =
          internal_count ℓ.length + ℓ.length := by
        simp [canon_nodes_length]
      simp only [pure, Except.pure, bind, Except.bind]
      rw [hplen]
      have hlenX : (canon_nodes hasher ℓ ++ [VNode.Leaf e]).length =
          internal_count ℓ.length + ℓ.length + 1 := by
        simp [canon_nodes_length]
      have hA : internal_count ℓ.length + ℓ.length + 1 =
          (2 ^ (depth_at_leaf_count (ℓ ++ [e]).length - 1) +
            ((ℓ ++ [e]).length - 1)) / 2 ^ 0 := by
        rw [hL', hlen1]
        simp only [pow_zero, Nat.div_one]
        omega
      have hC : internal_count ℓ.length + ℓ.length + 1 ≤
          (canon_nodes hasher ℓ ++ [VNode.Leaf e]).length + 1 := by
        omega
      have hD : (canon_nodes hasher ℓ ++ [VNode.Leaf e]).length =
          (canon_nodes hasher (ℓ ++ [e])).length := by
        rw [hlenX, canon_nodes_length, hM', hlen1]
        omega
      have hgo := rehash_leaf_path_go_canon hasher (ℓ ++ [e]) (by simp)
        ((canon_nodes hasher ℓ ++ [VNode.Leaf e]).length + 1)
        (internal_count ℓ.length + ℓ.length) 0
        (canon_nodes hasher ℓ ++ [VNode.Leaf e])
        hA (Nat.zero_le _) hC hD
        (canon_append_agree hasher ℓ e hpos hnlt)
      rw [hgo]
      rfl

theorem add_canon_full (hasher : MerkleHasher E H) (td : ℕ) (ℓ : List E)
    (e : E) (htd : 1 ≤ td) (hfull : ℓ.length = 2 ^ (td - 1)) :
    add hasher (canon hasher td ℓ) e = .error .treeFull := by
  have hpos : 1 ≤ ℓ.length := by
    rw [hfull]
    exact Nat.one_le_two_pow
  have hL : depth_at_leaf_count ℓ.length = td := by
    rw [hfull, depth_at_leaf_count_pow]
    omega
  unfold add
  have hproj : (canon hasher td ℓ).nodes = canon_nodes hasher ℓ := rfl
  have hproj2 : (canon hasher td ℓ).tree_depth = td := rfl
  rw [hproj, hproj2, canon_nodes_length]
  rw [if_neg (by omega)]
  rw [if_pos ((is_complete_canon_iff hpos).mpr (by rw [hL, ← hfull]))]
  have hS : (1:ℕ) ≤ 2 ^ (depth_at_leaf_count ℓ.length - 1) :=
    Nat.one_le_two_pow
  have hmm : internal_count ℓ.length =
      2 ^ (depth_at_leaf_count ℓ.length - 1) - 1 := rfl
  have hps : 2 ^ depth_at_leaf_count ℓ.length =
      2 ^ (depth_at_leaf_count ℓ.length - 1) * 2 := by
    rw [← pow_succ]
    congr 1
    have := depth_at_leaf_count_pos hpos
    omega
  have hcomp : ℓ.length = 2 ^ (depth_at_leaf_count ℓ.length - 1) := by
    rw [hL, ← hfull]
  have hargs : internal_count ℓ.length + ℓ.length + 1 =
      2 ^ depth_at_leaf_count ℓ.length := by omega
  have hdai : depth_at_index (internal_count ℓ.length + ℓ.length) =
      depth_at_leaf_count ℓ.length + 1 := by
    unfold depth_at_index
    rw [hargs, floor_log2_pow]
  rw [hdai, if_pos (by omega)]
  rfl

/-! #### `truncate`, `build`, `len`, `root_hash` on canonical states -/

theorem len_canon (hasher : MerkleHasher E H) (td : ℕ) (ℓ : List E) :
    len (canon hasher td ℓ) = ℓ.length := by
  rcases Nat.eq_zero_or_pos ℓ.length with h0 | hpos
  · have hℓ : ℓ = [] := List.length_eq_zero.mp h0
    subst hℓ
    rfl
  · show (if (canon_nodes hasher ℓ).length = 0 then 0
      else (canon_nodes hasher ℓ).length -
        first_leaf_val (canon_nodes hasher ℓ).length) = ℓ.length
    rw [canon_nodes_length]
    rw [if_neg (by omega)]
    rw [first_leaf_val_canon hpos]
    omega

theorem truncate_canon (hasher : MerkleHasher E H) (td : ℕ) (ℓ : List E)
    (k : ℕ) :
    truncate hasher (canon hasher td ℓ) k = .ok (canon hasher td (ℓ.take k)) := by
  unfold truncate
  rw [len_canon]
  by_cases hk1 : k ≥ ℓ.length
  · rw [if_pos hk1, List.take_of_length_le hk1]
    rfl
  · rw [if_neg hk1]
    by_cases hk0 : k = 0
    · subst hk0
      rw [if_pos rfl]
      rfl
    · rw [if_neg hk0]
      simp only [pure, Except.pure, bind, Except.bind]
      have hpos : 1 ≤ ℓ.length := by omega
      have hproj : (canon hasher td ℓ).nodes = canon_nodes hasher ℓ := rfl
      have hproj2 : (canon hasher td ℓ).tree_depth = td := rfl
      rw [hproj, hproj2, canon_nodes_length, first_leaf_val_canon hpos]
      have htk : internal_count ℓ.length + ℓ.length - (ℓ.length - k) =
          internal_count ℓ.length + k := by omega
      rw [htk]
      have htake : (canon_nodes hasher ℓ).take (internal_count ℓ.length + k) =
          canon_internals hasher ℓ ++ (ℓ.take k).map VNode.Leaf := by
        rw [canon_nodes_split, List.take_append_eq_append_take]
        rw [List.take_of_length_le (by rw [canon_internals_length]; omega)]
        rw [canon_internals_length]
        have hsub : internal_count ℓ.length + k - internal_count ℓ.length =
            k := by omega
        rw [hsub, List.map_take]
      rw [htake, ← canon_internals_length hasher ℓ, List.drop_left]
      show rehash_all_levels hasher ⟨(ℓ.take k).map VNode.Leaf, td⟩ = _
      exact rehash_all_levels_canon hasher (ℓ.take k) td
        (by rw [List.length_take]; omega)

theorem build_go_canon (hasher : MerkleHasher E H) (td : ℕ) :
    ∀ (rest pre : List E), pre.length + rest.length ≤ 2 ^ (td - 1) →
      rest.foldlM (add hasher) (canon hasher td pre) =
        .ok (canon hasher td (pre ++ rest)) := by
  intro rest
  induction rest with
  | nil =>
      intro pre hle
      rw [List.append_nil]
      rfl
  | cons e rest ih =>
      intro pre hle
      rw [List.foldlM_cons]
      rw [add_canon_ok hasher td pre e (by simp at hle; omega)]
      simp only [bind, Except.bind]
      rw [ih (pre ++ [e]) (by simp at hle ⊢; omega)]
      rw [List.append_assoc, List.singleton_append]

theorem build_canon (hasher : MerkleHasher E H) (td : ℕ) (ℓ : List E)
    (hlen : ℓ.length ≤ 2 ^ (td - 1)) :
    build hasher td ℓ = .ok (canon hasher td ℓ) := by
  unfold build
  have h0 : (new_with_size td : VectorMerkleTree E H) =
      canon hasher td [] := rfl
  rw [h0, build_go_canon hasher td ℓ [] (by simpa using hlen)]
  rw [List.nil_append]

/-- `depth_at_leaf_count` fits under the constructor depth as long as the
leaf count fits in the bottom level. -/
theorem depth_le_of_le_pow {n td : ℕ} (hlen : n ≤ 2 ^ (td - 1))
    (htd : 1 ≤ td) : depth_at_leaf_count n ≤ td := by
  match n with
  | 0 => show 0 ≤ td; omega
  | 1 => exact htd
  | k + 2 =>
      have hd : depth_at_leaf_count (k + 2) = floor_log2 (k + 1) + 2 := by
        simp [depth_at_leaf_count]
      rw [hd]
      have hfl : floor_log2 (k + 1) < td - 1 := by
        by_contra hc
        have h1 : 2 ^ (td - 1) ≤ 2 ^ floor_log2 (k + 1) :=
          Nat.pow_le_pow_right (by norm_num) (by omega)
        have h2 := pow_floor_log2_le (n := k + 1) (by omega)
        omega
      omega

theorem padHash_self_step (hasher : MerkleHasher E H) (hs : List H) (j : ℕ)
    (hne : hs ≠ []) (hle : hs.length ≤ 2 ^ j) {x : H}
    (hx : padHash hasher j hs = some x) :
    padHash hasher (j + 1) hs = some (hasher.combine_hash j x x) := by
  rw [padHash_succ hasher j hs hne]
  rw [List.take_of_length_le hle]
  have hdrop : hs.drop (2 ^ j) = [] := by
    rw [List.drop_eq_nil_iff_le]
    exact hle
  rw [hdrop, padHash_nil, hx]

theorem padHash_lift (hasher : MerkleHasher E H) (hs : List H)
    (hne : hs ≠ []) :
    ∀ (c j : ℕ) (x : H), hs.length ≤ 2 ^ j → padHash hasher j hs = some x →
      padHash hasher (j + c) hs = some (Sled.lift_self hasher j c x) := by
  intro c
  induction c with
  | zero =>
      intro j x hle hx
      exact hx
  | succ c ih =>
      intro j x hle hx
      have hj : j + (c + 1) = (j + 1) + c := by omega
      rw [hj]
      exact ih (j + 1) (hasher.combine_hash j x x)
        (le_trans hle (Nat.pow_le_pow_right (by norm_num) (by omega)))
        (padHash_self_step hasher hs j hne hle hx)

/-- `root_hash` of a canonical state is the padded subtree hash at level
`tree_depth - 1` of the full leaf list. -/
theorem root_hash_canon (hasher : MerkleHasher E H) (td : ℕ) (ℓ : List E)
    (hlen : ℓ.length ≤ 2 ^ (td - 1)) (htd : 1 ≤ td) :
    root_hash hasher (canon hasher td ℓ) =
      padHash hasher (td - 1) (ℓ.map hasher.merkle_hash) := by
  rcases Nat.eq_zero_or_pos ℓ.length with h0 | hpos
  · have hℓ : ℓ = [] := List.length_eq_zero.mp h0
    subst hℓ
    rw [List.map_nil, padHash_nil]
    rfl
  · have hS : (1:ℕ) ≤ 2 ^ (depth_at_leaf_count ℓ.length - 1) :=
      Nat.one_le_two_pow
    have hnS := le_pow_depth hpos
    have hL1 := depth_at_leaf_count_pos hpos
    have hLtd := depth_le_of_le_pow hlen htd
    have hmm : internal_count ℓ.length =
        2 ^ (depth_at_leaf_count ℓ.length - 1) - 1 := rfl
    have hproj : (canon hasher td ℓ).nodes = canon_nodes hasher ℓ := rfl
    have hproj2 : (canon hasher td ℓ).tree_depth = td := rfl
    unfold root_hash
    rw [hproj, hproj2, canon_nodes_length]
    have hfl : floor_log2 (internal_count ℓ.length + ℓ.length) =
        depth_at_leaf_count ℓ.length - 1 := by
      refine floor_log2_eq_of (by omega) ?_
      rw [pow_succ]
      omega
    have hdai : depth_at_index (internal_count ℓ.length + ℓ.length - 1) =
        depth_at_leaf_count ℓ.length := by
      unfold depth_at_index
      have harg : internal_count ℓ.length + ℓ.length - 1 + 1 =
          internal_count ℓ.length + ℓ.length := by omega
      rw [harg, hfl]
      omega
    rw [hdai]
    have hnh0 : node_height (depth_at_leaf_count ℓ.length) 0 =
        depth_at_leaf_count ℓ.length - 1 := by
      unfold node_height
      rw [show floor_log2 (0 + 1) = 0 from rfl]
      omega
    have hseg0 : seg_start (depth_at_leaf_count ℓ.length) 0 = 0 := by
      unfold seg_start
      rw [hnh0]
      omega
    have hx0 := extract_canon hasher ℓ 0
    rw [hnh0, hseg0, List.drop_zero,
      List.take_of_length_le (by rw [List.length_map]; omega)] at hx0
    obtain ⟨x, hx⟩ : ∃ x, padHash hasher (depth_at_leaf_count ℓ.length - 1)
        (ℓ.map hasher.merkle_hash) = some x := by
      cases hp : padHash hasher (depth_at_leaf_count ℓ.length - 1)
          (ℓ.map hasher.merkle_hash) with
      | none =>
          rw [padHash_eq_none_iff] at hp
          exact absurd hp (by simpa using (by omega : ℓ.length ≠ 0))
      | some y => exact ⟨y, rfl⟩
    rw [hx] at hx0
    rw [hx0, Option.map_some']
    have hpad := padHash_lift hasher (ℓ.map hasher.merkle_hash)
      (by simpa using (by omega : ℓ.length ≠ 0))
      (td - depth_at_leaf_count ℓ.length) (depth_at_leaf_count ℓ.length - 1) x
      (by rw [List.length_map]; omega) hx
    have harg2 : depth_at_leaf_count ℓ.length - 1 +
        (td - depth_at_leaf_count ℓ.length) = td - 1 := by omega
    rw [harg2] at hpad
    rw [hpad]

/-! #### The witness root is a copy of `root_hash()` -/

/-- `witness` fills the `root_hash` field of the returned witness with the
value of `root_hash()` observed on the same state, for every state on which
it returns a witness at all. -/
theorem witness_root_copies (hasher : MerkleHasher E H)
    (t : VectorMerkleTree E H) (position : ℕ) (w : Witness H)
    (hw : witness hasher t position = .ok (some w)) :
    root_hash hasher t = some w.root_hash := by
  unfold witness at hw
  by_cases hc : len t = 0 ∨ position ≥ len t
  · rw [if_pos hc] at hw
    exact absurd hw (by simp [pure, Except.pure])
  · rw [if_neg hc] at hw
    simp only [pure, Except.pure, bind, Except.bind] at hw
    cases hgo : witness_go hasher t.nodes
        (first_leaf_val t.nodes.length + position + 1)
        (first_leaf_val t.nodes.length + position) 0 with
    | error k =>
        rw [hgo] at hw
        exact absurd hw (by simp)
    | ok pd =>
        rw [hgo] at hw
        cases hsib : extract_hash hasher t.nodes 0 with
        | none =>
            rw [hsib] at hw
            exact absurd hw (by simp)
        | some sh =>
            rw [hsib] at hw
            cases hroot : root_hash hasher t with
            | none =>
                rw [hroot] at hw
                exact absurd hw (by simp)
            | some r =>
                rw [hroot] at hw
                simp only [pure, Except.pure, Except.ok.injEq,
                  Option.some.injEq] at hw
                subst hw
                rfl

/-! #### Serialization on canonical states -/

theorem mapM_loop_leaf (ℓ : List E) :
    ∀ (xs acc : List E),
      List.mapM.loop (fun n => match n with
        | VNode.Leaf element => (.ok element : Res E)
        | _ => .error .invalidStructure) (xs.map (VNode.Leaf : E → VNode E H))
        acc = .ok (acc.reverse ++ xs) := by
  intro xs
  induction xs with
  | nil =>
      intro acc
      simp [List.mapM.loop, pure, Except.pure]
  | cons x xs ih =>
      intro acc
      rw [List.map_cons]
      show List.mapM.loop _ _ (x :: acc) = _
      rw [ih (x :: acc)]
      simp

theorem iter_notes_canon (hasher : MerkleHasher E H) (td : ℕ) (ℓ : List E) :
    iter_notes (canon hasher td ℓ) = .ok ℓ := by
  rcases Nat.eq_zero_or_pos ℓ.length with h0 | hpos
  · have hℓ : ℓ = [] := List.length_eq_zero.mp h0
    subst hℓ
    rfl
  · unfold iter_notes
    have hproj : (canon hasher td ℓ).nodes = canon_nodes hasher ℓ := rfl
    rw [hproj, canon_nodes_length]
    rw [if_neg (by omega), first_leaf_val_canon hpos]
    rw [canon_nodes_split, ← canon_internals_length hasher ℓ, List.drop_left]
    show List.mapM.loop _ _ [] = _
    rw [mapM_loop_leaf ℓ ℓ []]
    rfl

theorem write_canon (hasher : MerkleHasher E H) (codec : ElementCodec E)
    (td : ℕ) (ℓ : List E) :
    write codec (canon hasher td ℓ) =
      .ok ([td % 256] ++ le32 ℓ.length ++
        (ℓ.map codec.write_element).flatten) := by
  unfold write
  rw [iter_notes_canon hasher td ℓ]
  simp only [bind, Except.bind]
  rw [len_canon]
  rfl

theorem read_go_canon (hasher : MerkleHasher E H) (codec : ElementCodec E)
    (hcodec : ∀ (e : E) (rest : List ℕ),
      codec.read_element (codec.write_element e ++ rest) = some (e, rest))
    (td : ℕ) :
    ∀ (xs pre : List E) (rest : List ℕ),
      pre.length + xs.length ≤ 2 ^ (td - 1) →
      read_go hasher codec xs.length
          ((xs.map codec.write_element).flatten ++ rest)
          (canon hasher td pre) =
        .ok (some (canon hasher td (pre ++ xs))) := by
  intro xs
  induction xs with
  | nil =>
      intro pre rest hle
      rw [List.append_nil]
      rfl
  | cons x xs ih =>
      intro pre rest hle
      rw [List.map_cons, List.flatten_cons, List.append_assoc]
      show read_go hasher codec (xs.length + 1) _ _ = _
      unfold read_go
      rw [hcodec x ((xs.map codec.write_element).flatten ++ rest)]
      dsimp only
      rw [add_canon_ok hasher td pre x (by simp at hle; omega)]
      dsimp only
      rw [ih (pre ++ [x]) rest (by simp at hle ⊢; omega)]
      rw [List.append_assoc, List.singleton_append]

theorem read_of_write (hasher : MerkleHasher E H) (codec : ElementCodec E)
    (hcodec : ∀ (e : E) (rest : List ℕ),
      codec.read_element (codec.write_element e ++ rest) = some (e, rest))
    (td : ℕ) (ℓ : List E) (htd256 : td < 256) (hlen32 : ℓ.length < 2 ^ 32)
    (hcap : ℓ.length ≤ 2 ^ (td - 1)) :
    read hasher codec ([td % 256] ++ le32 ℓ.length ++
        (ℓ.map codec.write_element).flatten) =
      .ok (some (canon hasher td ℓ)) := by
  have hmod : td % 256 = td := Nat.mod_eq_of_lt htd256
  show read_go hasher codec
      (ℓ.length % 2 ^ 32 % 256 + 256 * (ℓ.length % 2 ^ 32 / 256 % 256) +
        2 ^ 16 * (ℓ.length % 2 ^ 32 / 2 ^ 16 % 256) +
        2 ^ 24 * (ℓ.length % 2 ^ 32 / 2 ^ 24 % 256))
      ((ℓ.map codec.write_element).flatten) (new_with_size (td % 256)) = _
  have hcount : ℓ.length % 2 ^ 32 % 256 +
      256 * (ℓ.length % 2 ^ 32 / 256 % 256) +
      2 ^ 16 * (ℓ.length % 2 ^ 32 / 2 ^ 16 % 256) +
      2 ^ 24 * (ℓ.length % 2 ^ 32 / 2 ^ 24 % 256) = ℓ.length := by
    omega
  rw [hcount, hmod]
  have h0 : (new_with_size td : VectorMerkleTree E H) = canon hasher td [] := rfl
  rw [h0]
  have hgo := read_go_canon hasher codec hcodec td ℓ [] [] (by simpa using hcap)
  rw [List.append_nil] at hgo
  rw [hgo, List.nil_append]

/-- `depth_at_index` as the Rust source computes it:
`((index + 1) as f32).log2() as usize + 1`.  The `as f32` cast is modelled
exactly by `toF32Round`; the logarithm-then-truncate step is the floor
logarithm of the rounded value, exact — independently of the libm `log2f` —
whenever the rounded value is a power of two, which holds at every input
the theorems below evaluate this function on. -/
def depth_at_index_f32 (index : ℕ) : ℕ :=
  floor_log2 (toF32Round (index + 1)) + 1

/-- `first_leaf` value through the f32 `depth_at_index`. -/
def first_leaf_val_f32 (num_nodes : ℕ) : ℕ :=
  (1 <<< (depth_at_index_f32 (num_nodes - 1) - 1)) - 1

def first_leaf_f32 (num_nodes : ℕ) : Res ℕ :=
  if num_nodes = 0 then .error .outOfBounds
  else .ok (first_leaf_val_f32 num_nodes)

def first_leaf_by_num_leaves_f32 (num_leaves : ℕ) : Res ℕ :=
  match num_leaves with
  | 0 => .error .outOfBounds
  | 1 => .ok 0
  | n + 2 => .ok ((1 <<< depth_at_index_f32 n) - 1)

/-- `parent_index` as the code computes it: `ceil(i as f32 / 2.0) - 1`.
Division of a binary float by two is exact, so the whole computation is
determined by the cast alone: `(toF32Round i + 1) / 2 - 1`.  Equal to the
exact `(i - 1) / 2` for `i ≤ 2^24`; at `i = 2^24 + 1` the cast ties to even
(`2^24`), giving `2^23 - 1` where the exact parent is `2^23`. -/
def parent_index_val_f32 (my_index : ℕ) : ℕ :=
  (toF32Round my_index + 1) / 2 - 1

/-- `len` through the f32 `first_leaf`. -/
def len_f32 (t : VectorMerkleTree E H) : ℕ :=
  if t.nodes.length = 0 then 0
  else t.nodes.length - first_leaf_val_f32 t.nodes.length

def rehash_levels_go_f32 (hasher : MerkleHasher E H) (internal_depth : ℕ) :
    ℕ → List (VNode E H) → Res (List (VNode E H))
  | 0, dq => do
    let n ← internal_from_children hasher
      (internal_depth - depth_at_index_f32 0)
      (extract_hash hasher dq 0) (extract_hash hasher dq 1)
    .ok (n :: dq)
  | i + 1, dq => do
    let n ← internal_from_children hasher
      (internal_depth - depth_at_index_f32 (i + 1))
      (extract_hash hasher dq (i + 1)) (extract_hash hasher dq (i + 2))
    rehash_levels_go_f32 hasher internal_depth i (n :: dq)

def rehash_all_levels_f32 (hasher : MerkleHasher E H)
    (t : VectorMerkleTree E H) : Res (VectorMerkleTree E H) := do
  let num_internal ← first_leaf_by_num_leaves_f32 t.nodes.length
  if num_internal = 0 then return t
  let internal_depth := depth_at_index_f32 (num_internal - 1)
  let dq ← rehash_levels_go_f32 hasher internal_depth (num_internal - 1) t.nodes
  return { t with nodes := dq }

def rehash_leaf_path_go_f32 (hasher : MerkleHasher E H) :
    ℕ → ℕ → ℕ → List (VNode E H) → Res (List (VNode E H))
  | 0, _, _, _ => .error .fuelOut
  | _ + 1, 0, _, dq => .ok dq
  | fuel + 1, current_position, depth, dq => do
    let parent_position := parent_index_val_f32 current_position
    let left :=
      if is_left_child current_position then
        extract_hash hasher dq current_position
      else extract_hash hasher dq (current_position - 1)
    let right :=
      if is_left_child current_position then
        extract_hash hasher dq (current_position + 1)
      else extract_hash hasher dq current_position
    let parent_hash ←
      match left, right with
      | some h, none => .ok (hasher.combine_hash depth h h)
      | some l, some r => .ok (hasher.combine_hash depth l r)
      | _, _ => .error .invalidStructure
    rehash_leaf_path_go_f32 hasher fuel parent_position (depth + 1)
      (dq.set parent_position (.Internal parent_hash))

def rehash_leaf_path_f32 (hasher : MerkleHasher E H)
    (t : VectorMerkleTree E H) : Res (VectorMerkleTree E H) := do
  if t.nodes.length = 0 then throw .underflow
  let dq ← rehash_leaf_path_go_f32 hasher (t.nodes.length + 1)
    (t.nodes.length - 1) 0 t.nodes
  return { t with nodes := dq }

def add_leaf_rehash_f32 (hasher : MerkleHasher E H) (t : VectorMerkleTree E H)
    (element : E) : Res (VectorMerkleTree E H) := do
  let old_leaf_start ← first_leaf_f32 t.nodes.length
  let t := { t with
    nodes := (t.nodes ++ [VNode.Leaf element]).drop old_leaf_start }
  rehash_all_levels_f32 hasher t

/-- `VectorMerkleTree::add` with every index computation routed through the
f32 helpers, as the source performs them. -/
def add_f32 (hasher : MerkleHasher E H) (t : VectorMerkleTree E H)
    (element : E) : Res (VectorMerkleTree E H) := do
  if t.nodes.length = 0 then
    return { t with nodes := [VNode.Leaf element] }
  if is_complete t.nodes.length then
    if depth_at_index_f32 t.nodes.length = t.tree_depth + 1 then
      throw .treeFull
    else
      add_leaf_rehash_f32 hasher t element
  else
    rehash_leaf_path_f32 hasher
      { t with nodes := t.nodes ++ [VNode.Leaf element] }

/-- `root_hash` through the f32 `depth_at_index`. -/
def root_hash_f32 (hasher : MerkleHasher E H) (t : VectorMerkleTree E H) :
    Option H :=
  (extract_hash hasher t.nodes 0).map fun h =>
    Sled.lift_self hasher (depth_at_index_f32 (t.nodes.length - 1) - 1)
      (t.tree_depth - depth_at_index_f32 (t.nodes.length - 1)) h

def witness_go_f32 (hasher : MerkleHasher E H) (nodes : List (VNode E H)) :
    ℕ → ℕ → ℕ → Res (List (WitnessNode H) × ℕ)
  | 0, _, _ => .error .fuelOut
  | _ + 1, 0, depth => .ok ([], depth)
  | fuel + 1, cur, depth => do
    let my_hash ←
      match extract_hash hasher nodes cur with
      | some h => Except.ok h
      | none => Except.error .invalidStructure
    let entry : WitnessNode H ←
      if is_left_child cur then
        Except.ok (.Left ((extract_hash hasher nodes (cur + 1)).getD my_hash))
      else
        match extract_hash hasher nodes (cur - 1) with
        | some sibling => Except.ok (.Right sibling)
        | none => Except.error .expectFailed
    let rest ← witness_go_f32 hasher nodes fuel (parent_index_val_f32 cur)
      (depth + 1)
    .ok (entry :: rest.1, rest.2)

/-- `witness` with `len`, `first_leaf` and the climb routed through the f32
helpers, as the source performs them. -/
def witness_f32 (hasher : MerkleHasher E H) (t : VectorMerkleTree E H)
    (position : ℕ) : Res (Option (Witness H)) := do
  if len_f32 t = 0 ∨ position ≥ len_f32 t then return none
  let start := first_leaf_val_f32 t.nodes.length + position
  let pd ← witness_go_f32 hasher t.nodes (start + 1) start 0
  let sibling_hash ←
    match extract_hash hasher t.nodes 0 with
    | some h => Except.ok h
    | none => Except.error .expectFailed
  let auth_path := pd.1 ++
    witness_pad hasher (t.tree_depth - 1 - pd.1.length) pd.2 sibling_hash
  let root ←
    match root_hash_f32 hasher t with
    | some h => Except.ok h
    | none => Except.error .expectFailed
  return some ⟨len_f32 t, root, auth_path⟩

def iter_notes_f32 (t : VectorMerkleTree E H) : Res (List E) :=
  (t.nodes.drop (if t.nodes.length = 0 then 0
    else first_leaf_val_f32 t.nodes.length)).mapM fun n =>
      match n with
      | .Leaf element => .ok element
      | _ => .error .invalidStructure

/-- `write` through the f32 `len` and `first_leaf`. -/
def write_f32 (codec : ElementCodec E) (t : VectorMerkleTree E H) :
    Res (List ℕ) := do
  let notes ← iter_notes_f32 t
  return [t.tree_depth % 256] ++ le32 (len_f32 t) ++
    (notes.map codec.write_element).flatten

def read_go_f32 (hasher : MerkleHasher E H) (codec : ElementCodec E) :
    ℕ → List ℕ → VectorMerkleTree E H →
    Except PanicKind (Option (VectorMerkleTree E H))
  | 0, _, t => .ok (some t)
  | n + 1, bytes, t =>
    match codec.read_element bytes with
    | none => .ok none
    | some (e, rest) =>
      match add_f32 hasher t e with
      | .error k => .error k
      | .ok t' => read_go_f32 hasher codec n rest t'

/-- `read` rebuilding through the f32 `add`. -/
def read_f32 (hasher : MerkleHasher E H) (codec : ElementCodec E)
    (bytes : List ℕ) : Except PanicKind (Option (VectorMerkleTree E H)) :=
  match bytes with
  | d :: b0 :: b1 :: b2 :: b3 :: rest =>
    read_go_f32 hasher codec (b0 + 256 * b1 + 2 ^ 16 * b2 + 2 ^ 24 * b3) rest
      (new_with_size d)
  | _ => .ok none

/-! #### The f32 index arithmetic at the first libm-independent divergence:
a complete tree of `2^24` leaves, i.e. `2^25 - 1` deque slots.  There
`index + 1 = 2^25 - 1` casts (ties-to-even) to `2^25`, an exact power of
two, so every step below is independent of the libm `log2f`. -/

theorem toF32Round_pow25_sub_one : toF32Round (2 ^ 25 - 1) = 2 ^ 25 := by
  decide

theorem depth_at_index_f32_at_big : depth_at_index_f32 (2 ^ 25 - 2) = 26 := by
  unfold depth_at_index_f32
  rw [show 2 ^ 25 - 2 + 1 = 2 ^ 25 - 1 from by decide, toF32Round_pow25_sub_one,
    floor_log2_pow]

theorem first_leaf_val_f32_at_big :
    first_leaf_val_f32 (2 ^ 25 - 1) = 2 ^ 25 - 1 := by
  unfold first_leaf_val_f32
  rw [show 2 ^ 25 - 1 - 1 = 2 ^ 25 - 2 from by decide, depth_at_index_f32_at_big]
  decide

theorem depth_at_index_at_big : depth_at_index (2 ^ 25 - 2) = 25 := by
  unfold depth_at_index
  rw [show 2 ^ 25 - 2 + 1 = 2 ^ 25 - 1 from by decide]
  rw [floor_log2_eq_of (n := 2 ^ 25 - 1) (k := 24) (by norm_num) (by norm_num)]

theorem first_leaf_val_at_big :
    first_leaf_val (2 ^ 25 - 1) = 2 ^ 24 - 1 := by
  unfold first_leaf_val
  rw [show 2 ^ 25 - 1 - 1 = 2 ^ 25 - 2 from by decide, depth_at_index_at_big]
  decide

theorem len_f32_at_big (t : VectorMerkleTree E H)
    (hlen : t.nodes.length = 2 ^ 25 - 1) : len_f32 t = 0 := by
  unfold len_f32
  rw [hlen, if_neg (by decide : ¬(2 ^ 25 - 1 = 0)), first_leaf_val_f32_at_big]
  omega

theorem len_at_big (t : VectorMerkleTree E H)
    (hlen : t.nodes.length = 2 ^ 25 - 1) : len t = 2 ^ 24 := by
  unfold len
  rw [hlen, if_neg (by decide : ¬(2 ^ 25 - 1 = 0)), first_leaf_val_at_big]
  decide

theorem is_complete_at_big : is_complete (2 ^ 25 - 1) :=
  (is_complete_iff _).mpr ⟨25, by norm_num⟩

theorem depth_at_index_f32_pow25 : depth_at_index_f32 (2 ^ 25 - 1) = 26 := by
  unfold depth_at_index_f32
  rw [show 2 ^ 25 - 1 + 1 = 2 ^ 25 from by decide,
    show toF32Round (2 ^ 25) = 2 ^ 25 from by decide, floor_log2_pow]

/-- The code-faithful `add` on any deque of `2^25 - 1` slots at the default
constructor depth 33: the completeness branch fires, `first_leaf` computes
`2^25 - 1` (instead of the exact `2^24 - 1`), so the drop removes the whole
deque and the resulting tree holds only the new leaf. -/
theorem add_f32_resets (hasher : MerkleHasher E H) (t : VectorMerkleTree E H)
    (e : E) (hlen : t.nodes.length = 2 ^ 25 - 1) (htd : t.tree_depth = 33) :
    add_f32 hasher t e = .ok ⟨[VNode.Leaf e], 33⟩ := by
  obtain ⟨ns, td0⟩ := t
  simp only at hlen htd
  subst htd
  unfold add_f32
  simp only [pure, Except.pure, bind, Except.bind]
  rw [hlen]
  rw [if_neg (by decide : ¬(2 ^ 25 - 1 = 0))]
  rw [if_pos is_complete_at_big]
  rw [depth_at_index_f32_pow25]
  rw [if_neg (by decide : ¬(26 = 33 + 1))]
  unfold add_leaf_rehash_f32 first_leaf_f32
  simp only [pure, Except.pure, bind, Except.bind]
  rw [hlen]
  rw [if_neg (by decide : ¬(2 ^ 25 - 1 = 0))]
  rw [first_leaf_val_f32_at_big]
  rw [show (2 ^ 25 - 1 : ℕ) = (ns : List (VNode E H)).length from hlen.symm]
  dsimp only
  rw [List.drop_left]
  rfl

theorem write_f32_at_big (codec : ElementCodec E) (t : VectorMerkleTree E H)
    (hlen : t.nodes.length = 2 ^ 25 - 1) (htd : t.tree_depth = 33) :
    write_f32 codec t = .ok [33, 0, 0, 0, 0] := by
  obtain ⟨ns, td0⟩ := t
  simp only at hlen htd
  subst htd
  unfold write_f32 iter_notes_f32
  simp only [pure, Except.pure, bind, Except.bind]
  rw [show len_f32 (⟨ns, 33⟩ : VectorMerkleTree E H) = 0 from
    len_f32_at_big _ hlen]
  rw [hlen]
  rw [if_neg (by decide : ¬(2 ^ 25 - 1 = 0)), first_leaf_val_f32_at_big]
  rw [show (2 ^ 25 - 1 : ℕ) = (ns : List (VNode E H)).length from hlen.symm]
  rw [List.drop_length]
  rfl

theorem witness_f32_at_big (hasher : MerkleHasher E H)
    (t : VectorMerkleTree E H) (hlen : t.nodes.length = 2 ^ 25 - 1) :
    witness_f32 hasher t 0 = .ok none := by
  unfold witness_f32
  simp only [pure, Except.pure, bind, Except.bind]
  rw [len_f32_at_big t hlen]
  rw [if_pos (Or.inl rfl)]

theorem root_hash_f32_at_big (hasher : MerkleHasher E H)
    (t : VectorMerkleTree E H) (h : H) (hlen : t.nodes.length = 2 ^ 25 - 1)
    (htd : t.tree_depth = 33) (h0 : t.nodes[0]? = some (.Internal h)) :
    root_hash_f32 hasher t = some (Sled.lift_self hasher 25 7 h) := by
  unfold root_hash_f32 extract_hash
  rw [h0, hlen, htd]
  rw [show 2 ^ 25 - 1 - 1 = 2 ^ 25 - 2 from by decide, depth_at_index_f32_at_big]
  rfl

theorem root_hash_at_big (hasher : MerkleHasher E H)
    (t : VectorMerkleTree E H) (h : H) (hlen : t.nodes.length = 2 ^ 25 - 1)
    (htd : t.tree_depth = 33) (h0 : t.nodes[0]? = some (.Internal h)) :
    root_hash hasher t = some (Sled.lift_self hasher 24 8 h) := by
  unfold root_hash extract_hash
  rw [h0, hlen, htd]
  rw [show 2 ^ 25 - 1 - 1 = 2 ^ 25 - 2 from by decide, depth_at_index_at_big]
  rfl

theorem lift_self_count_7 (h : ℕ) :
    Sled.lift_self CountHasher 25 7 h = h + 7 := by
  simp only [Sled.lift_self, CountHasher]

theorem lift_self_count_8 (h : ℕ) :
    Sled.lift_self CountHasher 24 8 h = h + 8 := by
  simp only [Sled.lift_self, CountHasher]

end VectorTree

namespace Linked

/-! ### Arithmetic of the canonical linked arena -/

variable {E H : Type}

theorem v2_fuel_stable : ∀ f f' m, m ≤ f → m ≤ f' →
    v2_fuel f m = v2_fuel f' m := by
  intro f
  induction f with
  | zero =>
      intro f' m h h'
      have hm : m = 0 := by omega
      subst hm
      cases f' with
      | zero => rfl
      | succ f' => simp [v2_fuel]
  | succ f ih =>
      intro f' m h h'
      cases f' with
      | zero =>
          have hm : m = 0 := by omega
          subst hm
          simp [v2_fuel]
      | succ f' =>
          show v2_fuel (f + 1) m = v2_fuel (f' + 1) m
          unfold v2_fuel
          by_cases hm : m % 2 = 1 ∨ m = 0
          · rw [if_pos hm, if_pos hm]
          · rw [if_neg hm, if_neg hm]
            have h2 : 2 ≤ m := by omega
            rw [ih f' (m / 2) (by omega) (by omega)]

theorem nu2_odd {m : ℕ} (h : m % 2 = 1) : nu2 m = 0 := by
  cases m with
  | zero => omega
  | succ k =>
      show v2_fuel (k + 1) (k + 1) = 0
      unfold v2_fuel
      rw [if_pos (Or.inl h)]

theorem nu2_two_mul {m : ℕ} (h : 1 ≤ m) : nu2 (2 * m) = nu2 m + 1 := by
  obtain ⟨k, hk⟩ : ∃ k, 2 * m = k + 1 := ⟨2 * m - 1, by omega⟩
  show v2_fuel (2 * m) (2 * m) = _
  rw [hk]
  show v2_fuel (k + 1) (k + 1) = _
  unfold v2_fuel
  rw [if_neg (by omega)]
  have h2 : (k + 1) / 2 = m := by omega
  rw [h2, v2_fuel_stable k m m (by omega) (le_refl m)]
  rfl

theorem nu2_pow (k : ℕ) : nu2 (2 ^ k) = k := by
  induction k with
  | zero => exact nu2_odd (by norm_num)
  | succ k ih =>
      rw [pow_succ, mul_comm, nu2_two_mul Nat.one_le_two_pow, ih]

theorem nu2_mul_pow {q : ℕ} (d : ℕ) (h : 1 ≤ q) :
    nu2 (q * 2 ^ d) = nu2 q + d := by
  induction d with
  | zero => simp
  | succ d ih =>
      have he : q * 2 ^ (d + 1) = 2 * (q * 2 ^ d) := by ring
      have hp : 1 ≤ q * 2 ^ d := by
        have := Nat.one_le_two_pow (n := d)
        exact Nat.one_le_iff_ne_zero.mpr (by positivity)
      rw [he, nu2_two_mul hp, ih]
      omega

theorem pow_nu2_dvd : ∀ m, 1 ≤ m → 2 ^ nu2 m ∣ m := by
  intro m
  induction m using Nat.strong_induction_on with
  | _ m ih =>
      intro h1
      by_cases hm : m % 2 = 1
      · rw [nu2_odd hm, pow_zero]
        exact one_dvd m
      · have h2 : 2 ≤ m := by omega
        have he : m = 2 * (m / 2) := by omega
        rw [he, nu2_two_mul (by omega), pow_succ]
        obtain ⟨c, hc⟩ := ih (m / 2) (by omega) (by omega)
        refine ⟨c, ?_⟩
        nth_rewrite 1 [hc]
        ring

theorem pow_nu2_le {m : ℕ} (h : 1 ≤ m) : 2 ^ nu2 m ≤ m :=
  Nat.le_of_dvd (by omega) (pow_nu2_dvd m h)

theorem bsize_cleaf {d q : ℕ} (hd : 1 ≤ d) : d ≤ bsize (cleaf d q) := by
  rcases Nat.eq_zero_or_pos q with rfl | hq
  · unfold cleaf
    rw [if_pos rfl]
    match d, hd with
    | 1, _ => simp [bsize, nu2_odd]
    | e + 2, _ =>
        unfold bsize
        have hpow : (2:ℕ) ^ (e + 2 - 1) = 2 ^ (e + 1) := by norm_num
        rw [hpow]
        have h1 : (1:ℕ) ≤ 2 ^ (e + 1) := Nat.one_le_two_pow
        have h2 : (2:ℕ) ^ (e + 1) % 2 = 0 := by
          rw [pow_succ]
          omega
        rw [if_neg (by omega), if_neg (by omega), nu2_pow,
          if_pos rfl]
  · unfold cleaf
    rw [if_neg (by omega)]
    unfold bsize
    have h1 : (1:ℕ) ≤ 2 ^ d := Nat.one_le_two_pow
    have hpos : 1 ≤ q * 2 ^ d := Nat.one_le_iff_ne_zero.mpr (by positivity)
    have heven : q * 2 ^ d % 2 = 0 := by
      match d, hd with
      | e + 1, _ =>
          have : q * 2 ^ (e + 1) = (q * 2 ^ e) * 2 := by ring
          omega
    rw [if_neg (by omega), if_neg (by omega), nu2_mul_pow d hq]
    omega

theorem arena_len_pos (m : ℕ) : 1 ≤ arena_len m := by
  induction m with
  | zero => exact le_refl 1
  | succ m ih =>
      show 1 ≤ arena_len m + bsize m
      omega

theorem arena_len_mono : ∀ {a b : ℕ}, a ≤ b → arena_len a ≤ arena_len b := by
  intro a b h
  induction b with
  | zero =>
      have : a = 0 := by omega
      subst this
      exact le_refl _
  | succ b ih =>
      rcases Nat.lt_or_ge a (b + 1) with h1 | h2
      · calc arena_len a ≤ arena_len b := ih (by omega)
          _ ≤ arena_len b + bsize b := Nat.le_add_right _ _
          _ = arena_len (b + 1) := rfl
      · have : a = b + 1 := by omega
        subst this
        exact le_refl _

theorem lidx_lt {d q n : ℕ} (hd : 1 ≤ d) (hlive : cleaf d q < n) :
    lidx d q < arena_len n := by
  have h1 := bsize_cleaf (q := q) hd
  have h2 : arena_len (cleaf d q) + bsize (cleaf d q) =
      arena_len (cleaf d q + 1) := rfl
  have h3 : arena_len (cleaf d q + 1) ≤ arena_len n := arena_len_mono hlive
  unfold lidx
  omega

theorem lidx_pos (d q : ℕ) : 1 ≤ lidx d q := by
  have := arena_len_pos (cleaf d q)
  unfold lidx
  omega

theorem lidx_inj {d q d' q' : ℕ} (hd : 1 ≤ d) (hd' : 1 ≤ d')
    (h : lidx d q = lidx d' q') : d = d' ∧ q = q' := by
  have hb := bsize_cleaf (q := q) hd
  have hb' := bsize_cleaf (q := q') hd'
  have hcc : cleaf d q = cleaf d' q' := by
    by_contra hne
    rcases Nat.lt_or_ge (cleaf d q) (cleaf d' q') with hlt | hge
    · have h1 : arena_len (cleaf d q + 1) ≤ arena_len (cleaf d' q') :=
        arena_len_mono hlt
      have h2 : arena_len (cleaf d q + 1) =
          arena_len (cleaf d q) + bsize (cleaf d q) := rfl
      unfold lidx at h
      omega
    · have hlt : cleaf d' q' < cleaf d q := by omega
      have h1 : arena_len (cleaf d' q' + 1) ≤ arena_len (cleaf d q) :=
        arena_len_mono hlt
      have h2 : arena_len (cleaf d' q' + 1) =
          arena_len (cleaf d' q') + bsize (cleaf d' q') := rfl
      unfold lidx at h
      omega
  have hdd : d = d' := by
    unfold lidx at h
    rw [hcc] at h
    omega
  subst hdd
  refine ⟨rfl, ?_⟩
  unfold cleaf at hcc
  rcases Nat.eq_zero_or_pos q with rfl | hq <;>
    rcases Nat.eq_zero_or_pos q' with rfl | hq'
  · rfl
  · rw [if_pos rfl, if_neg (by omega)] at hcc
    have h1 : (2:ℕ) ^ (d - 1) < 2 ^ d :=
      Nat.pow_lt_pow_right (by norm_num) (by omega)
    have h2 : 2 ^ d ≤ q' * 2 ^ d := Nat.le_mul_of_pos_left _ hq'
    omega
  · rw [if_neg (by omega), if_pos rfl] at hcc
    have h1 : (2:ℕ) ^ (d - 1) < 2 ^ d :=
      Nat.pow_lt_pow_right (by norm_num) (by omega)
    have h2 : 2 ^ d ≤ q * 2 ^ d := Nat.le_mul_of_pos_left _ hq
    omega
  · rw [if_neg (by omega), if_neg (by omega)] at hcc
    have h1 : (1:ℕ) ≤ 2 ^ d := Nat.one_le_two_pow
    exact Nat.eq_of_mul_eq_mul_right (by omega) hcc

theorem lidx_surj {n j : ℕ} (h1 : 1 ≤ j) (h2 : j < arena_len n) :
    ∃ d q, 1 ≤ d ∧ cleaf d q < n ∧ lidx d q = j := by
  induction n with
  | zero =>
      exact absurd h2 (by rw [show arena_len 0 = 1 from rfl]; omega)
  | succ m ih =>
      rcases Nat.lt_or_ge j (arena_len m) with hlt | hge
      · obtain ⟨d, q, hd, hc, hj⟩ := ih hlt
        exact ⟨d, q, hd, by omega, hj⟩
      · have hoff : j - arena_len m < bsize m := by
          have h3 : arena_len (m + 1) = arena_len m + bsize m := rfl
          omega
        have hbpos : 1 ≤ bsize m := by omega
        have hm0 : m ≠ 0 := by
          intro h0
          rw [h0] at hbpos
          simp [bsize] at hbpos
        by_cases hodd : m % 2 = 1
        · have hm1 : m = 1 := by
            by_contra hne
            have : bsize m = 0 := by
              unfold bsize
              rw [if_neg hm0, if_pos hodd, if_neg hne]
            omega
          subst hm1
          have hoff0 : j - arena_len 1 = 0 := by
            have : bsize 1 = 1 := rfl
            omega
          refine ⟨1, 0, le_refl 1, by norm_num [cleaf], ?_⟩
          show arena_len (cleaf 1 0) + 0 = j
          have hc : cleaf 1 0 = 1 := by norm_num [cleaf]
          rw [hc]
          omega
        · have hm2 : 2 ≤ m := by omega
          rcases Nat.lt_or_ge (j - arena_len m) (nu2 m) with hsm | hbig
          · refine ⟨j - arena_len m + 1, m / 2 ^ (j - arena_len m + 1),
              by omega, ?_, ?_⟩
            · have hdvd : 2 ^ nu2 m ∣ m := pow_nu2_dvd m (by omega)
              have hdvd2 : (2:ℕ) ^ (j - arena_len m + 1) ∣ m :=
                dvd_trans (pow_dvd_pow 2 (by omega)) hdvd
              have hc : cleaf (j - arena_len m + 1)
                  (m / 2 ^ (j - arena_len m + 1)) = m := by
                unfold cleaf
                rw [if_neg, Nat.div_mul_cancel hdvd2]
                intro h0
                have h5 := Nat.div_mul_cancel hdvd2
                rw [h0, zero_mul] at h5
                omega
              omega
            · unfold lidx
              have hdvd : 2 ^ nu2 m ∣ m := pow_nu2_dvd m (by omega)
              have hdvd2 : (2:ℕ) ^ (j - arena_len m + 1) ∣ m :=
                dvd_trans (pow_dvd_pow 2 (by omega)) hdvd
              have hc : cleaf (j - arena_len m + 1)
                  (m / 2 ^ (j - arena_len m + 1)) = m := by
                unfold cleaf
                rw [if_neg, Nat.div_mul_cancel hdvd2]
                intro h0
                have h5 := Nat.div_mul_cancel hdvd2
                rw [h0, zero_mul] at h5
                omega
              rw [hc]
              omega
          · have hroot : 2 ^ nu2 m = m ∧ j - arena_len m = nu2 m := by
              unfold bsize at hoff
              rw [if_neg hm0, if_neg hodd] at hoff
              by_cases hp : 2 ^ nu2 m = m
              · rw [if_pos hp] at hoff
                exact ⟨hp, by omega⟩
              · rw [if_neg hp] at hoff
                omega
            refine ⟨nu2 m + 1, 0, by omega, ?_, ?_⟩
            · have hc : cleaf (nu2 m + 1) 0 = m := by
                unfold cleaf
                rw [if_pos rfl]
                simpa using hroot.1
              omega
            · unfold lidx
              have hc : cleaf (nu2 m + 1) 0 = m := by
                unfold cleaf
                rw [if_pos rfl]
                simpa using hroot.1
              rw [hc]
              omega

/-! ### Lookup in the canonical linked arena -/

theorem lblock_length (i : ℕ) : (lblock i).length = bsize i := by
  unfold lblock bsize
  by_cases h0 : i = 0
  · rw [if_pos h0, if_pos h0]
    rfl
  · rw [if_neg h0, if_neg h0]
    by_cases hodd : i % 2 = 1
    · rw [if_pos hodd, if_pos hodd]
      by_cases h1 : i = 1 <;> simp [h1]
    · rw [if_neg hodd, if_neg hodd]
      by_cases hp : 2 ^ nu2 i = i <;> simp [hp]

theorem lblock_get {d q : ℕ} (hd : 1 ≤ d) :
    (lblock (cleaf d q))[d - 1]? = some (d, q) := by
  rcases Nat.eq_zero_or_pos q with rfl | hq
  · have hc : cleaf d 0 = 2 ^ (d - 1) := by unfold cleaf; rw [if_pos rfl]
    match d, hd with
    | 1, _ => rfl
    | e + 2, _ =>
        rw [hc]
        have hpow : (2:ℕ) ^ (e + 2 - 1) = 2 ^ (e + 1) := by norm_num
        rw [hpow]
        unfold lblock
        have h1 : (1:ℕ) ≤ 2 ^ (e + 1) := Nat.one_le_two_pow
        have h2 : (2:ℕ) ^ (e + 1) % 2 = 0 := by
          rw [pow_succ]
          omega
        rw [if_neg (by omega), if_neg (by omega), nu2_pow, if_pos rfl]
        rw [List.getElem?_append_right (by simp)]
        simp
  · have hc : cleaf d q = q * 2 ^ d := by unfold cleaf; rw [if_neg (by omega)]
    rw [hc]
    unfold lblock
    have h1 : (1:ℕ) ≤ 2 ^ d := Nat.one_le_two_pow
    have hpos : 1 ≤ q * 2 ^ d := Nat.one_le_iff_ne_zero.mpr (by positivity)
    have heven : q * 2 ^ d % 2 = 0 := by
      match d, hd with
      | e + 1, _ =>
          have : q * 2 ^ (e + 1) = (q * 2 ^ e) * 2 := by ring
          omega
    have hnu : nu2 (q * 2 ^ d) = nu2 q + d := nu2_mul_pow d hq
    rw [if_neg (by omega), if_neg (by omega), hnu]
    rw [List.getElem?_append_left (by simp; omega)]
    rw [List.getElem?_map, List.getElem?_range (by omega)]
    have harg : d - 1 + 1 = d := by omega
    rw [Option.map_some', harg, Nat.mul_div_cancel _ (by positivity)]

theorem lcanon_flat_length (hasher : MerkleHasher E H) (hs : List H)
    (nv : ℕ) : ∀ n, ((List.range n).flatMap (fun i =>
      (lblock i).map fun dq => lnode hasher hs nv dq.1 dq.2)).length =
      arena_len n - 1 := by
  intro n
  induction n with
  | zero => rfl
  | succ m ih =>
      rw [List.range_succ, List.flatMap_append, List.length_append, ih]
      simp only [List.flatMap_cons, List.flatMap_nil, List.append_nil,
        List.length_map, lblock_length]
      have h1 := arena_len_pos m
      have h2 : arena_len (m + 1) = arena_len m + bsize m := rfl
      omega

theorem lcanon_flat_get (hasher : MerkleHasher E H) (hs : List H) (nv : ℕ) :
    ∀ n d q, 1 ≤ d → cleaf d q < n →
    ((List.range n).flatMap (fun i =>
      (lblock i).map fun dq => lnode hasher hs nv dq.1 dq.2))[
        arena_len (cleaf d q) - 1 + (d - 1)]? =
      some (lnode hasher hs nv d q) := by
  intro n
  induction n with
  | zero =>
      intro d q hd hlive
      exact absurd hlive (by omega)
  | succ m ih =>
      intro d q hd hlive
      rw [List.range_succ, List.flatMap_append]
      have hb := bsize_cleaf (q := q) hd
      have hpos := arena_len_pos (cleaf d q)
      rcases Nat.lt_or_ge (cleaf d q) m with hlt | hge
      · rw [List.getElem?_append_left]
        · exact ih d q hd hlt
        · rw [lcanon_flat_length]
          have h2 : arena_len (cleaf d q) + bsize (cleaf d q) =
              arena_len (cleaf d q + 1) := rfl
          have h3 : arena_len (cleaf d q + 1) ≤ arena_len m :=
            arena_len_mono hlt
          omega
      · have hc : cleaf d q = m := by omega
        subst hc
        rw [List.getElem?_append_right (by rw [lcanon_flat_length]; omega)]
        rw [lcanon_flat_length]
        simp only [List.flatMap_cons, List.flatMap_nil, List.append_nil]
        have harg : arena_len (cleaf d q) - 1 + (d - 1) -
            (arena_len (cleaf d q) - 1) = d - 1 := by omega
        rw [harg, List.getElem?_map, lblock_get hd]
        rfl

theorem lcanon_nodes_length (hasher : MerkleHasher E H) (td : ℕ)
    (ℓ : List E) : (lcanon hasher td ℓ).nodes.length = arena_len ℓ.length := by
  show (InternalNode.Empty :: _ : List (InternalNode H)).length = _
  rw [List.length_cons, lcanon_flat_length]
  have := arena_len_pos ℓ.length
  omega

theorem lcanon_nodes_get (hasher : MerkleHasher E H) (td : ℕ) (ℓ : List E)
    {d q : ℕ} (hd : 1 ≤ d) (hlive : cleaf d q < ℓ.length) :
    (lcanon hasher td ℓ).nodes[lidx d q]? =
      some (lnode hasher (ℓ.map hasher.merkle_hash) ℓ.length d q) := by
  show (InternalNode.Empty :: _ : List (InternalNode H))[lidx d q]? = _
  have hpos := arena_len_pos (cleaf d q)
  have harg : lidx d q = (arena_len (cleaf d q) - 1 + (d - 1)) + 1 := by
    unfold lidx
    omega
  rw [harg, List.getElem?_cons_succ]
  exact lcanon_flat_get hasher (ℓ.map hasher.merkle_hash) ℓ.length
    ℓ.length d q hd hlive

theorem lcanon_nodes_zero (hasher : MerkleHasher E H) (td : ℕ) (ℓ : List E) :
    (lcanon hasher td ℓ).nodes[0]? = some .Empty := by
  show (InternalNode.Empty :: _ : List (InternalNode H))[0]? = _
  rw [List.getElem?_cons_zero]

theorem lcanon_leaves_length (hasher : MerkleHasher E H) (td : ℕ)
    (ℓ : List E) : (lcanon hasher td ℓ).leaves.length = ℓ.length := by
  show (ℓ.mapIdx _).length = _
  simp

/-! ### The rightmost-path rehash on canonical arenas -/

theorem ltree_ext {t₁ t₂ : LinkedMerkleTree E H} (h1 : t₁.leaves = t₂.leaves)
    (h2 : t₁.nodes = t₂.nodes) (h3 : t₁.tree_depth = t₂.tree_depth) :
    t₁ = t₂ := by
  cases t₁
  cases t₂
  simp only at h1 h2 h3
  rw [h1, h2, h3]

/-- The even heap position rewritten by the rightmost-path rehash at depth
`e` of an `n`-leaf tree: the path node itself when it is a left child, its
left sibling otherwise. -/
def wq (n e : ℕ) : ℕ := 2 * ((n - 1) / 2 ^ (e + 1))

theorem depth_one : depth_at_leaf_count 1 = 1 := rfl

theorem depth_sub_one {n : ℕ} (h2 : 2 ≤ n) :
    depth_at_leaf_count n - 1 = floor_log2 (n - 1) + 1 := by
  match n, h2 with
  | k + 2, _ =>
      have hD : depth_at_leaf_count (k + 2) = floor_log2 (k + 1) + 2 := by
        simp [depth_at_leaf_count]
      rw [hD]
      norm_num

theorem path_live {n d : ℕ} (h1 : 1 ≤ n) (hd : 1 ≤ d)
    (hdD : d ≤ depth_at_leaf_count n - 1) :
    cleaf d ((n - 1) / 2 ^ d) < n := by
  rcases Nat.eq_zero_or_pos ((n - 1) / 2 ^ d) with hq | hq
  · rw [hq]
    unfold cleaf
    rw [if_pos rfl]
    match n, h1 with
    | 1, _ =>
        exact absurd hdD (by rw [depth_one]; omega)
    | k + 2, _ =>
        rw [depth_sub_one (by omega)] at hdD
        have h2 : (2:ℕ) ^ (d - 1) ≤ 2 ^ floor_log2 (k + 2 - 1) :=
          Nat.pow_le_pow_right (by norm_num) (by omega)
        have h3 := pow_floor_log2_le (n := k + 2 - 1) (by omega)
        omega
  · unfold cleaf
    rw [if_neg (by omega)]
    have := Nat.div_mul_le_self (n - 1) (2 ^ d)
    omega

theorem path_sib_start (n d : ℕ) :
    n ≤ ((n - 1) / 2 ^ d + 1) * 2 ^ d := by
  have := VectorTree.lt_div_succ_mul (n - 1) (2 ^ d) (by positivity)
  omega

theorem wq_live {n e : ℕ} (h1 : 1 ≤ n) (he : 1 ≤ e)
    (heD : e ≤ depth_at_leaf_count n - 1) : cleaf e (wq n e) < n := by
  have hQQ : (n - 1) / 2 ^ e / 2 = (n - 1) / 2 ^ (e + 1) := by
    rw [Nat.div_div_eq_div_mul, ← pow_succ]
  have hwq : wq n e = 2 * ((n - 1) / 2 ^ e / 2) := by
    unfold wq
    rw [hQQ]
  by_cases hpar : (n - 1) / 2 ^ e % 2 = 1
  · -- wq = Q - 1
    have hw : wq n e = (n - 1) / 2 ^ e - 1 := by omega
    rcases Nat.eq_zero_or_pos (wq n e) with h0 | hpos
    · rw [h0]
      unfold cleaf
      rw [if_pos rfl]
      have hQ1 : (n - 1) / 2 ^ e = 1 := by omega
      have h2 : 2 ^ e ≤ n - 1 := by
        have h3 := Nat.div_mul_le_self (n - 1) (2 ^ e)
        have h4 : (n - 1) / 2 ^ e * 2 ^ e = 2 ^ e := by
          rw [hQ1, one_mul]
        omega
      have h5 : (2:ℕ) ^ (e - 1) < 2 ^ e :=
        Nat.pow_lt_pow_right (by norm_num) (by omega)
      omega
    · unfold cleaf
      rw [if_neg (by omega)]
      have h2 := Nat.div_mul_le_self (n - 1) (2 ^ e)
      have h3 : wq n e * 2 ^ e < (n - 1) / 2 ^ e * 2 ^ e := by
        have h4 : (0:ℕ) < 2 ^ e := by positivity
        exact (Nat.mul_lt_mul_right h4).mpr (by omega)
      omega
  · have hw : wq n e = (n - 1) / 2 ^ e := by omega
    rw [hw]
    exact path_live h1 he heD

theorem padHash_split (hasher : MerkleHasher E H) (hs : List H) (d Q1 : ℕ) :
    padHash hasher (d + 1)
        ((hs.drop (Q1 * 2 ^ (d + 1))).take (2 ^ (d + 1))) =
      match padHash hasher d ((hs.drop (2 * Q1 * 2 ^ d)).take (2 ^ d)),
          padHash hasher d ((hs.drop ((2 * Q1 + 1) * 2 ^ d)).take (2 ^ d)) with
      | some l, some r => some (hasher.combine_hash d l r)
      | some l, none => some (hasher.combine_hash d l l)
      | none, _ => none := by
  have he1 : 2 * Q1 * 2 ^ d = Q1 * 2 ^ (d + 1) := by ring
  have he2 : (2 * Q1 + 1) * 2 ^ d = Q1 * 2 ^ (d + 1) + 2 ^ d := by ring
  rw [he1, he2]
  have htake : ((hs.drop (Q1 * 2 ^ (d + 1))).take (2 ^ (d + 1))).take (2 ^ d) =
      (hs.drop (Q1 * 2 ^ (d + 1))).take (2 ^ d) := by
    rw [List.take_take]
    congr 1
    have : (2:ℕ) ^ d ≤ 2 ^ (d + 1) :=
      Nat.pow_le_pow_right (by norm_num) (by omega)
    omega
  have hdrop : ((hs.drop (Q1 * 2 ^ (d + 1))).take (2 ^ (d + 1))).drop (2 ^ d) =
      (hs.drop (Q1 * 2 ^ (d + 1) + 2 ^ d)).take (2 ^ d) := by
    rw [List.drop_take, List.drop_drop]
    have e1 : 2 ^ (d + 1) - 2 ^ d = 2 ^ d := by
      rw [pow_succ]
      omega
    rw [e1]
  cases hseg : hs.drop (Q1 * 2 ^ (d + 1)) with
  | nil =>
      have hseg2 : hs.drop (Q1 * 2 ^ (d + 1) + 2 ^ d) = [] := by
        have e2 : hs.drop (Q1 * 2 ^ (d + 1) + 2 ^ d) =
            (hs.drop (Q1 * 2 ^ (d + 1))).drop (2 ^ d) := by
          rw [List.drop_drop]
        rw [e2, hseg, List.drop_nil]
      rw [hseg2]
      simp [VectorTree.padHash_nil]
  | cons a l =>
      have hne : ((a :: l).take (2 ^ (d + 1))) ≠ [] := by
        have hpow : 1 ≤ 2 ^ (d + 1) := Nat.one_le_two_pow
        cases hp : 2 ^ (d + 1) with
        | zero => omega
        | succ q => simp [List.take_cons]
      rw [VectorTree.padHash_succ hasher d _ hne]
      rw [← hseg, htake, hdrop]

theorem pad_window_some (hasher : MerkleHasher E H) (hs : List H)
    {d s : ℕ} (hlt : s < hs.length) :
    ∃ x, padHash hasher d ((hs.drop s).take (2 ^ d)) = some x := by
  cases hp : padHash hasher d ((hs.drop s).take (2 ^ d)) with
  | some y => exact ⟨y, rfl⟩
  | none =>
      exfalso
      rw [VectorTree.padHash_eq_none_iff] at hp
      rcases List.take_eq_nil_iff.mp hp with hz | hz
      · have : (1:ℕ) ≤ 2 ^ d := Nat.one_le_two_pow
        omega
      · have := List.drop_eq_nil_iff_le.mp hz
        omega

theorem lnode_wq (hasher : MerkleHasher E H) (hs : List H) (n e : ℕ)
    (hlen : hs.length = n) (h1 : 1 ≤ n) {x : H}
    (hx : padHash hasher e
      ((hs.drop ((n - 1) / 2 ^ e * 2 ^ e)).take (2 ^ e)) = some x) :
    lnode hasher hs n e (wq n e) = .Left x (lpar n e (wq n e)) := by
  have hQQ : (n - 1) / 2 ^ e / 2 = (n - 1) / 2 ^ (e + 1) := by
    rw [Nat.div_div_eq_div_mul, ← pow_succ]
  have hwq : wq n e = 2 * ((n - 1) / 2 ^ e / 2) := by
    unfold wq
    rw [hQQ]
  by_cases hpar : (n - 1) / 2 ^ e % 2 = 1
  · have hw : wq n e = (n - 1) / 2 ^ e - 1 := by omega
    unfold lnode
    rw [if_neg (by omega)]
    have hsib : wq n e + 1 = (n - 1) / 2 ^ e := by omega
    rw [hsib, hx]
  · have hw : wq n e = (n - 1) / 2 ^ e := by omega
    unfold lnode
    rw [if_neg (by omega)]
    have hvac : (hs.drop ((wq n e + 1) * 2 ^ e)).take (2 ^ e) = [] := by
      have h2 := path_sib_start n e
      rw [List.take_eq_nil_iff]
      right
      rw [List.drop_eq_nil_iff_le]
      rw [hw]
      omega
    rw [hvac, VectorTree.padHash_nil, hw, hx]

theorem parent_index_go_left {t : LinkedMerkleTree E H} {i p : ℕ} {g : H}
    (h : t.nodes[i]? = some (.Left g p)) (f : ℕ) :
    parent_index_go t (f + 1) i = .ok p := by
  unfold parent_index_go node_at
  rw [h]
  rfl

/-- Continuation step of the rehash master lemma: once depth `d` of the
rightmost path has been written, the recursive call at the parent finishes
the job — by the induction hypothesis in the interior, by reading the
sentinel at the root. -/
theorem rehash_go_continue (hasher : MerkleHasher E H) (td : ℕ) (ℓ : List E)
    (h1 : 1 ≤ ℓ.length) (f d : ℕ) (t' : LinkedMerkleTree E H) (ph' : H)
    (ih : ∀ (d : ℕ) (t : LinkedMerkleTree E H) (ph : H),
      1 ≤ d →
      d ≤ depth_at_leaf_count ℓ.length - 1 →
      depth_at_leaf_count ℓ.length - d + 1 ≤ f →
      t.leaves = (lcanon hasher td ℓ).leaves →
      t.tree_depth = td →
      t.nodes.length = arena_len ℓ.length →
      (∀ j, (∀ e, d ≤ e → e ≤ depth_at_leaf_count ℓ.length - 1 →
          j ≠ lidx e (wq ℓ.length e)) →
        t.nodes[j]? = (lcanon hasher td ℓ).nodes[j]?) →
      (∀ e, d ≤ e → e ≤ depth_at_leaf_count ℓ.length - 1 →
        ∃ g, t.nodes[lidx e (wq ℓ.length e)]? =
          some (.Left g (lpar ℓ.length e (wq ℓ.length e)))) →
      padHash hasher d (((ℓ.map hasher.merkle_hash).drop
          ((ℓ.length - 1) / 2 ^ d * 2 ^ d)).take (2 ^ d)) = some ph →
      rehash_right_path_go hasher f t (d - 1)
          (lidx d ((ℓ.length - 1) / 2 ^ d)) ph =
        .ok (lcanon hasher td ℓ))
    (hd : 1 ≤ d) (hdD : d ≤ depth_at_leaf_count ℓ.length - 1)
    (hfuel : depth_at_leaf_count ℓ.length - d + 1 ≤ f + 1)
    (hleaves' : t'.leaves = (lcanon hasher td ℓ).leaves)
    (htd' : t'.tree_depth = td)
    (hlen' : t'.nodes.length = arena_len ℓ.length)
    (hA' : ∀ j, (∀ e, d + 1 ≤ e → e ≤ depth_at_leaf_count ℓ.length - 1 →
        j ≠ lidx e (wq ℓ.length e)) →
      t'.nodes[j]? = (lcanon hasher td ℓ).nodes[j]?)
    (hB' : ∀ e, d + 1 ≤ e → e ≤ depth_at_leaf_count ℓ.length - 1 →
      ∃ g, t'.nodes[lidx e (wq ℓ.length e)]? =
        some (.Left g (lpar ℓ.length e (wq ℓ.length e))))
    (hph' : padHash hasher (d + 1) (((ℓ.map hasher.merkle_hash).drop
        ((ℓ.length - 1) / 2 ^ (d + 1) * 2 ^ (d + 1))).take (2 ^ (d + 1))) =
      some ph') :
    rehash_right_path_go hasher f t' d (lpar ℓ.length d (wq ℓ.length d)) ph' =
      .ok (lcanon hasher td ℓ) := by
  have hwq2 : wq ℓ.length d / 2 = (ℓ.length - 1) / 2 ^ (d + 1) := by
    unfold wq
    omega
  rcases Nat.lt_or_ge d (depth_at_leaf_count ℓ.length - 1) with hlt | hge
  · have hlive' : cleaf (d + 1) ((ℓ.length - 1) / 2 ^ (d + 1)) < ℓ.length :=
      path_live h1 (by omega) (by omega)
    have hlp : lpar ℓ.length d (wq ℓ.length d) =
        lidx (d + 1) ((ℓ.length - 1) / 2 ^ (d + 1)) := by
      unfold lpar
      rw [hwq2, if_pos hlive']
    rw [hlp]
    exact ih (d + 1) t' ph' (by omega) (by omega) (by omega)
      hleaves' htd' hlen' hA' hB' hph'
  · have hd' : d = depth_at_leaf_count ℓ.length - 1 := by omega
    have hD2 := VectorTree.le_pow_depth h1
    have hroot : (ℓ.length - 1) / 2 ^ (d + 1) = 0 := by
      apply Nat.div_eq_of_lt
      have h3 : (2:ℕ) ^ (depth_at_leaf_count ℓ.length - 1) ≤ 2 ^ (d + 1) :=
        Nat.pow_le_pow_right (by norm_num) (by omega)
      omega
    have hlp : lpar ℓ.length d (wq ℓ.length d) = 0 := by
      unfold lpar
      rw [hwq2, hroot]
      have h3 : cleaf (d + 1) 0 = 2 ^ d := by
        unfold cleaf
        rw [if_pos rfl]
        norm_num
      rw [← hd'] at hD2
      rw [if_neg (by rw [h3]; omega)]
    have hTeq : t' = lcanon hasher td ℓ := by
      refine ltree_ext hleaves' ?_ htd'
      apply List.ext_getElem?
      intro j
      apply hA'
      intro e he heD
      omega
    rw [hlp, hTeq]
    obtain ⟨f', rfl⟩ : ∃ f', f = f' + 1 := ⟨f - 1, by omega⟩
    simp only [rehash_right_path_go]
    simp only [pure, Except.pure, bind, Except.bind]
    have hna : node_at (lcanon hasher td ℓ) 0 =
        .ok (.Empty : InternalNode H) := by
      unfold node_at
      rw [lcanon_nodes_zero]
    rw [hna]

/-- Master lemma of the rightmost-path rehash: starting at depth `d` of the
path with the correct running hash, on an arena that is canonical away from
the not-yet-written path slots (which already hold left nodes with correct
parent pointers), the loop rewrites exactly those slots and lands on the
canonical tree. -/
theorem rehash_go_canon (hasher : MerkleHasher E H) (td : ℕ) (ℓ : List E)
    (h1 : 1 ≤ ℓ.length) :
    ∀ (fuel d : ℕ) (t : LinkedMerkleTree E H) (ph : H),
      1 ≤ d →
      d ≤ depth_at_leaf_count ℓ.length - 1 →
      depth_at_leaf_count ℓ.length - d + 1 ≤ fuel →
      t.leaves = (lcanon hasher td ℓ).leaves →
      t.tree_depth = td →
      t.nodes.length = arena_len ℓ.length →
      (∀ j, (∀ e, d ≤ e → e ≤ depth_at_leaf_count ℓ.length - 1 →
          j ≠ lidx e (wq ℓ.length e)) →
        t.nodes[j]? = (lcanon hasher td ℓ).nodes[j]?) →
      (∀ e, d ≤ e → e ≤ depth_at_leaf_count ℓ.length - 1 →
        ∃ g, t.nodes[lidx e (wq ℓ.length e)]? =
          some (.Left g (lpar ℓ.length e (wq ℓ.length e)))) →
      padHash hasher d (((ℓ.map hasher.merkle_hash).drop
          ((ℓ.length - 1) / 2 ^ d * 2 ^ d)).take (2 ^ d)) = some ph →
      rehash_right_path_go hasher fuel t (d - 1)
          (lidx d ((ℓ.length - 1) / 2 ^ d)) ph =
        .ok (lcanon hasher td ℓ) := by
  intro fuel
  induction fuel with
  | zero =>
      intro d t ph hd hdD hfuel
      exfalso
      omega
  | succ f ih =>
      intro d t ph hd hdD hfuel hleaves htd hlen hA hB hph
      have hQQ : (ℓ.length - 1) / 2 ^ d / 2 =
          (ℓ.length - 1) / 2 ^ (d + 1) := by
        rw [Nat.div_div_eq_div_mul, ← pow_succ]
      have hwqd : wq ℓ.length d = 2 * ((ℓ.length - 1) / 2 ^ d / 2) := by
        unfold wq
        rw [hQQ]
      have hlive : cleaf d ((ℓ.length - 1) / 2 ^ d) < ℓ.length :=
        path_live h1 hd hdD
      have hwlive : cleaf d (wq ℓ.length d) < ℓ.length := wq_live h1 hd hdD
      have hwlt : lidx d (wq ℓ.length d) < t.nodes.length := by
        rw [hlen]
        exact lidx_lt hd hwlive
      obtain ⟨gB, hgB⟩ := hB d (le_refl d) hdD
      have hlnw : lnode hasher (ℓ.map hasher.merkle_hash) ℓ.length d
          (wq ℓ.length d) = .Left ph (lpar ℓ.length d (wq ℓ.length d)) :=
        lnode_wq hasher (ℓ.map hasher.merkle_hash) ℓ.length d
          (by rw [List.length_map]) h1 hph
      have hTw : (lcanon hasher td ℓ).nodes[lidx d (wq ℓ.length d)]? =
          some (.Left ph (lpar ℓ.length d (wq ℓ.length d))) := by
        rw [lcanon_nodes_get hasher td ℓ hd hwlive, hlnw]
      have hA' : ∀ j, (∀ e, d + 1 ≤ e →
          e ≤ depth_at_leaf_count ℓ.length - 1 →
          j ≠ lidx e (wq ℓ.length e)) →
          (t.nodes.set (lidx d (wq ℓ.length d))
            (.Left ph (lpar ℓ.length d (wq ℓ.length d))))[j]? =
            (lcanon hasher td ℓ).nodes[j]? := by
        intro j hj
        by_cases hjw : j = lidx d (wq ℓ.length d)
        · subst hjw
          rw [List.getElem?_set_eq_of_lt _ hwlt, hTw]
        · rw [List.getElem?_set_ne (fun h => hjw h.symm)]
          apply hA
          intro e he heD
          rcases Nat.eq_or_lt_of_le he with rfl | hlt2
          · exact hjw
          · exact hj e (by omega) heD
      have hB' : ∀ e, d + 1 ≤ e → e ≤ depth_at_leaf_count ℓ.length - 1 →
          ∃ g, (t.nodes.set (lidx d (wq ℓ.length d))
            (.Left ph (lpar ℓ.length d (wq ℓ.length d))))[lidx e
              (wq ℓ.length e)]? =
            some (.Left g (lpar ℓ.length e (wq ℓ.length e))) := by
        intro e he heD
        have hne2 : lidx d (wq ℓ.length d) ≠ lidx e (wq ℓ.length e) := by
          intro heq
          obtain ⟨hde, _⟩ := lidx_inj hd (by omega) heq
          omega
        rw [List.getElem?_set_ne hne2]
        exact hB e (by omega) heD
      have hlen' : (t.nodes.set (lidx d (wq ℓ.length d))
          (.Left ph (lpar ℓ.length d (wq ℓ.length d)))).length =
          arena_len ℓ.length := by
        rw [List.length_set]
        exact hlen
      simp only [rehash_right_path_go]
      simp only [pure, Except.pure, bind, Except.bind]
      by_cases hpar : ((ℓ.length - 1) / 2 ^ d) % 2 = 1
      · -- right child on the path: the write hits the left sibling
        have hwQ : wq ℓ.length d = (ℓ.length - 1) / 2 ^ d - 1 := by omega
        have hnotw : ∀ e, d ≤ e → e ≤ depth_at_leaf_count ℓ.length - 1 →
            lidx d ((ℓ.length - 1) / 2 ^ d) ≠ lidx e (wq ℓ.length e) := by
          intro e he heD heq
          obtain ⟨hde, hqe⟩ := lidx_inj hd (by omega) heq
          subst hde
          unfold wq at hqe
          omega
        have hpath : t.nodes[lidx d ((ℓ.length - 1) / 2 ^ d)]? =
            some (lnode hasher (ℓ.map hasher.merkle_hash) ℓ.length d
              ((ℓ.length - 1) / 2 ^ d)) := by
          rw [hA _ hnotw]
          exact lcanon_nodes_get hasher td ℓ hd hlive
        have hstart : wq ℓ.length d * 2 ^ d <
            (ℓ.map hasher.merkle_hash).length := by
          rw [List.length_map]
          rcases Nat.eq_zero_or_pos (wq ℓ.length d) with h0 | hposq
          · rw [h0, zero_mul]
            omega
          · have h2 : cleaf d (wq ℓ.length d) = wq ℓ.length d * 2 ^ d := by
              unfold cleaf
              rw [if_neg (by omega)]
            omega
        obtain ⟨gs, hgs⟩ := pad_window_some hasher (ℓ.map hasher.merkle_hash)
          (d := d) (s := wq ℓ.length d * 2 ^ d) hstart
        have hlnv : lnode hasher (ℓ.map hasher.merkle_hash) ℓ.length d
            ((ℓ.length - 1) / 2 ^ d) =
              .Right gs (lidx d (wq ℓ.length d)) := by
          unfold lnode
          rw [if_pos hpar, ← hwQ, hgs]
        have hna : node_at t (lidx d ((ℓ.length - 1) / 2 ^ d)) =
            .ok (.Right gs (lidx d (wq ℓ.length d))) := by
          unfold node_at
          rw [hpath, hlnv]
        rw [hna]
        dsimp only
        have hpi : parent_index t (lidx d (wq ℓ.length d)) =
            .ok (lpar ℓ.length d (wq ℓ.length d)) := by
          unfold parent_index
          exact parent_index_go_left hgB t.nodes.length
        rw [hpi]
        dsimp only
        have hsn : set_node t (lidx d (wq ℓ.length d))
            (.Left ph (lpar ℓ.length d (wq ℓ.length d))) =
            .ok { t with nodes := (t.nodes.set (lidx d (wq ℓ.length d))
              (.Left ph (lpar ℓ.length d (wq ℓ.length d)))) } := by
          unfold set_node
          rw [if_pos hwlt]
        rw [hsn]
        dsimp only
        rw [show d - 1 + 1 = d from by omega]
        have hsplit := padHash_split hasher (ℓ.map hasher.merkle_hash) d
          ((ℓ.length - 1) / 2 ^ (d + 1))
        have he3 : 2 * ((ℓ.length - 1) / 2 ^ (d + 1)) + 1 =
            (ℓ.length - 1) / 2 ^ d := by omega
        have he2 : 2 * ((ℓ.length - 1) / 2 ^ (d + 1)) = wq ℓ.length d := rfl
        rw [he3, he2, hgs, hph] at hsplit
        have hph' : padHash hasher (d + 1) (((ℓ.map hasher.merkle_hash).drop
            ((ℓ.length - 1) / 2 ^ (d + 1) * 2 ^ (d + 1))).take
              (2 ^ (d + 1))) = some (hasher.combine_hash d gs ph) := by
          rw [hsplit]
        exact rehash_go_continue hasher td ℓ h1 f d _ _ ih hd hdD hfuel
          hleaves htd hlen' hA' hB' hph'
      · -- left child on the path: the write hits the node itself
        have hwQ : wq ℓ.length d = (ℓ.length - 1) / 2 ^ d := by omega
        have hna : node_at t (lidx d ((ℓ.length - 1) / 2 ^ d)) =
            .ok (.Left gB (lpar ℓ.length d (wq ℓ.length d))) := by
          unfold node_at
          rw [← hwQ, hgB]
        rw [hna]
        dsimp only
        rw [← hwQ]
        have hsn : set_node t (lidx d (wq ℓ.length d))
            (.Left ph (lpar ℓ.length d (wq ℓ.length d))) =
            .ok { t with nodes := (t.nodes.set (lidx d (wq ℓ.length d))
              (.Left ph (lpar ℓ.length d (wq ℓ.length d)))) } := by
          unfold set_node
          rw [if_pos hwlt]
        rw [hsn]
        dsimp only
        rw [show d - 1 + 1 = d from by omega]
        have hsplit := padHash_split hasher (ℓ.map hasher.merkle_hash) d
          ((ℓ.length - 1) / 2 ^ (d + 1))
        have he2 : 2 * ((ℓ.length - 1) / 2 ^ (d + 1)) =
            (ℓ.length - 1) / 2 ^ d := by omega
        rw [he2] at hsplit
        have hvac : ((ℓ.map hasher.merkle_hash).drop
            (((ℓ.length - 1) / 2 ^ d + 1) * 2 ^ d)).take (2 ^ d) = [] := by
          rw [List.take_eq_nil_iff]
          right
          rw [List.drop_eq_nil_iff_le, List.length_map]
          exact path_sib_start ℓ.length d
        rw [hph, hvac, VectorTree.padHash_nil] at hsplit
        have hph' : padHash hasher (d + 1) (((ℓ.map hasher.merkle_hash).drop
            ((ℓ.length - 1) / 2 ^ (d + 1) * 2 ^ (d + 1))).take
              (2 ^ (d + 1))) = some (hasher.combine_hash d ph ph) := by
          rw [hsplit]
        exact rehash_go_continue hasher td ℓ h1 f d _ _ ih hd hdD hfuel
          hleaves htd hlen' hA' hB' hph'

theorem lcanon_leaf_get (hasher : MerkleHasher E H) (td : ℕ) (ℓ : List E)
    (i : ℕ) :
    (lcanon hasher td ℓ).leaves[i]? = (ℓ[i]?).map (fun e =>
      (⟨e, if ℓ.length = 1 then 0 else lidx 1 (i / 2)⟩ : LeafNode E)) := by
  show (ℓ.mapIdx _)[i]? = _
  rw [List.getElem?_mapIdx]

/-- The rightmost-path rehash finishes the canonicalisation: on an arena
that agrees with the canonical one away from the path's write slots — which
already hold left nodes with correct parent pointers but stale hashes — it
returns exactly the canonical tree. -/
theorem rehash_right_path_canon (hasher : MerkleHasher E H) (td : ℕ)
    (ℓ : List E) (h1 : 1 ≤ ℓ.length) (t : LinkedMerkleTree E H)
    (hleaves : t.leaves = (lcanon hasher td ℓ).leaves)
    (htd : t.tree_depth = td)
    (hlen : t.nodes.length = arena_len ℓ.length)
    (hA : ∀ j, (∀ e, 1 ≤ e → e ≤ depth_at_leaf_count ℓ.length - 1 →
        j ≠ lidx e (wq ℓ.length e)) →
      t.nodes[j]? = (lcanon hasher td ℓ).nodes[j]?)
    (hB : ∀ e, 1 ≤ e → e ≤ depth_at_leaf_count ℓ.length - 1 →
      ∃ g, t.nodes[lidx e (wq ℓ.length e)]? =
        some (.Left g (lpar ℓ.length e (wq ℓ.length e)))) :
    rehash_right_path hasher t = .ok (lcanon hasher td ℓ) := by
  have hlel : t.leaves.length = ℓ.length := by
    rw [hleaves, lcanon_leaves_length]
  obtain ⟨eL, heL⟩ : ∃ e, ℓ[ℓ.length - 1]? = some e :=
    ⟨_, List.getElem?_eq_getElem (by omega)⟩
  have hbL : ℓ.length - 1 < ℓ.length := by omega
  have heL' : ℓ[ℓ.length - 1] = eL := by
    rw [List.getElem?_eq_getElem hbL] at heL
    exact Option.some.inj heL
  have hla : leaf_at t (ℓ.length - 1) = .ok ⟨eL,
      if ℓ.length = 1 then 0 else lidx 1 ((ℓ.length - 1) / 2)⟩ := by
    unfold leaf_at
    have hlv : t.leaves[ℓ.length - 1]? = some (⟨eL,
        if ℓ.length = 1 then 0 else lidx 1 ((ℓ.length - 1) / 2)⟩ :
          LeafNode E) := by
      rw [hleaves, lcanon_leaf_get, heL]
      rfl
    rw [hlv]
  unfold rehash_right_path
  simp only [pure, Except.pure, bind, Except.bind]
  rw [hlel]
  rw [if_neg (show ¬ℓ.length = 0 from by omega)]
  rw [hla]
  dsimp only
  by_cases hn1 : ℓ.length = 1
  · -- a single leaf: its parent is the sentinel and nothing is rewritten
    have hTeq : t = lcanon hasher td ℓ := by
      refine ltree_ext hleaves ?_ htd
      apply List.ext_getElem?
      intro j
      apply hA
      intro e he heD
      rw [hn1, depth_one] at heD
      omega
    rw [if_neg (show ¬is_right_leaf (ℓ.length - 1) from by
      unfold is_right_leaf
      omega)]
    rw [if_pos hn1]
    rw [hTeq, lcanon_nodes_length, hn1]
    rw [show arena_len 1 + 2 = 2 + 1 from rfl]
    simp only [rehash_right_path_go]
    simp only [pure, Except.pure, bind, Except.bind]
    have hna : node_at (lcanon hasher td ℓ) 0 =
        .ok (.Empty : InternalNode H) := by
      unfold node_at
      rw [lcanon_nodes_zero]
    rw [hna]
  · have hn2 : 2 ≤ ℓ.length := by omega
    rw [if_neg hn1]
    have hD1 : 1 ≤ depth_at_leaf_count ℓ.length - 1 := by
      rw [depth_sub_one hn2]
      omega
    have hQtop : cleaf (depth_at_leaf_count ℓ.length - 1)
        ((ℓ.length - 1) / 2 ^ (depth_at_leaf_count ℓ.length - 1)) <
          ℓ.length := path_live h1 hD1 (le_refl _)
    have hlt2 := lidx_lt (n := ℓ.length) hD1 hQtop
    have hlidxge : depth_at_leaf_count ℓ.length - 1 - 1 ≤
        lidx (depth_at_leaf_count ℓ.length - 1)
          ((ℓ.length - 1) / 2 ^ (depth_at_leaf_count ℓ.length - 1)) := by
      unfold lidx
      omega
    have hfuel2 : depth_at_leaf_count ℓ.length - 1 + 1 ≤
        t.nodes.length + 2 := by
      rw [hlen]
      omega
    by_cases hrl : (ℓ.length - 1) % 2 = 1
    · -- the new leaf is a right child: combine with the previous leaf
      obtain ⟨eP, heP⟩ : ∃ e, ℓ[ℓ.length - 1 - 1]? = some e :=
        ⟨_, List.getElem?_eq_getElem (by omega)⟩
      have hbP : ℓ.length - 1 - 1 < ℓ.length := by omega
      have heP' : ℓ[ℓ.length - 1 - 1] = eP := by
        rw [List.getElem?_eq_getElem hbP] at heP
        exact Option.some.inj heP
      have hlaP : leaf_at t (ℓ.length - 1 - 1) = .ok ⟨eP,
          if ℓ.length = 1 then 0 else lidx 1 ((ℓ.length - 1 - 1) / 2)⟩ := by
        unfold leaf_at
        have hlv : t.leaves[ℓ.length - 1 - 1]? = some (⟨eP,
            if ℓ.length = 1 then 0 else lidx 1 ((ℓ.length - 1 - 1) / 2)⟩ :
              LeafNode E) := by
          rw [hleaves, lcanon_leaf_get, heP]
          rfl
        rw [hlv]
      rw [if_pos (show is_right_leaf (ℓ.length - 1) from hrl)]
      rw [hlaP]
      dsimp only
      have hdrop2 : (ℓ.map hasher.merkle_hash).drop (ℓ.length - 1 - 1) =
          [hasher.merkle_hash eP, hasher.merkle_hash eL] := by
        rw [List.drop_eq_getElem_cons (by rw [List.length_map]; omega)]
        rw [show ℓ.length - 1 - 1 + 1 = ℓ.length - 1 from by omega]
        rw [List.drop_eq_getElem_cons (by rw [List.length_map]; omega)]
        rw [show ℓ.length - 1 + 1 = ℓ.length from by omega]
        rw [List.drop_eq_nil_of_le (by rw [List.length_map])]
        simp only [List.getElem_map]
        rw [heP', heL']
      have hph1 : padHash hasher 1 (((ℓ.map hasher.merkle_hash).drop
          ((ℓ.length - 1) / 2 ^ 1 * 2 ^ 1)).take (2 ^ 1)) =
          some (hasher.combine_hash 0 (hasher.merkle_hash eP)
            (hasher.merkle_hash eL)) := by
        rw [show (2:ℕ) ^ 1 = 2 from rfl]
        rw [show (ℓ.length - 1) / 2 * 2 = ℓ.length - 1 - 1 from by omega]
        rw [hdrop2]
        rfl
      have hgo := rehash_go_canon hasher td ℓ h1 (t.nodes.length + 2) 1 t
        (hasher.combine_hash 0 (hasher.merkle_hash eP)
          (hasher.merkle_hash eL))
        (le_refl 1) hD1 hfuel2 hleaves htd hlen hA hB hph1
      rw [show (1:ℕ) - 1 = 0 from rfl, show (2:ℕ) ^ 1 = 2 from rfl] at hgo
      exact hgo
    · -- the new leaf is a left child: self-pair it
      rw [if_neg (show ¬is_right_leaf (ℓ.length - 1) from hrl)]
      have hdrop1 : (ℓ.map hasher.merkle_hash).drop (ℓ.length - 1) =
          [hasher.merkle_hash eL] := by
        rw [List.drop_eq_getElem_cons (by rw [List.length_map]; omega)]
        rw [show ℓ.length - 1 + 1 = ℓ.length from by omega]
        rw [List.drop_eq_nil_of_le (by rw [List.length_map])]
        simp only [List.getElem_map]
        rw [heL']
      have hph1 : padHash hasher 1 (((ℓ.map hasher.merkle_hash).drop
          ((ℓ.length - 1) / 2 ^ 1 * 2 ^ 1)).take (2 ^ 1)) =
          some (hasher.combine_hash 0 (hasher.merkle_hash eL)
            (hasher.merkle_hash eL)) := by
        rw [show (2:ℕ) ^ 1 = 2 from rfl]
        rw [show (ℓ.length - 1) / 2 * 2 = ℓ.length - 1 from by omega]
        rw [hdrop1]
        rfl
      have hgo := rehash_go_canon hasher td ℓ h1 (t.nodes.length + 2) 1 t
        (hasher.combine_hash 0 (hasher.merkle_hash eL)
          (hasher.merkle_hash eL))
        (le_refl 1) hD1 hfuel2 hleaves htd hlen hA hB hph1
      rw [show (1:ℕ) - 1 = 0 from rfl, show (2:ℕ) ^ 1 = 2 from rfl] at hgo
      exact hgo

/-! ### Stability of canonical nodes under a leaf append -/

theorem window_append (hs l : List H) (s k : ℕ) (h : s + k ≤ hs.length) :
    ((hs ++ l).drop s).take k = (hs.drop s).take k := by
  rw [List.drop_append_of_le_length (by omega)]
  rw [List.take_append_of_le_length (by rw [List.length_drop]; omega)]

/-- The self-pairing hash tower over a single leaf hash: the provisional
`my_hash` values of the insertion walk. -/
def mtower (hasher : MerkleHasher E H) (x : H) : ℕ → H
  | 0 => x
  | d + 1 => hasher.combine_hash d (mtower hasher x d) (mtower hasher x d)

theorem padHash_single (hasher : MerkleHasher E H) (x : H) (d : ℕ) :
    padHash hasher d [x] = some (mtower hasher x d) := by
  induction d with
  | zero => rfl
  | succ d ih =>
      rw [VectorTree.padHash_succ hasher d [x] (by simp)]
      have h1 : ([x] : List H).take (2 ^ d) = [x] := by
        apply List.take_all_of_le
        have : (1:ℕ) ≤ 2 ^ d := Nat.one_le_two_pow
        simp only [List.length_cons, List.length_nil]
        omega
      have h2 : ([x] : List H).drop (2 ^ d) = [] := by
        apply List.drop_eq_nil_of_le
        have : (1:ℕ) ≤ 2 ^ d := Nat.one_le_two_pow
        simp only [List.length_cons, List.length_nil]
        omega
      rw [h1, h2, ih, VectorTree.padHash_nil]
      rfl

theorem nu2_quot_odd {n : ℕ} (h : 1 ≤ n) : n / 2 ^ nu2 n % 2 = 1 := by
  obtain ⟨q, hq⟩ := pow_nu2_dvd n h
  have hq1 : 1 ≤ q := by
    rcases Nat.eq_zero_or_pos q with rfl | h2
    · rw [mul_zero] at hq
      omega
    · exact h2
  have hdiv : n / 2 ^ nu2 n = q := by
    nth_rewrite 1 [hq]
    exact Nat.mul_div_cancel_left q (by positivity)
  rw [hdiv]
  by_contra hodd
  obtain ⟨r, hr⟩ : ∃ r, q = 2 * r := ⟨q / 2, by omega⟩
  have hr1 : 1 ≤ r := by omega
  have hn : n = r * 2 ^ (nu2 n + 1) := by
    calc n = 2 ^ nu2 n * q := hq
      _ = r * 2 ^ (nu2 n + 1) := by rw [hr]; ring
  have h3 := nu2_mul_pow (q := r) (nu2 n + 1) hr1
  rw [← hn] at h3
  omega

theorem live_depth_le {n d q : ℕ} (hd : 1 ≤ d) (hlive : cleaf d q < n) :
    d ≤ depth_at_leaf_count n - 1 := by
  have hc : 2 ^ (d - 1) ≤ cleaf d q := by
    unfold cleaf
    rcases eq_or_ne q 0 with rfl | hq
    · rw [if_pos rfl]
    · rw [if_neg hq]
      have h1 : (1:ℕ) ≤ q := by omega
      have h2 : (2:ℕ) ^ (d - 1) ≤ 2 ^ d :=
        Nat.pow_le_pow_right (by norm_num) (by omega)
      calc 2 ^ (d - 1) ≤ 2 ^ d := h2
        _ = 1 * 2 ^ d := (one_mul _).symm
        _ ≤ q * 2 ^ d := Nat.mul_le_mul_right _ h1
  have hn2 : 2 ≤ n := by
    have h3 : (1:ℕ) ≤ 2 ^ (d - 1) := Nat.one_le_two_pow
    omega
  rw [depth_sub_one hn2]
  by_contra hcon
  have h4 : floor_log2 (n - 1) + 1 ≤ d - 1 := by omega
  have h5 : 2 ^ (floor_log2 (n - 1) + 1) ≤ 2 ^ (d - 1) :=
    Nat.pow_le_pow_right (by norm_num) h4
  have h6 := lt_pow_floor_log2 (n - 1)
  omega

theorem depth_sub_one_mono {n : ℕ} (h2 : 2 ≤ n) :
    depth_at_leaf_count n - 1 ≤ depth_at_leaf_count (n + 1) - 1 := by
  rw [depth_sub_one h2, depth_sub_one (by omega)]
  simp only [Nat.add_sub_cancel]
  have h3 : floor_log2 (n - 1) ≤ floor_log2 n := by
    by_contra hcon
    have h4 : floor_log2 n + 1 ≤ floor_log2 (n - 1) := by omega
    have h5 : 2 ^ (floor_log2 n + 1) ≤ 2 ^ floor_log2 (n - 1) :=
      Nat.pow_le_pow_right (by norm_num) h4
    have h6 := pow_floor_log2_le (n := n - 1) (by omega)
    have h7 := lt_pow_floor_log2 n
    omega
  omega

/-- Appending one leaf leaves every canonical node off the rehash write set
untouched: its windows are complete or stay vacant, and its parent link
survives. -/
theorem lnode_stable (hasher : MerkleHasher E H) (hs : List H) (x : H)
    (n d q : ℕ) (hlen : hs.length = n) (hd : 1 ≤ d)
    (hlive : cleaf d q < n) (hnw : q ≠ wq (n + 1) d) :
    lnode hasher (hs ++ [x]) (n + 1) d q = lnode hasher hs n d q := by
  have hwq : wq (n + 1) d = 2 * (n / 2 ^ (d + 1)) := rfl
  have hQQ : n / 2 ^ d / 2 = n / 2 ^ (d + 1) := by
    rw [Nat.div_div_eq_div_mul, ← pow_succ]
  by_cases hpar : q % 2 = 1
  · have hq1 : 1 ≤ q := by omega
    have hqlt : q * 2 ^ d < n := by
      have hc : cleaf d q = q * 2 ^ d := by
        unfold cleaf
        rw [if_neg (by omega)]
      omega
    have hwin : ((hs ++ [x]).drop ((q - 1) * 2 ^ d)).take (2 ^ d) =
        (hs.drop ((q - 1) * 2 ^ d)).take (2 ^ d) := by
      apply window_append
      rw [hlen]
      have h5 : (q - 1) * 2 ^ d + 2 ^ d = q * 2 ^ d := by
        have hq' : q - 1 + 1 = q := by omega
        calc (q - 1) * 2 ^ d + 2 ^ d = (q - 1 + 1) * 2 ^ d := by ring
          _ = q * 2 ^ d := by rw [hq']
      omega
    unfold lnode
    rw [if_pos hpar, if_pos hpar, hwin]
  · have hql : q * 2 ^ d ≤ n := by
      rcases Nat.eq_zero_or_pos q with rfl | hq1
      · rw [zero_mul]
        omega
      · have hc : cleaf d q = q * 2 ^ d := by
          unfold cleaf
          rw [if_neg (by omega)]
        omega
    have hown : (q + 1) * 2 ^ d ≤ n := by
      by_contra hcon
      have hqeq : n / 2 ^ d = q := Nat.div_eq_of_lt_le hql (by omega)
      exact hnw (by omega)
    have hne_n : cleaf (d + 1) (q / 2) ≠ n := by
      intro hceq
      apply hnw
      unfold cleaf at hceq
      rcases eq_or_ne (q / 2) 0 with hq2 | hq2
      · rw [if_pos hq2] at hceq
        have hq0 : q = 0 := by omega
        rw [hwq]
        have hlt2 : n < 2 ^ (d + 1) := by
          rw [show d + 1 - 1 = d from rfl] at hceq
          rw [← hceq, pow_succ]
          have h6 : (1:ℕ) ≤ 2 ^ d := Nat.one_le_two_pow
          omega
        rw [Nat.div_eq_of_lt hlt2]
        omega
      · rw [if_neg hq2] at hceq
        rw [hwq]
        have hdv : n / 2 ^ (d + 1) = q / 2 := by
          rw [← hceq]
          exact Nat.mul_div_cancel _ (by positivity)
        omega
    have hlpar : lpar (n + 1) d q = lpar n d q := by
      unfold lpar
      rcases Nat.lt_or_ge (cleaf (d + 1) (q / 2)) n with h5 | h5
      · rw [if_pos h5, if_pos (by omega)]
      · rw [if_neg (by omega), if_neg (by omega)]
    have hwino : ((hs ++ [x]).drop (q * 2 ^ d)).take (2 ^ d) =
        (hs.drop (q * 2 ^ d)).take (2 ^ d) := by
      apply window_append
      rw [hlen]
      have h5 : q * 2 ^ d + 2 ^ d = (q + 1) * 2 ^ d := by ring
      omega
    rcases Nat.lt_or_ge n ((q + 2) * 2 ^ d) with hcase | hcase
    · -- the right sibling slot is vacant before and after the append
      have hs1 : n + 1 ≤ (q + 1) * 2 ^ d := by
        by_contra hcon
        have hqeq : n / 2 ^ d = q + 1 := Nat.div_eq_of_lt_le (by omega) hcase
        apply hnw
        rw [hwq]
        omega
      have he1 : hs.drop ((q + 1) * 2 ^ d) = [] :=
        List.drop_eq_nil_of_le (by omega)
      have he2 : (hs ++ [x]).drop ((q + 1) * 2 ^ d) = [] :=
        List.drop_eq_nil_of_le (by rw [List.length_append, hlen]; simp; omega)
      unfold lnode
      rw [if_neg (by omega), if_neg (by omega), he1, he2, hwino, hlpar]
    · have hwins : ((hs ++ [x]).drop ((q + 1) * 2 ^ d)).take (2 ^ d) =
          (hs.drop ((q + 1) * 2 ^ d)).take (2 ^ d) := by
        apply window_append
        rw [hlen]
        have h5 : (q + 1) * 2 ^ d + 2 ^ d = (q + 2) * 2 ^ d := by ring
        omega
      unfold lnode
      rw [if_neg (by omega), if_neg (by omega), hwins, hwino, hlpar]

/-- A live left child's canonical node is a `Left` with the canonical
parent pointer (whatever hash the match picked). -/
theorem lnode_even_left (hasher : MerkleHasher E H) (hs : List H) (n d q : ℕ)
    (hlen : hs.length = n) (hq : q % 2 = 0) (hwin : q * 2 ^ d < n) :
    ∃ g, lnode hasher hs n d q = .Left g (lpar n d q) := by
  unfold lnode
  rw [if_neg (by omega)]
  cases hsib : padHash hasher d ((hs.drop ((q + 1) * 2 ^ d)).take (2 ^ d)) with
  | some s => exact ⟨s, rfl⟩
  | none =>
      cases hown : padHash hasher d ((hs.drop (q * 2 ^ d)).take (2 ^ d)) with
      | some o => exact ⟨o, rfl⟩
      | none =>
          exfalso
          rw [VectorTree.padHash_eq_none_iff] at hown
          rcases List.take_eq_nil_iff.mp hown with hz | hz
          · have : (1:ℕ) ≤ 2 ^ d := Nat.one_le_two_pow
            omega
          · have := List.drop_eq_nil_iff_le.mp hz
            omega

/-- The chain of provisional left nodes pushed by the insertion walk before
reaching depth `d`. -/
def wchain (hasher : MerkleHasher E H) (x : H) (n d : ℕ) :
    List (InternalNode H) :=
  (List.range (d - 1)).map (fun j =>
    .Left (mtower hasher x (j + 2)) (arena_len n + (j + 1)))

theorem wchain_length (hasher : MerkleHasher E H) (x : H) (n d : ℕ) :
    (wchain hasher x n d).length = d - 1 := by
  unfold wchain
  rw [List.length_map, List.length_range]

theorem wchain_succ (hasher : MerkleHasher E H) (x : H) (n d : ℕ)
    (hd : 1 ≤ d) :
    wchain hasher x n (d + 1) =
      wchain hasher x n d ++ [.Left (mtower hasher x (d + 1))
        (arena_len n + d)] := by
  unfold wchain
  rw [show d + 1 - 1 = (d - 1) + 1 from by omega]
  rw [List.range_succ, List.map_append]
  simp only [List.map_cons, List.map_nil]
  rw [show d - 1 + 2 = d + 1 from by omega, show d - 1 + 1 = d from by omega]

/-- The insertion walk on a canonical arena with an even leaf count: climb
from depth `d` to the 2-adic valuation `ν` of the count, pushing a chain of
provisional left nodes, then a right node beside the first left child
found, and a new root (rebinding the old root) when that left child was the
old root. -/
theorem add_walk_canon (hasher : MerkleHasher E H) (td : ℕ) (ℓ : List E)
    (L : List (LeafNode E)) (td0 : ℕ) (lh hν : H)
    (hn2 : 2 ≤ ℓ.length) (hne : ℓ.length % 2 = 0)
    (hpad : padHash hasher (nu2 ℓ.length)
      (((ℓ.map hasher.merkle_hash).drop
        ((ℓ.length / 2 ^ nu2 ℓ.length - 1) * 2 ^ nu2 ℓ.length)).take
        (2 ^ nu2 ℓ.length)) = some hν) :
    ∀ (fuel d : ℕ),
      1 ≤ d → d ≤ nu2 ℓ.length → nu2 ℓ.length - d + 1 ≤ fuel →
      add_walk hasher fuel
        ⟨L, (lcanon hasher td ℓ).nodes ++ wchain hasher lh ℓ.length d, td0⟩
        (lidx d (ℓ.length / 2 ^ d - 1)) (mtower hasher lh d) d =
      .ok ⟨L,
        if 2 ^ nu2 ℓ.length = ℓ.length then
          ((lcanon hasher td ℓ).nodes ++
              wchain hasher lh ℓ.length (nu2 ℓ.length) ++
            [InternalNode.Right hν (lidx (nu2 ℓ.length)
                (ℓ.length / 2 ^ nu2 ℓ.length - 1))] ++
            [InternalNode.Left (hasher.combine_hash (nu2 ℓ.length) hν
                (mtower hasher lh (nu2 ℓ.length))) 0]).set
            (lidx (nu2 ℓ.length) (ℓ.length / 2 ^ nu2 ℓ.length - 1))
            (InternalNode.Left hν (arena_len ℓ.length + nu2 ℓ.length))
        else
          (lcanon hasher td ℓ).nodes ++
            wchain hasher lh ℓ.length (nu2 ℓ.length) ++
            [InternalNode.Right hν (lidx (nu2 ℓ.length)
              (ℓ.length / 2 ^ nu2 ℓ.length - 1))],
        td0⟩ := by
  have hnpos : 1 ≤ ℓ.length := by omega
  intro fuel
  induction fuel with
  | zero =>
      intro d hd hdν hfuel
      exfalso
      omega
  | succ f ih =>
      intro d hd hdν hfuel
      have hdvd : 2 ^ d ∣ ℓ.length :=
        dvd_trans (pow_dvd_pow 2 hdν) (pow_nu2_dvd ℓ.length hnpos)
      have hqd : ℓ.length / 2 ^ d * 2 ^ d = ℓ.length := Nat.div_mul_cancel hdvd
      have hpow1 : (1:ℕ) ≤ 2 ^ d := Nat.one_le_two_pow
      have hq1 : 1 ≤ ℓ.length / 2 ^ d := by
        have h6 : 2 ^ d ≤ ℓ.length := Nat.le_of_dvd (by omega) hdvd
        exact (Nat.one_le_div_iff (by positivity)).mpr h6
      have hQQ : ℓ.length / 2 ^ d / 2 = ℓ.length / 2 ^ (d + 1) := by
        rw [Nat.div_div_eq_div_mul, ← pow_succ]
      have hlive : cleaf d (ℓ.length / 2 ^ d - 1) < ℓ.length := by
        rcases Nat.eq_zero_or_pos (ℓ.length / 2 ^ d - 1) with h0 | hpos
        · rw [h0]
          unfold cleaf
          rw [if_pos rfl]
          have h5 : (2:ℕ) ^ (d - 1) < 2 ^ d :=
            Nat.pow_lt_pow_right (by norm_num) (by omega)
          have h6 : 2 ^ d ≤ ℓ.length := Nat.le_of_dvd (by omega) hdvd
          omega
        · unfold cleaf
          rw [if_neg (by omega)]
          have h5 : (ℓ.length / 2 ^ d - 1) * 2 ^ d + 2 ^ d = ℓ.length := by
            have h6 : ℓ.length / 2 ^ d - 1 + 1 = ℓ.length / 2 ^ d := by omega
            calc (ℓ.length / 2 ^ d - 1) * 2 ^ d + 2 ^ d
                = (ℓ.length / 2 ^ d - 1 + 1) * 2 ^ d := by ring
              _ = ℓ.length / 2 ^ d * 2 ^ d := by rw [h6]
              _ = ℓ.length := hqd
          omega
      have hidxlt : lidx d (ℓ.length / 2 ^ d - 1) < arena_len ℓ.length :=
        lidx_lt hd hlive
      have hbaselen : (lcanon hasher td ℓ).nodes.length =
          arena_len ℓ.length := lcanon_nodes_length hasher td ℓ
      have hread : ((lcanon hasher td ℓ).nodes ++
          wchain hasher lh ℓ.length d)[lidx d (ℓ.length / 2 ^ d - 1)]? =
          some (lnode hasher (ℓ.map hasher.merkle_hash) ℓ.length d
            (ℓ.length / 2 ^ d - 1)) := by
        rw [List.getElem?_append_left (by rw [hbaselen]; exact hidxlt)]
        exact lcanon_nodes_get hasher td ℓ hd hlive
      simp only [add_walk]
      simp only [pure, Except.pure, bind, Except.bind]
      rcases Nat.lt_or_ge d (nu2 ℓ.length) with hdlt | hdge
      · -- interior step: the path node is a right child
        have hdvd1 : 2 ^ (d + 1) ∣ ℓ.length :=
          dvd_trans (pow_dvd_pow 2 (by omega)) (pow_nu2_dvd ℓ.length hnpos)
        have hqd1 : ℓ.length / 2 ^ (d + 1) * 2 ^ (d + 1) = ℓ.length :=
          Nat.div_mul_cancel hdvd1
        have heven : ℓ.length / 2 ^ d = 2 * (ℓ.length / 2 ^ (d + 1)) := by
          obtain ⟨k, hk⟩ := hdvd1
          have h5 : ℓ.length / 2 ^ (d + 1) = k := by
            rw [hk]
            exact Nat.mul_div_cancel_left k (by positivity)
          have h7 : ℓ.length = 2 * k * 2 ^ d := by
            rw [hk]
            ring
          have h6 : ℓ.length / 2 ^ d = 2 * k := by
            rw [h7]
            exact Nat.mul_div_cancel _ (by positivity)
          rw [h5, h6]
        have hq1d1 : 1 ≤ ℓ.length / 2 ^ (d + 1) := by omega
        have hparodd : (ℓ.length / 2 ^ d - 1) % 2 = 1 := by omega
        have hstart2 : (ℓ.length / 2 ^ d - 1 - 1) * 2 ^ d < ℓ.length := by
          have h5 : ℓ.length / 2 ^ d - 1 - 1 < ℓ.length / 2 ^ d := by omega
          have h6 : (ℓ.length / 2 ^ d - 1 - 1) * 2 ^ d <
              ℓ.length / 2 ^ d * 2 ^ d :=
            (Nat.mul_lt_mul_right (by positivity)).mpr h5
          omega
        obtain ⟨gs, hgs⟩ := pad_window_some hasher (ℓ.map hasher.merkle_hash)
          (d := d) (s := (ℓ.length / 2 ^ d - 1 - 1) * 2 ^ d)
          (by rw [List.length_map]; exact hstart2)
        have hlnv : lnode hasher (ℓ.map hasher.merkle_hash) ℓ.length d
            (ℓ.length / 2 ^ d - 1) =
            .Right gs (lidx d (ℓ.length / 2 ^ d - 1 - 1)) := by
          unfold lnode
          rw [if_pos hparodd, hgs]
        have hna : node_at (⟨L, (lcanon hasher td ℓ).nodes ++
            wchain hasher lh ℓ.length d, td0⟩ : LinkedMerkleTree E H)
            (lidx d (ℓ.length / 2 ^ d - 1)) =
            .ok (.Right gs (lidx d (ℓ.length / 2 ^ d - 1 - 1))) := by
          unfold node_at
          dsimp only
          rw [hread, hlnv]
        rw [hna]
        dsimp only
        have hlen1 : ((lcanon hasher td ℓ).nodes ++
            wchain hasher lh ℓ.length d).length + 1 =
            arena_len ℓ.length + d := by
          rw [List.length_append, hbaselen, wchain_length]
          omega
        rw [hlen1]
        rw [show hasher.combine_hash d (mtower hasher lh d)
          (mtower hasher lh d) = mtower hasher lh (d + 1) from rfl]
        have hch : ((lcanon hasher td ℓ).nodes ++ wchain hasher lh ℓ.length d)
            ++ [.Left (mtower hasher lh (d + 1)) (arena_len ℓ.length + d)] =
            (lcanon hasher td ℓ).nodes ++
              wchain hasher lh ℓ.length (d + 1) := by
          rw [wchain_succ hasher lh ℓ.length d hd]
          rw [List.append_assoc]
        rw [hch]
        have hlive3 : cleaf d (ℓ.length / 2 ^ d - 1 - 1) < ℓ.length := by
          unfold cleaf
          rcases eq_or_ne (ℓ.length / 2 ^ d - 1 - 1) 0 with h0 | h0
          · rw [if_pos h0]
            have h5 : (2:ℕ) ^ (d - 1) < 2 ^ d :=
              Nat.pow_lt_pow_right (by norm_num) (by omega)
            have h6 : 2 ^ d ≤ ℓ.length := Nat.le_of_dvd (by omega) hdvd
            omega
          · rw [if_neg h0]
            exact hstart2
        obtain ⟨gL, hgL⟩ := lnode_even_left hasher (ℓ.map hasher.merkle_hash)
          ℓ.length d (ℓ.length / 2 ^ d - 1 - 1) (by rw [List.length_map])
          (by omega) hstart2
        have hreadL : ((lcanon hasher td ℓ).nodes ++
            wchain hasher lh ℓ.length (d + 1))[lidx d
              (ℓ.length / 2 ^ d - 1 - 1)]? =
            some (.Left gL (lpar ℓ.length d
              (ℓ.length / 2 ^ d - 1 - 1))) := by
          have hlt3 : lidx d (ℓ.length / 2 ^ d - 1 - 1) <
              (lcanon hasher td ℓ).nodes.length := by
            rw [hbaselen]
            exact lidx_lt hd hlive3
          rw [List.getElem?_append_left hlt3]
          rw [lcanon_nodes_get hasher td ℓ hd hlive3, hgL]
        have hpi : parent_index (⟨L, (lcanon hasher td ℓ).nodes ++
            wchain hasher lh ℓ.length (d + 1), td0⟩ : LinkedMerkleTree E H)
            (lidx d (ℓ.length / 2 ^ d - 1 - 1)) =
            .ok (lpar ℓ.length d (ℓ.length / 2 ^ d - 1 - 1)) := by
          unfold parent_index
          exact parent_index_go_left hreadL _
        rw [hpi]
        dsimp only
        have hlive4 : cleaf (d + 1) (ℓ.length / 2 ^ (d + 1) - 1) <
            ℓ.length := by
          unfold cleaf
          rcases eq_or_ne (ℓ.length / 2 ^ (d + 1) - 1) 0 with h0 | h0
          · rw [if_pos h0]
            rw [show d + 1 - 1 = d from rfl]
            have h6 : (2:ℕ) ^ d < 2 ^ (d + 1) :=
              Nat.pow_lt_pow_right (by norm_num) (by omega)
            have h7 : 2 ^ (d + 1) ≤ ℓ.length := Nat.le_of_dvd (by omega) hdvd1
            omega
          · rw [if_neg h0]
            have h5 : (ℓ.length / 2 ^ (d + 1) - 1) * 2 ^ (d + 1) +
                2 ^ (d + 1) = ℓ.length := by
              have h6 : ℓ.length / 2 ^ (d + 1) - 1 + 1 =
                  ℓ.length / 2 ^ (d + 1) := by omega
              calc (ℓ.length / 2 ^ (d + 1) - 1) * 2 ^ (d + 1) + 2 ^ (d + 1)
                  = (ℓ.length / 2 ^ (d + 1) - 1 + 1) * 2 ^ (d + 1) := by ring
                _ = ℓ.length / 2 ^ (d + 1) * 2 ^ (d + 1) := by rw [h6]
                _ = ℓ.length := hqd1
            have h12 : (1:ℕ) ≤ 2 ^ (d + 1) := Nat.one_le_two_pow
            omega
        have hlp : lpar ℓ.length d (ℓ.length / 2 ^ d - 1 - 1) =
            lidx (d + 1) (ℓ.length / 2 ^ (d + 1) - 1) := by
          unfold lpar
          rw [show (ℓ.length / 2 ^ d - 1 - 1) / 2 =
            ℓ.length / 2 ^ (d + 1) - 1 from by omega]
          rw [if_pos hlive4]
        rw [hlp]
        exact ih (d + 1) (by omega) (by omega) (by omega)
      · -- final step: the path node is a left child
        have hdeq : d = nu2 ℓ.length := by omega
        subst hdeq
        have hodd := nu2_quot_odd hnpos
        have hparev : (ℓ.length / 2 ^ nu2 ℓ.length - 1) % 2 = 0 := by omega
        have hvac : ((ℓ.map hasher.merkle_hash).drop
            ((ℓ.length / 2 ^ nu2 ℓ.length - 1 + 1) * 2 ^ nu2 ℓ.length)).take
            (2 ^ nu2 ℓ.length) = [] := by
          rw [List.take_eq_nil_iff]
          right
          rw [List.drop_eq_nil_iff_le, List.length_map]
          have h5 : ℓ.length / 2 ^ nu2 ℓ.length - 1 + 1 =
              ℓ.length / 2 ^ nu2 ℓ.length := by omega
          rw [h5]
          omega
        have hlnv : lnode hasher (ℓ.map hasher.merkle_hash) ℓ.length
            (nu2 ℓ.length) (ℓ.length / 2 ^ nu2 ℓ.length - 1) =
            .Left hν (lpar ℓ.length (nu2 ℓ.length)
              (ℓ.length / 2 ^ nu2 ℓ.length - 1)) := by
          unfold lnode
          rw [if_neg (by omega), hvac, VectorTree.padHash_nil, hpad]
        have hna : node_at (⟨L, (lcanon hasher td ℓ).nodes ++
            wchain hasher lh ℓ.length (nu2 ℓ.length), td0⟩ :
              LinkedMerkleTree E H)
            (lidx (nu2 ℓ.length) (ℓ.length / 2 ^ nu2 ℓ.length - 1)) =
            .ok (.Left hν (lpar ℓ.length (nu2 ℓ.length)
              (ℓ.length / 2 ^ nu2 ℓ.length - 1))) := by
          unfold node_at
          dsimp only
          rw [hread, hlnv]
        rw [hna]
        dsimp only
        rcases eq_or_ne (2 ^ nu2 ℓ.length) ℓ.length with hroot | hroot
        · -- the left child was the old root: create a new root
          have hq1v : ℓ.length / 2 ^ nu2 ℓ.length = 1 := by
            by_contra hcon
            have h6 : 2 ≤ ℓ.length / 2 ^ nu2 ℓ.length := by omega
            have h7 : 2 * 2 ^ nu2 ℓ.length ≤
                ℓ.length / 2 ^ nu2 ℓ.length * 2 ^ nu2 ℓ.length :=
              Nat.mul_le_mul_right _ h6
            have h8 : (1:ℕ) ≤ 2 ^ nu2 ℓ.length := Nat.one_le_two_pow
            omega
          have hlp0 : lpar ℓ.length (nu2 ℓ.length)
              (ℓ.length / 2 ^ nu2 ℓ.length - 1) = 0 := by
            unfold lpar
            have h5 : cleaf (nu2 ℓ.length + 1)
                ((ℓ.length / 2 ^ nu2 ℓ.length - 1) / 2) =
                2 ^ nu2 ℓ.length := by
              rw [show (ℓ.length / 2 ^ nu2 ℓ.length - 1) / 2 = 0 from by omega]
              unfold cleaf
              rw [if_pos rfl]
              exact rfl
            rw [if_neg (by rw [h5]; omega)]
          rw [hlp0]
          rw [if_pos rfl]
          rw [if_pos hroot]
          have hsetlt : lidx (nu2 ℓ.length)
              (ℓ.length / 2 ^ nu2 ℓ.length - 1) <
              ((((lcanon hasher td ℓ).nodes ++
                wchain hasher lh ℓ.length (nu2 ℓ.length)) ++
                [InternalNode.Right hν (lidx (nu2 ℓ.length)
                  (ℓ.length / 2 ^ nu2 ℓ.length - 1))]) ++
                [InternalNode.Left (hasher.combine_hash (nu2 ℓ.length) hν
                  (mtower hasher lh (nu2 ℓ.length))) 0]).length := by
            rw [List.length_append, List.length_append, List.length_append,
              hbaselen]
            omega
          have hlm : ((((lcanon hasher td ℓ).nodes ++
              wchain hasher lh ℓ.length (nu2 ℓ.length)) ++
              [InternalNode.Right hν (lidx (nu2 ℓ.length)
                (ℓ.length / 2 ^ nu2 ℓ.length - 1))]) ++
              [InternalNode.Left (hasher.combine_hash (nu2 ℓ.length) hν
                (mtower hasher lh (nu2 ℓ.length))) 0]).length - 1 =
              arena_len ℓ.length + nu2 ℓ.length := by
            rw [List.length_append, List.length_append, List.length_append,
              hbaselen, wchain_length]
            have h5 : 1 ≤ nu2 ℓ.length := hd
            simp only [List.length_cons, List.length_nil]
            omega
          unfold set_node
          dsimp only
          rw [hlm, if_pos hsetlt]
        · -- interior left child: just link the new right node to it
          have hq3 : 3 ≤ ℓ.length / 2 ^ nu2 ℓ.length := by
            by_contra hcon
            have h5 : ℓ.length / 2 ^ nu2 ℓ.length = 1 := by omega
            apply hroot
            nth_rewrite 2 [← hqd]
            rw [h5, one_mul]
          have hQ2 : (ℓ.length / 2 ^ nu2 ℓ.length - 1) / 2 =
              ℓ.length / 2 ^ (nu2 ℓ.length + 1) := by omega
          have hlive5 : cleaf (nu2 ℓ.length + 1)
              ((ℓ.length / 2 ^ nu2 ℓ.length - 1) / 2) < ℓ.length := by
            rw [hQ2]
            have h6 : 2 ^ (nu2 ℓ.length + 1) ≤ ℓ.length := by
              have h5 : 3 * 2 ^ nu2 ℓ.length ≤
                  ℓ.length / 2 ^ nu2 ℓ.length * 2 ^ nu2 ℓ.length :=
                Nat.mul_le_mul_right _ hq3
              rw [pow_succ]
              have h8 : (1:ℕ) ≤ 2 ^ nu2 ℓ.length := Nat.one_le_two_pow
              omega
            have hq'1 : 1 ≤ ℓ.length / 2 ^ (nu2 ℓ.length + 1) :=
              (Nat.one_le_div_iff (by positivity)).mpr h6
            unfold cleaf
            rw [if_neg (by omega)]
            have h7 : ℓ.length / 2 ^ (nu2 ℓ.length + 1) *
                2 ^ (nu2 ℓ.length + 1) =
                ℓ.length / 2 ^ (nu2 ℓ.length + 1) * 2 * 2 ^ nu2 ℓ.length := by
              rw [pow_succ]
              ring
            have h8 : ℓ.length / 2 ^ (nu2 ℓ.length + 1) * 2 ≤
                ℓ.length / 2 ^ nu2 ℓ.length - 1 := by omega
            have h9 : ℓ.length / 2 ^ (nu2 ℓ.length + 1) * 2 *
                2 ^ nu2 ℓ.length ≤
                (ℓ.length / 2 ^ nu2 ℓ.length - 1) * 2 ^ nu2 ℓ.length :=
              Nat.mul_le_mul_right _ h8
            have h10 : (ℓ.length / 2 ^ nu2 ℓ.length - 1) *
                2 ^ nu2 ℓ.length + 2 ^ nu2 ℓ.length = ℓ.length := by
              have h11 : ℓ.length / 2 ^ nu2 ℓ.length - 1 + 1 =
                  ℓ.length / 2 ^ nu2 ℓ.length := by omega
              calc (ℓ.length / 2 ^ nu2 ℓ.length - 1) * 2 ^ nu2 ℓ.length +
                  2 ^ nu2 ℓ.length
                  = (ℓ.length / 2 ^ nu2 ℓ.length - 1 + 1) *
                    2 ^ nu2 ℓ.length := by ring
                _ = ℓ.length / 2 ^ nu2 ℓ.length * 2 ^ nu2 ℓ.length := by
                    rw [h11]
                _ = ℓ.length := hqd
            have h12 : (1:ℕ) ≤ 2 ^ nu2 ℓ.length := Nat.one_le_two_pow
            omega
          have hlpv : lpar ℓ.length (nu2 ℓ.length)
              (ℓ.length / 2 ^ nu2 ℓ.length - 1) =
              lidx (nu2 ℓ.length + 1)
                ((ℓ.length / 2 ^ nu2 ℓ.length - 1) / 2) := by
            unfold lpar
            rw [if_pos hlive5]
          rw [hlpv]
          rw [if_neg (show ¬lidx (nu2 ℓ.length + 1)
              ((ℓ.length / 2 ^ nu2 ℓ.length - 1) / 2) = 0 from by
            have := lidx_pos (nu2 ℓ.length + 1)
              ((ℓ.length / 2 ^ nu2 ℓ.length - 1) / 2)
            omega)]
          rw [if_neg hroot]

theorem set_append_last {α : Type} (A : List α) (b c : α) :
    (A ++ [b]).set A.length c = A ++ [c] := by
  induction A with
  | nil => rfl
  | cons a A ih =>
      simp only [List.cons_append, List.length_cons, List.set_cons_succ]
      rw [ih]

theorem lcanon_leaves_snoc (hasher : MerkleHasher E H) (td : ℕ) (ℓ : List E)
    (x : E) (hn2 : 2 ≤ ℓ.length) :
    (lcanon hasher td (ℓ ++ [x])).leaves =
      (lcanon hasher td ℓ).leaves ++ [⟨x, lidx 1 (ℓ.length / 2)⟩] := by
  apply List.ext_getElem?
  intro i
  rw [lcanon_leaf_get]
  have hlapp : (ℓ ++ [x]).length = ℓ.length + 1 := by
    rw [List.length_append]
    rfl
  rw [hlapp]
  rcases Nat.lt_or_ge i ℓ.length with hi | hi
  · rw [List.getElem?_append_left hi]
    rw [List.getElem?_append_left (by rw [lcanon_leaves_length]; exact hi)]
    rw [lcanon_leaf_get]
    rw [if_neg (by omega), if_neg (by omega)]
  · rw [List.getElem?_append_right hi]
    rw [List.getElem?_append_right (by rw [lcanon_leaves_length]; exact hi)]
    rw [lcanon_leaves_length]
    rcases eq_or_ne i ℓ.length with rfl | hne2
    · rw [Nat.sub_self]
      rw [List.getElem?_cons_zero, List.getElem?_cons_zero]
      rw [Option.map_some']
      rw [if_neg (by omega)]
    · have hk : 1 ≤ i - ℓ.length := by omega
      rw [List.getElem?_eq_none (by
        simp only [List.length_cons, List.length_nil]
        omega)]
      rw [List.getElem?_eq_none (by
        simp only [List.length_cons, List.length_nil]
        omega)]
      rw [Option.map_none']

theorem lnode_live_shape (hasher : MerkleHasher E H) (hs : List H)
    (n d q : ℕ) (hlen : hs.length = n) (hwin : q * 2 ^ d < n) :
    (∃ g p, lnode hasher hs n d q = .Left g p) ∨
    (∃ g i, lnode hasher hs n d q = .Right g i) := by
  by_cases hpar : q % 2 = 1
  · right
    obtain ⟨g, hg⟩ := pad_window_some hasher hs (d := d)
      (s := (q - 1) * 2 ^ d) (by
        have h5 : (q - 1) * 2 ^ d ≤ q * 2 ^ d :=
          Nat.mul_le_mul_right _ (by omega)
        omega)
    refine ⟨g, lidx d (q - 1), ?_⟩
    unfold lnode
    rw [if_pos hpar, hg]
  · left
    obtain ⟨g, hg⟩ := lnode_even_left hasher hs n d q hlen (by omega) hwin
    exact ⟨g, lpar n d q, hg⟩

theorem lpar_stable_odd {n : ℕ} (hodd : n % 2 = 1) (d q : ℕ) (hd : 1 ≤ d) :
    lpar (n + 1) d q = lpar n d q := by
  have hpow : (2:ℕ) ^ d = 2 * 2 ^ (d - 1) := by
    rw [← pow_succ']
    congr 1
    omega
  have hne_n : cleaf (d + 1) (q / 2) ≠ n := by
    unfold cleaf
    rcases eq_or_ne (q / 2) 0 with h0 | h0
    · rw [if_pos h0]
      rw [show d + 1 - 1 = d from rfl]
      intro hc
      omega
    · rw [if_neg h0]
      intro hc
      have h6 : q / 2 * 2 ^ (d + 1) = q / 2 * 2 ^ d * 2 := by
        rw [pow_succ]
        ring
      omega
  unfold lpar
  rcases Nat.lt_or_ge (cleaf (d + 1) (q / 2)) n with h5 | h5
  · rw [if_pos h5, if_pos (by omega)]
  · rw [if_neg (by omega), if_neg (by omega)]

/-- The rightmost-path rehash fixes canonical trees. -/
theorem rehash_fixed (hasher : MerkleHasher E H) (td : ℕ) (ℓ' : List E)
    (h1 : 1 ≤ ℓ'.length) :
    rehash_right_path hasher (lcanon hasher td ℓ') =
      .ok (lcanon hasher td ℓ') := by
  apply rehash_right_path_canon hasher td ℓ' h1 _ rfl rfl
    (lcanon_nodes_length hasher td ℓ')
  · intro j hguard
    rfl
  · intro e he heD
    have hwlive := wq_live h1 he heD
    have hwin : wq ℓ'.length e * 2 ^ e < ℓ'.length := by
      rcases Nat.eq_zero_or_pos (wq ℓ'.length e) with h0 | hpos
      · rw [h0, zero_mul]
        omega
      · have hc : cleaf e (wq ℓ'.length e) = wq ℓ'.length e * 2 ^ e := by
          unfold cleaf
          rw [if_neg (by omega)]
        omega
    obtain ⟨g, hg⟩ := lnode_even_left hasher (ℓ'.map hasher.merkle_hash)
      ℓ'.length e (wq ℓ'.length e) (by rw [List.length_map])
      (by unfold wq; omega) hwin
    refine ⟨g, ?_⟩
    rw [lcanon_nodes_get hasher td ℓ' he hwlive, hg]

/-- An untouched write-set slot already holds a left node with the parent
pointer the rehash expects. -/
theorem old_wq_shape (hasher : MerkleHasher E H) (td : ℕ) (ℓ : List E)
    (e : ℕ) (he : 1 ≤ e)
    (hlive : cleaf e (wq (ℓ.length + 1) e) < ℓ.length)
    (hwin : wq (ℓ.length + 1) e * 2 ^ e < ℓ.length)
    (hpar_ne : cleaf (e + 1) (wq (ℓ.length + 1) e / 2) ≠ ℓ.length) :
    ∃ g, (lcanon hasher td ℓ).nodes[lidx e (wq (ℓ.length + 1) e)]? =
      some (.Left g (lpar (ℓ.length + 1) e (wq (ℓ.length + 1) e))) := by
  obtain ⟨g, hg⟩ := lnode_even_left hasher (ℓ.map hasher.merkle_hash)
    ℓ.length e (wq (ℓ.length + 1) e) (by rw [List.length_map])
    (by unfold wq; omega) hwin
  have hlpar : lpar (ℓ.length + 1) e (wq (ℓ.length + 1) e) =
      lpar ℓ.length e (wq (ℓ.length + 1) e) := by
    unfold lpar
    rcases Nat.lt_or_ge (cleaf (e + 1) (wq (ℓ.length + 1) e / 2)) ℓ.length
      with h5 | h5
    · rw [if_pos h5, if_pos (by omega)]
    · rw [if_neg (by omega), if_neg (by omega)]
  refine ⟨g, ?_⟩
  rw [lcanon_nodes_get hasher td ℓ he hlive, hg, hlpar]

/-- Away from the write set, the canonical arena of the appended list
agrees with the old canonical arena. -/
theorem lcanon_nodes_stable (hasher : MerkleHasher E H) (td : ℕ)
    (ℓ : List E) (x : E) (j : ℕ) (hj : j < arena_len ℓ.length)
    (hguard : ∀ e, 1 ≤ e → e ≤ depth_at_leaf_count (ℓ.length + 1) - 1 →
      j ≠ lidx e (wq (ℓ.length + 1) e)) :
    (lcanon hasher td (ℓ ++ [x])).nodes[j]? =
      (lcanon hasher td ℓ).nodes[j]? := by
  rcases Nat.eq_zero_or_pos j with rfl | hj1
  · rw [lcanon_nodes_zero, lcanon_nodes_zero]
  obtain ⟨d, q, hd, hlive, hidx⟩ := lidx_surj hj1 hj
  subst hidx
  have hlive' : cleaf d q < (ℓ ++ [x]).length := by
    rw [List.length_append]
    simp only [List.length_cons, List.length_nil]
    omega
  rw [lcanon_nodes_get hasher td (ℓ ++ [x]) hd hlive']
  rw [lcanon_nodes_get hasher td ℓ hd hlive]
  have hmap : (ℓ ++ [x]).map hasher.merkle_hash =
      ℓ.map hasher.merkle_hash ++ [hasher.merkle_hash x] := by
    rw [List.map_append]
    rfl
  have hlapp : (ℓ ++ [x]).length = ℓ.length + 1 := by
    rw [List.length_append]
    rfl
  rw [hmap, hlapp]
  have hdle : d ≤ depth_at_leaf_count (ℓ.length + 1) - 1 := by
    have h5 := live_depth_le hd hlive
    rcases Nat.lt_or_ge ℓ.length 2 with hsm | hla
    · exfalso
      have hc : 1 ≤ cleaf d q := by
        unfold cleaf
        rcases eq_or_ne q 0 with rfl | h0
        · rw [if_pos rfl]
          exact Nat.one_le_two_pow
        · rw [if_neg h0]
          have h7 : (1:ℕ) ≤ 2 ^ d := Nat.one_le_two_pow
          have h8 : 1 ≤ q := by omega
          calc (1:ℕ) = 1 * 1 := rfl
            _ ≤ q * 2 ^ d := Nat.mul_le_mul h8 h7
      omega
    · exact le_trans h5 (depth_sub_one_mono hla)
  have hnw : q ≠ wq (ℓ.length + 1) d := by
    intro heq
    exact hguard d hd hdle (by rw [heq])
  rw [lnode_stable hasher (ℓ.map hasher.merkle_hash) (hasher.merkle_hash x)
    ℓ.length d q (by rw [List.length_map]) hd hlive hnw]

theorem lcanon_tree_depth (hasher : MerkleHasher E H) (td : ℕ)
    (ℓ : List E) : (lcanon hasher td ℓ).tree_depth = td := rfl

theorem add_canon_nil (hasher : MerkleHasher E H) (td : ℕ) (x : E) :
    add hasher (lcanon hasher td ([] : List E)) x =
      .ok (lcanon hasher td [x]) := by
  unfold add
  rw [if_neg (show ¬((lcanon hasher td ([] : List E)).leaves.length ≥
      2 ^ (lcanon hasher td ([] : List E)).tree_depth) from by
    rw [lcanon_leaves_length, lcanon_tree_depth]
    simp only [List.length_nil]
    have := Nat.one_le_two_pow (n := td)
    omega)]
  rfl

theorem lcanon_one_eq (hasher : MerkleHasher E H) (td : ℕ) (e₀ : E) :
    lcanon hasher td [e₀] = ⟨[⟨e₀, 0⟩], [.Empty], td⟩ := rfl

theorem lcanon_two_eq (hasher : MerkleHasher E H) (td : ℕ) (e₀ x : E) :
    lcanon hasher td [e₀, x] =
    ⟨[⟨e₀, 1⟩, ⟨x, 1⟩],
     [.Empty, .Left (hasher.combine_hash 0 (hasher.merkle_hash e₀)
       (hasher.merkle_hash x)) 0], td⟩ := by
  refine ltree_ext ?_ ?_ rfl
  · apply List.ext_getElem?
    intro i
    rw [lcanon_leaf_get]
    rcases i with _ | _ | k <;> rfl
  · rfl

theorem add_canon_one (hasher : MerkleHasher E H) (td : ℕ) (e₀ x : E)
    (hcap : 1 < 2 ^ td) :
    add hasher (lcanon hasher td [e₀]) x =
      .ok (lcanon hasher td [e₀, x]) := by
  rw [lcanon_one_eq, lcanon_two_eq]
  unfold add
  rw [if_neg (show ¬((⟨[⟨e₀, 0⟩], [.Empty], td⟩ :
      LinkedMerkleTree E H).leaves.length ≥
      2 ^ (⟨[⟨e₀, 0⟩], [.Empty], td⟩ :
      LinkedMerkleTree E H).tree_depth) from by
    dsimp only
    simp only [List.length_cons, List.length_nil]
    omega)]
  rfl

theorem cleaf_succ_even (d q : ℕ) (hd : 1 ≤ d) :
    cleaf (d + 1) q % 2 = 0 := by
  have hpow : (2:ℕ) ^ d = 2 * 2 ^ (d - 1) := by
    rw [← pow_succ']
    congr 1
    omega
  unfold cleaf
  rcases eq_or_ne q 0 with rfl | h0
  · rw [if_pos rfl]
    rw [show d + 1 - 1 = d from rfl]
    omega
  · rw [if_neg h0]
    have h6 : q * 2 ^ (d + 1) = q * 2 ^ d * 2 := by
      rw [pow_succ]
      ring
    omega

theorem add_canon_odd (hasher : MerkleHasher E H) (td : ℕ) (ℓ : List E)
    (x : E) (hn3 : 3 ≤ ℓ.length) (hodd : ℓ.length % 2 = 1)
    (hcap : ℓ.length < 2 ^ td) :
    add hasher (lcanon hasher td ℓ) x =
      .ok (lcanon hasher td (ℓ ++ [x])) := by
  have hl : (lcanon hasher td ℓ).leaves.length = ℓ.length :=
    lcanon_leaves_length hasher td ℓ
  have happ : (ℓ ++ [x]).length = ℓ.length + 1 := by
    rw [List.length_append]
    rfl
  obtain ⟨eL, heL⟩ : ∃ e, ℓ[ℓ.length - 1]? = some e :=
    ⟨_, List.getElem?_eq_getElem (by omega)⟩
  unfold add
  simp only [pure, Except.pure, bind, Except.bind]
  rw [hl]
  rw [lcanon_tree_depth]
  rw [if_neg (by omega : ¬ℓ.length ≥ 2 ^ td)]
  rw [if_neg (by omega : ¬ℓ.length = 0)]
  rw [lcanon_nodes_length]
  have hcond : ((lcanon hasher td ℓ).leaves ++
      [({ element := x, parent := arena_len ℓ.length } : LeafNode E)]).length =
      ℓ.length + 1 := by
    rw [List.length_append, hl]
    rfl
  rw [hcond]
  rw [if_neg (by omega : ¬ℓ.length + 1 = 1)]
  rw [if_pos (show is_right_leaf ℓ.length from hodd)]
  have hla : leaf_at (⟨(lcanon hasher td ℓ).leaves ++
      [⟨x, arena_len ℓ.length⟩], (lcanon hasher td ℓ).nodes, td⟩ :
        LinkedMerkleTree E H) (ℓ.length - 1) =
      .ok ⟨eL, lidx 1 ((ℓ.length - 1) / 2)⟩ := by
    unfold leaf_at
    dsimp only
    rw [List.getElem?_append_left (by rw [hl]; omega)]
    rw [lcanon_leaf_get, heL, Option.map_some']
    rw [if_neg (by omega)]
  rw [hla]
  dsimp only
  -- the previous leaf's parent node is live and not Empty
  have hq2 : 1 ≤ (ℓ.length - 1) / 2 := by omega
  have hlivep : cleaf 1 ((ℓ.length - 1) / 2) < ℓ.length := by
    unfold cleaf
    rw [if_neg (by omega)]
    omega
  have hwinp : (ℓ.length - 1) / 2 * 2 ^ 1 < ℓ.length := by omega
  have hreadp : (lcanon hasher td ℓ).nodes[lidx 1 ((ℓ.length - 1) / 2)]? =
      some (lnode hasher (ℓ.map hasher.merkle_hash) ℓ.length 1
        ((ℓ.length - 1) / 2)) :=
    lcanon_nodes_get hasher td ℓ (le_refl 1) hlivep
  -- state after setting the appended leaf's parent
  have hset : ((lcanon hasher td ℓ).leaves ++
      [({ element := x, parent := arena_len ℓ.length } : LeafNode E)]).set
      ℓ.length
      (⟨x, lidx 1 ((ℓ.length - 1) / 2)⟩ : LeafNode E) =
      (lcanon hasher td ℓ).leaves ++ [⟨x, lidx 1 ((ℓ.length - 1) / 2)⟩] := by
    rw [show (ℓ.length : ℕ) = (lcanon hasher td ℓ).leaves.length from hl.symm]
    exact set_append_last _ _ _
  have hsnoc : (lcanon hasher td ℓ).leaves ++
      [(⟨x, lidx 1 ((ℓ.length - 1) / 2)⟩ : LeafNode E)] =
      (lcanon hasher td (ℓ ++ [x])).leaves := by
    rw [show (ℓ.length - 1) / 2 = ℓ.length / 2 from by omega]
    exact (lcanon_leaves_snoc hasher td ℓ x (by omega)).symm
  have hbs : bsize ℓ.length = 0 := by
    unfold bsize
    rw [if_neg (by omega), if_pos hodd, if_neg (by omega)]
  have hlen2 : (lcanon hasher td ℓ).nodes.length =
      arena_len (ℓ ++ [x]).length := by
    rw [happ, lcanon_nodes_length]
    rw [show arena_len (ℓ.length + 1) =
      arena_len ℓ.length + bsize ℓ.length from rfl, hbs]
    omega
  -- the rehash preconditions
  have hrehash : rehash_right_path hasher
      (⟨(lcanon hasher td (ℓ ++ [x])).leaves,
        (lcanon hasher td ℓ).nodes, td⟩ : LinkedMerkleTree E H) =
      .ok (lcanon hasher td (ℓ ++ [x])) := by
    refine rehash_right_path_canon hasher td (ℓ ++ [x])
      (by rw [happ]; omega) _ ?_ ?_ ?_ ?_ ?_
    · rfl
    · rfl
    · exact hlen2
    · intro j hguard
      dsimp only
      rcases Nat.lt_or_ge j (arena_len ℓ.length) with hlt | hge
      · refine (lcanon_nodes_stable hasher td ℓ x j hlt ?_).symm
        intro e he heD
        have h5 := hguard e he (by rw [happ]; exact heD)
        rw [happ] at h5
        exact h5
      · rw [List.getElem?_eq_none (by rw [lcanon_nodes_length]; exact hge)]
        rw [List.getElem?_eq_none (by
          rw [lcanon_nodes_length, happ]
          rw [show arena_len (ℓ.length + 1) =
            arena_len ℓ.length + bsize ℓ.length from rfl, hbs]
          exact hge)]
    · intro e he heD
      dsimp only
      rw [happ] at heD ⊢
      have hDe : e ≤ floor_log2 ℓ.length + 1 := by
        rw [depth_sub_one (by omega)] at heD
        simp only [Nat.add_sub_cancel] at heD
        exact heD
      have hEv : wq (ℓ.length + 1) e * 2 ^ e =
          2 * (ℓ.length / 2 ^ (e + 1) * 2 ^ e) := by
        unfold wq
        rw [show ℓ.length + 1 - 1 = ℓ.length from rfl]
        ring
      have hprod : ℓ.length / 2 ^ (e + 1) * 2 ^ (e + 1) =
          2 * (ℓ.length / 2 ^ (e + 1) * 2 ^ e) := by
        rw [pow_succ]
        ring
      have hle := Nat.div_mul_le_self ℓ.length (2 ^ (e + 1))
      have hwin : wq (ℓ.length + 1) e * 2 ^ e < ℓ.length := by omega
      have hlive : cleaf e (wq (ℓ.length + 1) e) < ℓ.length := by
        rcases Nat.eq_zero_or_pos (wq (ℓ.length + 1) e) with h0 | hpos
        · rw [h0]
          unfold cleaf
          rw [if_pos rfl]
          rcases eq_or_ne e 1 with rfl | he2
          · simp only [Nat.sub_self, pow_zero]
            omega
          · have hp2 : (2:ℕ) ^ (e - 1) = 2 * 2 ^ (e - 2) := by
              rw [← pow_succ']
              congr 1
              omega
            have hp3 : (2:ℕ) ^ (e - 1) ≤ 2 ^ floor_log2 ℓ.length :=
              Nat.pow_le_pow_right (by norm_num) (by omega)
            have hp4 := pow_floor_log2_le (n := ℓ.length) (by omega)
            omega
        · unfold cleaf
          rw [if_neg (by omega)]
          exact hwin
      have hpar_ne : cleaf (e + 1) (wq (ℓ.length + 1) e / 2) ≠ ℓ.length := by
        have h5 := cleaf_succ_even e (wq (ℓ.length + 1) e / 2) he
        omega
      exact old_wq_shape hasher td ℓ e he hlive hwin hpar_ne
  -- the two shapes of the parent node
  rcases lnode_live_shape hasher (ℓ.map hasher.merkle_hash) ℓ.length 1
    ((ℓ.length - 1) / 2) (by rw [List.length_map]) hwinp with
    ⟨g, p, hsh⟩ | ⟨g, i, hsh⟩
  · have hna : node_at (⟨(lcanon hasher td ℓ).leaves ++
        [⟨x, arena_len ℓ.length⟩], (lcanon hasher td ℓ).nodes, td⟩ :
          LinkedMerkleTree E H) (lidx 1 ((ℓ.length - 1) / 2)) =
        .ok (.Left g p) := by
      unfold node_at
      dsimp only
      rw [hreadp, hsh]
    rw [hna]
    dsimp only
    rw [hset, hsnoc]
    exact hrehash
  · have hna : node_at (⟨(lcanon hasher td ℓ).leaves ++
        [⟨x, arena_len ℓ.length⟩], (lcanon hasher td ℓ).nodes, td⟩ :
          LinkedMerkleTree E H) (lidx 1 ((ℓ.length - 1) / 2)) =
        .ok (.Right g i) := by
      unfold node_at
      dsimp only
      rw [hreadp, hsh]
    rw [hna]
    dsimp only
    rw [hset, hsnoc]
    exact hrehash


theorem cleaf_exact (n e : ℕ) (hdvd : 2 ^ e ∣ n) (hn : 1 ≤ n) :
    cleaf e (n / 2 ^ e) = n := by
  have h7 : 2 ^ e ≤ n := Nat.le_of_dvd (by omega) hdvd
  have h8 : 1 ≤ n / 2 ^ e := (Nat.one_le_div_iff (by positivity)).mpr h7
  unfold cleaf
  rw [if_neg (by omega)]
  exact Nat.div_mul_cancel hdvd

theorem lidx_exact (n e : ℕ) (hdvd : 2 ^ e ∣ n) (hn : 1 ≤ n) :
    lidx e (n / 2 ^ e) = arena_len n + (e - 1) := by
  unfold lidx
  rw [cleaf_exact n e hdvd hn]

theorem add_canon_even (hasher : MerkleHasher E H) (td : ℕ) (ℓ : List E)
    (x : E) (hn2 : 2 ≤ ℓ.length) (hev : ℓ.length % 2 = 0)
    (hcap : ℓ.length < 2 ^ td) :
    add hasher (lcanon hasher td ℓ) x =
      .ok (lcanon hasher td (ℓ ++ [x])) := by
  have hnpos : 1 ≤ ℓ.length := by omega
  have hodd := nu2_quot_odd hnpos
  have hν1 : 1 ≤ nu2 ℓ.length := by
    by_contra hcon
    have h0 : nu2 ℓ.length = 0 := by omega
    rw [h0, pow_zero, Nat.div_one] at hodd
    omega
  have hdvdν : 2 ^ nu2 ℓ.length ∣ ℓ.length := pow_nu2_dvd ℓ.length hnpos
  have hqdν : ℓ.length / 2 ^ nu2 ℓ.length * 2 ^ nu2 ℓ.length = ℓ.length :=
    Nat.div_mul_cancel hdvdν
  have hpowν : (1:ℕ) ≤ 2 ^ nu2 ℓ.length := Nat.one_le_two_pow
  have hqν1 : 1 ≤ ℓ.length / 2 ^ nu2 ℓ.length :=
    (Nat.one_le_div_iff (by positivity)).mpr
      (Nat.le_of_dvd (by omega) hdvdν)
  have hνlt : nu2 ℓ.length < td := by
    by_contra hcon
    have h5 : (2:ℕ) ^ td ≤ 2 ^ nu2 ℓ.length :=
      Nat.pow_le_pow_right (by norm_num) (by omega)
    have h6 := pow_nu2_le (m := ℓ.length) hnpos
    omega
  have hν_fl : nu2 ℓ.length ≤ floor_log2 ℓ.length := by
    by_contra hcon
    have h5 : (2:ℕ) ^ (floor_log2 ℓ.length + 1) ≤ 2 ^ nu2 ℓ.length :=
      Nat.pow_le_pow_right (by norm_num) (by omega)
    have h6 := lt_pow_floor_log2 ℓ.length
    have h7 := pow_nu2_le (m := ℓ.length) hnpos
    omega
  have happ : (ℓ ++ [x]).length = ℓ.length + 1 := by
    rw [List.length_append]
    rfl
  have hl : (lcanon hasher td ℓ).leaves.length = ℓ.length :=
    lcanon_leaves_length hasher td ℓ
  obtain ⟨eL, heL⟩ : ∃ e, ℓ[ℓ.length - 1]? = some e :=
    ⟨_, List.getElem?_eq_getElem (by omega)⟩
  have hwstart : (ℓ.length / 2 ^ nu2 ℓ.length - 1) * 2 ^ nu2 ℓ.length <
      (ℓ.map hasher.merkle_hash).length := by
    rw [List.length_map]
    have h5 : (ℓ.length / 2 ^ nu2 ℓ.length - 1) * 2 ^ nu2 ℓ.length <
        ℓ.length / 2 ^ nu2 ℓ.length * 2 ^ nu2 ℓ.length :=
      (Nat.mul_lt_mul_right (show 0 < 2 ^ nu2 ℓ.length by positivity)).mpr
        (by omega)
    omega
  obtain ⟨hν, hpad⟩ := pad_window_some hasher (ℓ.map hasher.merkle_hash)
    (d := nu2 ℓ.length)
    (s := (ℓ.length / 2 ^ nu2 ℓ.length - 1) * 2 ^ nu2 ℓ.length) hwstart
  have hD1 : depth_at_leaf_count (ℓ.length + 1) - 1 =
      floor_log2 ℓ.length + 1 := by
    rw [depth_sub_one (by omega)]
    simp only [Nat.add_sub_cancel]
  -- reduce add to the walk
  unfold add
  simp only [pure, Except.pure, bind, Except.bind]
  rw [hl, lcanon_tree_depth]
  rw [if_neg (by omega : ¬ℓ.length ≥ 2 ^ td)]
  rw [if_neg (by omega : ¬ℓ.length = 0)]
  rw [lcanon_nodes_length]
  have hcond : ((lcanon hasher td ℓ).leaves ++
      [({ element := x, parent := arena_len ℓ.length } : LeafNode E)]).length =
      ℓ.length + 1 := by
    rw [List.length_append, hl]
    rfl
  rw [hcond]
  rw [if_neg (by omega : ¬ℓ.length + 1 = 1)]
  rw [if_neg (show ¬is_right_leaf ℓ.length from by
    unfold is_right_leaf
    omega)]
  have hla : leaf_at (⟨(lcanon hasher td ℓ).leaves ++
      [⟨x, arena_len ℓ.length⟩], (lcanon hasher td ℓ).nodes, td⟩ :
        LinkedMerkleTree E H) (ℓ.length - 1) =
      .ok ⟨eL, lidx 1 ((ℓ.length - 1) / 2)⟩ := by
    unfold leaf_at
    dsimp only
    rw [List.getElem?_append_left (by rw [hl]; omega)]
    rw [lcanon_leaf_get, heL, Option.map_some']
    rw [if_neg (by omega)]
  rw [hla]
  dsimp only
  have hwc1 : (lcanon hasher td ℓ).nodes ++
      wchain hasher (hasher.merkle_hash x) ℓ.length 1 =
      (lcanon hasher td ℓ).nodes := by
    unfold wchain
    simp
  have hstate : (⟨(lcanon hasher td ℓ).leaves ++ [⟨x, arena_len ℓ.length⟩],
      (lcanon hasher td ℓ).nodes, td⟩ : LinkedMerkleTree E H) =
      ⟨(lcanon hasher td ℓ).leaves ++ [⟨x, arena_len ℓ.length⟩],
       (lcanon hasher td ℓ).nodes ++
         wchain hasher (hasher.merkle_hash x) ℓ.length 1, td⟩ := by
    rw [hwc1]
  rw [hstate]
  rw [show (ℓ.length - 1) / 2 = ℓ.length / 2 ^ 1 - 1 from by
    rw [pow_one]
    omega]
  rw [show hasher.combine_hash 0 (hasher.merkle_hash x) (hasher.merkle_hash x)
    = mtower hasher (hasher.merkle_hash x) 1 from rfl]
  have hwalk := add_walk_canon hasher td ℓ
    ((lcanon hasher td ℓ).leaves ++ [⟨x, arena_len ℓ.length⟩]) td
    (hasher.merkle_hash x) hν hn2 hev hpad
    (arena_len ℓ.length + td + 2) 1 (le_refl 1) hν1 (by omega)
  rw [hwalk]
  dsimp only
  have hnpi : arena_len ℓ.length = lidx 1 (ℓ.length / 2) := by
    have hc : cleaf 1 (ℓ.length / 2) = ℓ.length := by
      unfold cleaf
      rw [if_neg (by omega)]
      omega
    unfold lidx
    rw [hc]
    omega
  have hleavesS : (lcanon hasher td ℓ).leaves ++
      [(⟨x, arena_len ℓ.length⟩ : LeafNode E)] =
      (lcanon hasher td (ℓ ++ [x])).leaves := by
    rw [lcanon_leaves_snoc hasher td ℓ x hn2, hnpi]
  have hwqeq : ∀ e, 1 ≤ e → e + 1 ≤ nu2 ℓ.length →
      wq (ℓ.length + 1) e = ℓ.length / 2 ^ e := by
    intro e he he1
    have hdvd1 : 2 ^ (e + 1) ∣ ℓ.length :=
      dvd_trans (pow_dvd_pow 2 he1) hdvdν
    obtain ⟨k, hk⟩ := hdvd1
    have h5 : ℓ.length / 2 ^ (e + 1) = k := by
      rw [hk]
      exact Nat.mul_div_cancel_left k (by positivity)
    have h6 : ℓ.length / 2 ^ e = 2 * k := by
      have h7 : ℓ.length = 2 * k * 2 ^ e := by
        rw [hk]
        ring
      rw [h7]
      exact Nat.mul_div_cancel _ (by positivity)
    unfold wq
    rw [show ℓ.length + 1 - 1 = ℓ.length from rfl, h5, h6]
  have hwclen : (wchain hasher (hasher.merkle_hash x) ℓ.length
      (nu2 ℓ.length)).length = nu2 ℓ.length - 1 :=
    wchain_length hasher (hasher.merkle_hash x) ℓ.length (nu2 ℓ.length)
  have hwchain_get : ∀ e, 1 ≤ e → e + 1 ≤ nu2 ℓ.length →
      (wchain hasher (hasher.merkle_hash x) ℓ.length
        (nu2 ℓ.length))[e - 1]? =
      some (.Left (mtower hasher (hasher.merkle_hash x) (e + 1))
        (arena_len ℓ.length + e)) := by
    intro e he he1
    unfold wchain
    rw [List.getElem?_map, List.getElem?_range (by omega)]
    rw [Option.map_some']
    rw [show e - 1 + 2 = e + 1 from by omega, show e - 1 + 1 = e from by omega]
  have hlpchain : ∀ e, 1 ≤ e → e + 1 ≤ nu2 ℓ.length →
      lpar (ℓ.length + 1) e (ℓ.length / 2 ^ e) =
        arena_len ℓ.length + e := by
    intro e he he1
    unfold lpar
    have hdiv2 : ℓ.length / 2 ^ e / 2 = ℓ.length / 2 ^ (e + 1) := by
      rw [Nat.div_div_eq_div_mul, ← pow_succ]
    rw [hdiv2]
    have hc2 : cleaf (e + 1) (ℓ.length / 2 ^ (e + 1)) = ℓ.length :=
      cleaf_exact ℓ.length (e + 1)
        (dvd_trans (pow_dvd_pow 2 (by omega)) hdvdν) hnpos
    rw [if_pos (by rw [hc2]; omega)]
    unfold lidx
    rw [hc2]
    omega
  have hwqν : wq (ℓ.length + 1) (nu2 ℓ.length) =
      ℓ.length / 2 ^ nu2 ℓ.length - 1 := by
    unfold wq
    have hdiv2 : ℓ.length / 2 ^ nu2 ℓ.length / 2 =
        ℓ.length / 2 ^ (nu2 ℓ.length + 1) := by
      rw [Nat.div_div_eq_div_mul, ← pow_succ]
    have h5 : ℓ.length + 1 - 1 = ℓ.length := rfl
    rw [h5]
    omega
  have hliveν : cleaf (nu2 ℓ.length)
      (ℓ.length / 2 ^ nu2 ℓ.length - 1) < ℓ.length := by
    rcases Nat.eq_zero_or_pos (ℓ.length / 2 ^ nu2 ℓ.length - 1) with h0 | hp
    · rw [h0]
      unfold cleaf
      rw [if_pos rfl]
      have h5 : (2:ℕ) ^ (nu2 ℓ.length - 1) < 2 ^ nu2 ℓ.length :=
        Nat.pow_lt_pow_right (by norm_num) (by omega)
      have h6 : 2 ^ nu2 ℓ.length ≤ ℓ.length := Nat.le_of_dvd (by omega) hdvdν
      omega
    · unfold cleaf
      rw [if_neg (by omega)]
      have h5 : (ℓ.length / 2 ^ nu2 ℓ.length - 1) * 2 ^ nu2 ℓ.length <
          ℓ.length / 2 ^ nu2 ℓ.length * 2 ^ nu2 ℓ.length :=
        (Nat.mul_lt_mul_right (by positivity)).mpr (by omega)
      omega
  have hvacν : ((ℓ.map hasher.merkle_hash).drop
      ((ℓ.length / 2 ^ nu2 ℓ.length - 1 + 1) * 2 ^ nu2 ℓ.length)).take
      (2 ^ nu2 ℓ.length) = [] := by
    rw [List.take_eq_nil_iff]
    right
    rw [List.drop_eq_nil_iff_le, List.length_map]
    have h5 : ℓ.length / 2 ^ nu2 ℓ.length - 1 + 1 =
        ℓ.length / 2 ^ nu2 ℓ.length := by omega
    rw [h5]
    omega
  have hlnν : lnode hasher (ℓ.map hasher.merkle_hash) ℓ.length
      (nu2 ℓ.length) (ℓ.length / 2 ^ nu2 ℓ.length - 1) =
      .Left hν (lpar ℓ.length (nu2 ℓ.length)
        (ℓ.length / 2 ^ nu2 ℓ.length - 1)) := by
    unfold lnode
    rw [if_neg (by omega), hvacν, VectorTree.padHash_nil, hpad]
  have hwin_complete : ((ℓ.map hasher.merkle_hash ++
      [hasher.merkle_hash x]).drop
      ((ℓ.length / 2 ^ nu2 ℓ.length - 1) * 2 ^ nu2 ℓ.length)).take
      (2 ^ nu2 ℓ.length) =
      ((ℓ.map hasher.merkle_hash).drop
      ((ℓ.length / 2 ^ nu2 ℓ.length - 1) * 2 ^ nu2 ℓ.length)).take
      (2 ^ nu2 ℓ.length) := by
    apply window_append
    rw [List.length_map]
    have h5 : (ℓ.length / 2 ^ nu2 ℓ.length - 1) * 2 ^ nu2 ℓ.length +
        2 ^ nu2 ℓ.length =
        ℓ.length / 2 ^ nu2 ℓ.length * 2 ^ nu2 ℓ.length := by
      have h6 : ℓ.length / 2 ^ nu2 ℓ.length - 1 + 1 =
          ℓ.length / 2 ^ nu2 ℓ.length := by omega
      calc (ℓ.length / 2 ^ nu2 ℓ.length - 1) * 2 ^ nu2 ℓ.length +
          2 ^ nu2 ℓ.length
          = (ℓ.length / 2 ^ nu2 ℓ.length - 1 + 1) * 2 ^ nu2 ℓ.length := by
            ring
        _ = ℓ.length / 2 ^ nu2 ℓ.length * 2 ^ nu2 ℓ.length := by rw [h6]
    omega
  have hlnR : lnode hasher ((ℓ ++ [x]).map hasher.merkle_hash)
      (ℓ ++ [x]).length (nu2 ℓ.length)
      (ℓ.length / 2 ^ nu2 ℓ.length) =
      .Right hν (lidx (nu2 ℓ.length)
        (ℓ.length / 2 ^ nu2 ℓ.length - 1)) := by
    unfold lnode
    rw [if_pos (by omega : ℓ.length / 2 ^ nu2 ℓ.length % 2 = 1)]
    rw [List.map_append]
    simp only [List.map_cons, List.map_nil]
    rw [hwin_complete, hpad]
  have hQν : cleaf (nu2 ℓ.length) (ℓ.length / 2 ^ nu2 ℓ.length) =
      ℓ.length := cleaf_exact ℓ.length (nu2 ℓ.length) hdvdν hnpos
  have hlidxR : lidx (nu2 ℓ.length) (ℓ.length / 2 ^ nu2 ℓ.length) =
      arena_len ℓ.length + (nu2 ℓ.length - 1) :=
    lidx_exact ℓ.length (nu2 ℓ.length) hdvdν hnpos
  have hliveR : cleaf (nu2 ℓ.length) (ℓ.length / 2 ^ nu2 ℓ.length) <
      (ℓ ++ [x]).length := by
    rw [happ, hQν]
    omega
  rcases eq_or_ne (2 ^ nu2 ℓ.length) ℓ.length with hroot | hroot
  · rw [if_pos hroot]
    -- the tree was full: a new root level appears
    have hq1 : ℓ.length / 2 ^ nu2 ℓ.length = 1 := by
      nth_rewrite 1 [← hroot]
      exact Nat.div_self (by positivity)
    have hfl : floor_log2 ℓ.length = nu2 ℓ.length := by
      nth_rewrite 1 [← hroot]
      rw [floor_log2_pow]
    have hbsr : bsize ℓ.length = nu2 ℓ.length + 1 := by
      unfold bsize
      rw [if_neg (by omega), if_neg (by omega), if_pos hroot]
    have harena1r : arena_len (ℓ.length + 1) =
        arena_len ℓ.length + (nu2 ℓ.length + 1) := by
      rw [show arena_len (ℓ.length + 1) =
        arena_len ℓ.length + bsize ℓ.length from rfl, hbsr]
    have hsetlt : lidx (nu2 ℓ.length)
        (ℓ.length / 2 ^ nu2 ℓ.length - 1) < arena_len ℓ.length :=
      lidx_lt hν1 hliveν
    have hcl_top : cleaf (nu2 ℓ.length + 1) 0 = ℓ.length := by
      unfold cleaf
      rw [if_pos rfl, show nu2 ℓ.length + 1 - 1 = nu2 ℓ.length from rfl]
      exact hroot
    have hlidx_top : lidx (nu2 ℓ.length + 1) 0 =
        arena_len ℓ.length + nu2 ℓ.length := by
      unfold lidx
      rw [hcl_top, show nu2 ℓ.length + 1 - 1 = nu2 ℓ.length from rfl]
    have hpow2x : (2:ℕ) ^ (nu2 ℓ.length + 1) = 2 * ℓ.length := by
      rw [pow_succ, hroot]
      ring
    have hwqtop : wq (ℓ.length + 1) (nu2 ℓ.length + 1) = 0 := by
      unfold wq
      rw [show ℓ.length + 1 - 1 = ℓ.length from rfl]
      have h6 : ℓ.length < 2 ^ (nu2 ℓ.length + 1 + 1) := by
        have h7 : (2:ℕ) ^ nu2 ℓ.length < 2 ^ (nu2 ℓ.length + 1 + 1) :=
          Nat.pow_lt_pow_right (by norm_num) (by omega)
        rw [hroot] at h7
        exact h7
      rw [Nat.div_eq_of_lt h6]
    have hlpar_ν : lpar (ℓ.length + 1) (nu2 ℓ.length)
        (ℓ.length / 2 ^ nu2 ℓ.length - 1) =
        arena_len ℓ.length + nu2 ℓ.length := by
      unfold lpar
      rw [show (ℓ.length / 2 ^ nu2 ℓ.length - 1) / 2 = 0 from by omega]
      rw [if_pos (by rw [hcl_top]; omega)]
      exact hlidx_top
    have hcl2x : cleaf (nu2 ℓ.length + 1 + 1) 0 =
        2 ^ (nu2 ℓ.length + 1) := by
      unfold cleaf
      rw [if_pos rfl]
      rfl
    have hlpar_top : lpar (ℓ.length + 1) (nu2 ℓ.length + 1) 0 = 0 := by
      unfold lpar
      rw [Nat.zero_div, hcl2x]
      rw [if_neg (by rw [hpow2x]; omega)]
    have hlenS2 : (((lcanon hasher td ℓ).nodes ++
        wchain hasher (hasher.merkle_hash x) ℓ.length (nu2 ℓ.length) ++
        [InternalNode.Right hν (lidx (nu2 ℓ.length)
          (ℓ.length / 2 ^ nu2 ℓ.length - 1))] ++
        [InternalNode.Left (hasher.combine_hash (nu2 ℓ.length) hν
          (mtower hasher (hasher.merkle_hash x) (nu2 ℓ.length))) 0]).set
        (lidx (nu2 ℓ.length) (ℓ.length / 2 ^ nu2 ℓ.length - 1))
        (InternalNode.Left hν
          (arena_len ℓ.length + nu2 ℓ.length))).length =
        arena_len (ℓ ++ [x]).length := by
      rw [List.length_set, List.length_append, List.length_append,
        List.length_append, lcanon_nodes_length, hwclen]
      simp only [List.length_cons, List.length_nil]
      rw [happ, harena1r]
      omega
    refine rehash_right_path_canon hasher td (ℓ ++ [x])
      (by rw [happ]; omega) _ ?_ ?_ ?_ ?_ ?_
    · exact hleavesS
    · rfl
    · exact hlenS2
    · -- hA
      intro j hguard
      rcases Nat.lt_or_ge j (arena_len ℓ.length) with hj1 | hj1
      · have hne_set : lidx (nu2 ℓ.length)
            (ℓ.length / 2 ^ nu2 ℓ.length - 1) ≠ j := by
          intro hcc
          have h9 := hguard (nu2 ℓ.length) hν1 (by rw [happ, hD1]; omega)
          rw [happ, hwqν] at h9
          exact h9 hcc.symm
        rw [List.getElem?_set_ne hne_set]
        rw [List.getElem?_append_left (show j <
          ((lcanon hasher td ℓ).nodes ++ wchain hasher (hasher.merkle_hash x)
            ℓ.length (nu2 ℓ.length) ++
            [InternalNode.Right hν (lidx (nu2 ℓ.length)
              (ℓ.length / 2 ^ nu2 ℓ.length - 1))]).length from by
          rw [List.length_append, List.length_append, lcanon_nodes_length,
            hwclen]
          simp only [List.length_cons, List.length_nil]
          omega)]
        rw [List.getElem?_append_left (show j <
          ((lcanon hasher td ℓ).nodes ++ wchain hasher (hasher.merkle_hash x)
            ℓ.length (nu2 ℓ.length)).length from by
          rw [List.length_append, lcanon_nodes_length, hwclen]
          omega)]
        rw [List.getElem?_append_left (show j <
          (lcanon hasher td ℓ).nodes.length from by
          rw [lcanon_nodes_length]
          exact hj1)]
        refine (lcanon_nodes_stable hasher td ℓ x j hj1 ?_).symm
        intro e he heD
        have h5 := hguard e he (by rw [happ]; exact heD)
        rw [happ] at h5
        exact h5
      rcases Nat.lt_or_ge j (arena_len ℓ.length + (nu2 ℓ.length - 1))
        with hj2 | hj2
      · exfalso
        have hdvde : 2 ^ (j - arena_len ℓ.length + 1) ∣ ℓ.length :=
          dvd_trans (pow_dvd_pow 2 (by omega)) hdvdν
        have hlidxe : lidx (j - arena_len ℓ.length + 1)
            (ℓ.length / 2 ^ (j - arena_len ℓ.length + 1)) = j := by
          rw [lidx_exact ℓ.length _ hdvde hnpos]
          omega
        have h9 := hguard (j - arena_len ℓ.length + 1) (by omega) (by
          rw [happ, hD1]
          omega)
        rw [happ, hwqeq (j - arena_len ℓ.length + 1) (by omega) (by omega)]
          at h9
        exact h9 hlidxe.symm
      rcases eq_or_ne j (arena_len ℓ.length + (nu2 ℓ.length - 1))
        with rfl | hj3
      · rw [List.getElem?_set_ne (by omega)]
        rw [List.getElem?_append_left (show
          arena_len ℓ.length + (nu2 ℓ.length - 1) <
          ((lcanon hasher td ℓ).nodes ++ wchain hasher (hasher.merkle_hash x)
            ℓ.length (nu2 ℓ.length) ++
            [InternalNode.Right hν (lidx (nu2 ℓ.length)
              (ℓ.length / 2 ^ nu2 ℓ.length - 1))]).length from by
          rw [List.length_append, List.length_append, lcanon_nodes_length,
            hwclen]
          simp only [List.length_cons, List.length_nil]
          omega)]
        rw [List.getElem?_append_right (show
          ((lcanon hasher td ℓ).nodes ++ wchain hasher (hasher.merkle_hash x)
            ℓ.length (nu2 ℓ.length)).length ≤
          arena_len ℓ.length + (nu2 ℓ.length - 1) from by
          rw [List.length_append, lcanon_nodes_length, hwclen])]
        rw [show arena_len ℓ.length + (nu2 ℓ.length - 1) -
          ((lcanon hasher td ℓ).nodes ++ wchain hasher (hasher.merkle_hash x)
            ℓ.length (nu2 ℓ.length)).length = 0 from by
          rw [List.length_append, lcanon_nodes_length, hwclen]
          omega]
        rw [List.getElem?_cons_zero]
        rw [← hlidxR]
        rw [lcanon_nodes_get hasher td (ℓ ++ [x]) hν1 hliveR, hlnR]
      rcases eq_or_ne j (arena_len ℓ.length + nu2 ℓ.length) with rfl | hj4
      · exfalso
        have h9 := hguard (nu2 ℓ.length + 1) (by omega)
          (by rw [happ, hD1]; omega)
        rw [happ, hwqtop, hlidx_top] at h9
        exact h9 rfl
      · have hlen4 : arena_len (ℓ ++ [x]).length ≤ j := by
          rw [happ, harena1r]
          omega
        rw [List.getElem?_eq_none (show _ ≤ j from by
            rw [hlenS2]
            exact hlen4),
          List.getElem?_eq_none (show _ ≤ j from by
            rw [lcanon_nodes_length]
            exact hlen4)]
    · -- hB
      intro e he heD
      rw [happ] at heD ⊢
      rw [hD1, hfl] at heD
      rcases Nat.lt_or_ge e (nu2 ℓ.length) with heν | heν
      · -- chain slot
        rw [hwqeq e he (by omega)]
        have hdvde : 2 ^ e ∣ ℓ.length :=
          dvd_trans (pow_dvd_pow 2 (by omega)) hdvdν
        rw [lidx_exact ℓ.length e hdvde hnpos]
        refine ⟨mtower hasher (hasher.merkle_hash x) (e + 1), ?_⟩
        rw [List.getElem?_set_ne (by omega)]
        rw [List.getElem?_append_left (show
          arena_len ℓ.length + (e - 1) <
          ((lcanon hasher td ℓ).nodes ++ wchain hasher (hasher.merkle_hash x)
            ℓ.length (nu2 ℓ.length) ++
            [InternalNode.Right hν (lidx (nu2 ℓ.length)
              (ℓ.length / 2 ^ nu2 ℓ.length - 1))]).length from by
          rw [List.length_append, List.length_append, lcanon_nodes_length,
            hwclen]
          simp only [List.length_cons, List.length_nil]
          omega)]
        rw [List.getElem?_append_left (show
          arena_len ℓ.length + (e - 1) <
          ((lcanon hasher td ℓ).nodes ++ wchain hasher (hasher.merkle_hash x)
            ℓ.length (nu2 ℓ.length)).length from by
          rw [List.length_append, lcanon_nodes_length, hwclen]
          omega)]
        rw [List.getElem?_append_right (show
          (lcanon hasher td ℓ).nodes.length ≤
          arena_len ℓ.length + (e - 1) from by
          rw [lcanon_nodes_length]
          omega)]
        rw [show arena_len ℓ.length + (e - 1) -
          (lcanon hasher td ℓ).nodes.length = e - 1 from by
          rw [lcanon_nodes_length]
          omega]
        rw [hwchain_get e he (by omega), hlpchain e he (by omega)]
      rcases eq_or_ne e (nu2 ℓ.length) with rfl | heν2
      · -- the rebound old root slot
        rw [hwqν, hlpar_ν]
        refine ⟨hν, ?_⟩
        rw [List.getElem?_set_eq_of_lt _ (show
          lidx (nu2 ℓ.length) (ℓ.length / 2 ^ nu2 ℓ.length - 1) <
          (((lcanon hasher td ℓ).nodes ++
            wchain hasher (hasher.merkle_hash x) ℓ.length (nu2 ℓ.length) ++
            [InternalNode.Right hν (lidx (nu2 ℓ.length)
              (ℓ.length / 2 ^ nu2 ℓ.length - 1))]) ++
            [InternalNode.Left (hasher.combine_hash (nu2 ℓ.length) hν
              (mtower hasher (hasher.merkle_hash x) (nu2 ℓ.length))) 0]).length
          from by
          rw [List.length_append, List.length_append, List.length_append,
            lcanon_nodes_length, hwclen]
          simp only [List.length_cons, List.length_nil]
          omega)]
      · -- the new root slot
        have heq : e = nu2 ℓ.length + 1 := by omega
        subst heq
        rw [hwqtop, hlidx_top, hlpar_top]
        refine ⟨hasher.combine_hash (nu2 ℓ.length) hν
          (mtower hasher (hasher.merkle_hash x) (nu2 ℓ.length)), ?_⟩
        rw [List.getElem?_set_ne (by omega)]
        rw [List.getElem?_append_right (show
          ((lcanon hasher td ℓ).nodes ++ wchain hasher (hasher.merkle_hash x)
            ℓ.length (nu2 ℓ.length) ++
            [InternalNode.Right hν (lidx (nu2 ℓ.length)
              (ℓ.length / 2 ^ nu2 ℓ.length - 1))]).length ≤
          arena_len ℓ.length + nu2 ℓ.length from by
          rw [List.length_append, List.length_append, lcanon_nodes_length,
            hwclen]
          simp only [List.length_cons, List.length_nil]
          omega)]
        rw [show arena_len ℓ.length + nu2 ℓ.length -
          ((lcanon hasher td ℓ).nodes ++ wchain hasher (hasher.merkle_hash x)
            ℓ.length (nu2 ℓ.length) ++
            [InternalNode.Right hν (lidx (nu2 ℓ.length)
              (ℓ.length / 2 ^ nu2 ℓ.length - 1))]).length = 0 from by
          rw [List.length_append, List.length_append, lcanon_nodes_length,
            hwclen]
          simp only [List.length_cons, List.length_nil]
          omega]
        rw [List.getElem?_cons_zero]
  · rw [if_neg hroot]
    -- non-root arithmetic
    have hq3 : 3 ≤ ℓ.length / 2 ^ nu2 ℓ.length := by
      by_contra hcon
      have h5 : ℓ.length / 2 ^ nu2 ℓ.length = 1 := by omega
      rw [h5, one_mul] at hqdν
      exact hroot hqdν
    have hge1 : 2 ^ (nu2 ℓ.length + 1) ≤ ℓ.length := by
      have h5 : 3 * 2 ^ nu2 ℓ.length ≤
          ℓ.length / 2 ^ nu2 ℓ.length * 2 ^ nu2 ℓ.length :=
        Nat.mul_le_mul_right _ hq3
      rw [pow_succ]
      omega
    have hndvd1 : ¬ 2 ^ (nu2 ℓ.length + 1) ∣ ℓ.length := by
      intro hdd
      obtain ⟨m, hm⟩ := hdd
      have h5 : ℓ.length / 2 ^ nu2 ℓ.length = 2 * m := by
        have h6 : ℓ.length = 2 * m * 2 ^ nu2 ℓ.length := by
          calc ℓ.length = 2 ^ (nu2 ℓ.length + 1) * m := hm
            _ = 2 * m * 2 ^ nu2 ℓ.length := by
                rw [pow_succ]
                ring
        nth_rewrite 1 [h6]
        exact Nat.mul_div_cancel _ (by positivity)
      omega
    have hbs : bsize ℓ.length = nu2 ℓ.length := by
      unfold bsize
      rw [if_neg (by omega), if_neg (by omega), if_neg hroot]
      omega
    have harena1 : arena_len (ℓ.length + 1) =
        arena_len ℓ.length + nu2 ℓ.length := by
      rw [show arena_len (ℓ.length + 1) =
        arena_len ℓ.length + bsize ℓ.length from rfl, hbs]
    have hlenS : ((lcanon hasher td ℓ).nodes ++
        wchain hasher (hasher.merkle_hash x) ℓ.length (nu2 ℓ.length) ++
        [InternalNode.Right hν (lidx (nu2 ℓ.length)
          (ℓ.length / 2 ^ nu2 ℓ.length - 1))]).length =
        arena_len (ℓ ++ [x]).length := by
      rw [List.length_append, List.length_append, lcanon_nodes_length,
        hwclen, happ, harena1]
      simp only [List.length_cons, List.length_nil]
      omega
    refine rehash_right_path_canon hasher td (ℓ ++ [x])
      (by rw [happ]; omega) _ ?_ ?_ ?_ ?_ ?_
    · exact hleavesS
    · rfl
    · exact hlenS
    · -- hA
      intro j hguard
      rcases Nat.lt_or_ge j (arena_len ℓ.length) with hj1 | hj1
      · rw [List.getElem?_append_left (show j <
          ((lcanon hasher td ℓ).nodes ++ wchain hasher (hasher.merkle_hash x)
            ℓ.length (nu2 ℓ.length)).length from by
          rw [List.length_append, lcanon_nodes_length, hwclen]
          omega)]
        rw [List.getElem?_append_left (show j <
          (lcanon hasher td ℓ).nodes.length from by
          rw [lcanon_nodes_length]
          exact hj1)]
        refine (lcanon_nodes_stable hasher td ℓ x j hj1 ?_).symm
        intro e he heD
        have h5 := hguard e he (by rw [happ]; exact heD)
        rw [happ] at h5
        exact h5
      rcases Nat.lt_or_ge j (arena_len ℓ.length + (nu2 ℓ.length - 1))
        with hj2 | hj2
      · exfalso
        have hdvde : 2 ^ (j - arena_len ℓ.length + 1) ∣ ℓ.length :=
          dvd_trans (pow_dvd_pow 2 (by omega)) hdvdν
        have hlidxe : lidx (j - arena_len ℓ.length + 1)
            (ℓ.length / 2 ^ (j - arena_len ℓ.length + 1)) = j := by
          rw [lidx_exact ℓ.length _ hdvde hnpos]
          omega
        have h9 := hguard (j - arena_len ℓ.length + 1) (by omega) (by
          rw [happ, hD1]
          omega)
        rw [happ, hwqeq (j - arena_len ℓ.length + 1) (by omega) (by omega)]
          at h9
        exact h9 hlidxe.symm
      rcases eq_or_ne j (arena_len ℓ.length + (nu2 ℓ.length - 1))
        with rfl | hj3
      · rw [List.getElem?_append_right (show
          ((lcanon hasher td ℓ).nodes ++ wchain hasher (hasher.merkle_hash x)
            ℓ.length (nu2 ℓ.length)).length ≤
          arena_len ℓ.length + (nu2 ℓ.length - 1) from by
          rw [List.length_append, lcanon_nodes_length, hwclen])]
        rw [show arena_len ℓ.length + (nu2 ℓ.length - 1) -
          ((lcanon hasher td ℓ).nodes ++ wchain hasher (hasher.merkle_hash x)
            ℓ.length (nu2 ℓ.length)).length = 0 from by
          rw [List.length_append, lcanon_nodes_length, hwclen]
          omega]
        rw [List.getElem?_cons_zero]
        rw [← hlidxR]
        rw [lcanon_nodes_get hasher td (ℓ ++ [x]) hν1 hliveR, hlnR]
      · have hlen4 : arena_len (ℓ ++ [x]).length ≤ j := by
          rw [happ, harena1]
          omega
        rw [List.getElem?_eq_none (show _ ≤ j from by rw [hlenS]; exact hlen4),
          List.getElem?_eq_none (show _ ≤ j from by
            rw [lcanon_nodes_length]
            exact hlen4)]
    · -- hB
      intro e he heD
      rw [happ] at heD ⊢
      rw [hD1] at heD
      rcases Nat.lt_or_ge e (nu2 ℓ.length) with heν | heν
      · -- chain slot
        rw [hwqeq e he (by omega)]
        have hdvde : 2 ^ e ∣ ℓ.length :=
          dvd_trans (pow_dvd_pow 2 (by omega)) hdvdν
        rw [lidx_exact ℓ.length e hdvde hnpos]
        refine ⟨mtower hasher (hasher.merkle_hash x) (e + 1), ?_⟩
        rw [List.getElem?_append_left (show
          arena_len ℓ.length + (e - 1) <
          ((lcanon hasher td ℓ).nodes ++ wchain hasher (hasher.merkle_hash x)
            ℓ.length (nu2 ℓ.length)).length from by
          rw [List.length_append, lcanon_nodes_length, hwclen]
          omega)]
        rw [List.getElem?_append_right (show
          (lcanon hasher td ℓ).nodes.length ≤
          arena_len ℓ.length + (e - 1) from by
          rw [lcanon_nodes_length]
          omega)]
        rw [show arena_len ℓ.length + (e - 1) -
          (lcanon hasher td ℓ).nodes.length = e - 1 from by
          rw [lcanon_nodes_length]
          omega]
        rw [hwchain_get e he (by omega), hlpchain e he (by omega)]
      rcases eq_or_ne e (nu2 ℓ.length) with rfl | heν2
      · -- the old left child beside the new right node
        rw [hwqν]
        have hidxlt : lidx (nu2 ℓ.length)
            (ℓ.length / 2 ^ nu2 ℓ.length - 1) < arena_len ℓ.length :=
          lidx_lt hν1 hliveν
        rw [List.getElem?_append_left (show
          lidx (nu2 ℓ.length) (ℓ.length / 2 ^ nu2 ℓ.length - 1) <
          ((lcanon hasher td ℓ).nodes ++ wchain hasher (hasher.merkle_hash x)
            ℓ.length (nu2 ℓ.length)).length from by
          rw [List.length_append, lcanon_nodes_length, hwclen]
          omega)]
        rw [List.getElem?_append_left (show
          lidx (nu2 ℓ.length) (ℓ.length / 2 ^ nu2 ℓ.length - 1) <
          (lcanon hasher td ℓ).nodes.length from by
          rw [lcanon_nodes_length]
          exact hidxlt)]
        have hQ2 : (ℓ.length / 2 ^ nu2 ℓ.length - 1) / 2 =
            ℓ.length / 2 ^ (nu2 ℓ.length + 1) := by
          have hdiv2 : ℓ.length / 2 ^ nu2 ℓ.length / 2 =
              ℓ.length / 2 ^ (nu2 ℓ.length + 1) := by
            rw [Nat.div_div_eq_div_mul, ← pow_succ]
          omega
        have hcl2 : cleaf (nu2 ℓ.length + 1)
            (ℓ.length / 2 ^ (nu2 ℓ.length + 1)) < ℓ.length := by
          have h8 : 1 ≤ ℓ.length / 2 ^ (nu2 ℓ.length + 1) :=
            (Nat.one_le_div_iff (by positivity)).mpr hge1
          unfold cleaf
          rw [if_neg (by omega)]
          have h9 := Nat.div_mul_le_self ℓ.length (2 ^ (nu2 ℓ.length + 1))
          rcases Nat.lt_or_ge (ℓ.length / 2 ^ (nu2 ℓ.length + 1) *
              2 ^ (nu2 ℓ.length + 1)) ℓ.length with h10 | h10
          · exact h10
          · exfalso
            apply hndvd1
            refine ⟨ℓ.length / 2 ^ (nu2 ℓ.length + 1), ?_⟩
            rw [mul_comm]
            omega
        have hlpν : lpar (ℓ.length + 1) (nu2 ℓ.length)
            (ℓ.length / 2 ^ nu2 ℓ.length - 1) =
            lpar ℓ.length (nu2 ℓ.length)
              (ℓ.length / 2 ^ nu2 ℓ.length - 1) := by
          unfold lpar
          rw [hQ2]
          rw [if_pos (by omega), if_pos hcl2]
        refine ⟨hν, ?_⟩
        rw [lcanon_nodes_get hasher td ℓ hν1 hliveν, hlnν, hlpν]
      · -- untouched old write-set slot above the walk
        have heν3 : nu2 ℓ.length + 1 ≤ e := by omega
        have hndvde : ¬ 2 ^ (e + 1) ∣ ℓ.length := by
          intro hdd
          exact hndvd1 (dvd_trans (pow_dvd_pow 2 (by omega)) hdd)
        have hprod : wq (ℓ.length + 1) e * 2 ^ e =
            ℓ.length / 2 ^ (e + 1) * 2 ^ (e + 1) := by
          unfold wq
          rw [show ℓ.length + 1 - 1 = ℓ.length from rfl, pow_succ]
          ring
        have hle9 := Nat.div_mul_le_self ℓ.length (2 ^ (e + 1))
        have hne9 : ℓ.length / 2 ^ (e + 1) * 2 ^ (e + 1) ≠ ℓ.length := by
          intro hdd
          exact hndvde ⟨ℓ.length / 2 ^ (e + 1), by rw [mul_comm]; omega⟩
        have hwin : wq (ℓ.length + 1) e * 2 ^ e < ℓ.length := by omega
        have hlive : cleaf e (wq (ℓ.length + 1) e) < ℓ.length := by
          rcases Nat.eq_zero_or_pos (wq (ℓ.length + 1) e) with h0 | hp
          · rw [h0]
            unfold cleaf
            rw [if_pos rfl]
            have hne10 : ℓ.length ≠ 2 ^ (e - 1) := by
              intro h5
              apply hroot
              have h6 : nu2 ℓ.length = e - 1 := by
                rw [h5]
                exact nu2_pow (e - 1)
              rw [h6]
              exact h5.symm
            have h5 : (2:ℕ) ^ (e - 1) ≤ 2 ^ floor_log2 ℓ.length :=
              Nat.pow_le_pow_right (by norm_num) (by omega)
            have h6 := pow_floor_log2_le (n := ℓ.length) (by omega)
            omega
          · unfold cleaf
            rw [if_neg (by omega)]
            exact hwin
        have hpar_ne : cleaf (e + 1) (wq (ℓ.length + 1) e / 2) ≠
            ℓ.length := by
          have hwq2 : wq (ℓ.length + 1) e / 2 = ℓ.length / 2 ^ (e + 1) := by
            unfold wq
            rw [show ℓ.length + 1 - 1 = ℓ.length from rfl]
            omega
          rw [hwq2]
          intro hc
          unfold cleaf at hc
          rcases eq_or_ne (ℓ.length / 2 ^ (e + 1)) 0 with h0 | h0
          · rw [if_pos h0] at hc
            rw [show e + 1 - 1 = e from rfl] at hc
            apply hroot
            have h6 : nu2 ℓ.length = e := by
              rw [← hc]
              exact nu2_pow e
            rw [h6]
            exact hc
          · rw [if_neg h0] at hc
            exact hne9 hc
        have hidxlt2 : lidx e (wq (ℓ.length + 1) e) <
            arena_len ℓ.length := lidx_lt he hlive
        rw [List.getElem?_append_left (show
          lidx e (wq (ℓ.length + 1) e) <
          ((lcanon hasher td ℓ).nodes ++ wchain hasher (hasher.merkle_hash x)
            ℓ.length (nu2 ℓ.length)).length from by
          rw [List.length_append, lcanon_nodes_length, hwclen]
          omega)]
        rw [List.getElem?_append_left (show
          lidx e (wq (ℓ.length + 1) e) <
          (lcanon hasher td ℓ).nodes.length from by
          rw [lcanon_nodes_length]
          exact hidxlt2)]
        exact old_wq_shape hasher td ℓ e he hlive hwin hpar_ne

/-- `add` on a canonical linked tree with capacity left produces the
canonical linked tree of the appended list. -/
theorem add_canon_linked (hasher : MerkleHasher E H) (td : ℕ) (ℓ : List E)
    (x : E) (hcap : ℓ.length < 2 ^ td) :
    add hasher (lcanon hasher td ℓ) x =
      .ok (lcanon hasher td (ℓ ++ [x])) := by
  rcases Nat.lt_or_ge ℓ.length 2 with hsm | h2
  · rcases Nat.lt_or_ge ℓ.length 1 with h0 | h1
    · have hnil : ℓ = [] := List.eq_nil_of_length_eq_zero (by omega)
      subst hnil
      exact add_canon_nil hasher td x
    · have hone : ℓ.length = 1 := by omega
      rw [hone] at hcap
      obtain ⟨e₀, he⟩ : ∃ e₀, ℓ = [e₀] := List.length_eq_one.mp hone
      subst he
      exact add_canon_one hasher td e₀ x hcap
  · rcases eq_or_ne (ℓ.length % 2) 0 with hev | hodd
    · exact add_canon_even hasher td ℓ x h2 hev hcap
    · exact add_canon_odd hasher td ℓ x (by omega) (by omega) hcap

end Linked

/-! ## Claim theorems -/

section Claims

variable {E H : Type}

/-- The verifier's fold replays the fold `witness` performed while building
the path: starting from the same hash at the same depth, folding the
recorded entries reproduces the hash the builder ended with. -/
theorem verify_from_witness_steps (hasher : MerkleHasher E H)
    (s : Sled.SledState E H) :
    ∀ (n d pos : ℕ) (cur : H),
      verify_from hasher d (Sled.witness_steps hasher s n d pos cur).1 cur =
        (Sled.witness_steps hasher s n d pos cur).2 := by
  intro n
  induction n with
  | zero => intro d pos cur; rfl
  | succ n ih =>
      intro d pos cur
      simp only [Sled.witness_steps]
      cases s.node pos with
      | Empty => simpa [verify_from] using ih (d + 1) pos _
      | Left hos parent => simpa [verify_from] using ih (d + 1) parent _
      | Right hos left => simpa [verify_from] using ih (d + 1) _ _

/-- C2: a witness produced by the sled tree's `witness` verifies against the
hash of the leaf it was taken for.  This holds for every arena state (in
particular for every state reached by `add`/`truncate`), because the sled
`witness` populates `root_hash` by continuing the authentication-path fold
to the top, and `Witness::verify` performs the identical fold. -/
theorem claim_C2_witness_verifies [DecidableEq H] (hasher : MerkleHasher E H)
    (s : Sled.SledState E H) (tree_depth position : ℕ) (w : Witness H)
    (hw : Sled.witness hasher s tree_depth position = some w) :
    w.verify hasher (s.leaf_hash position) = true := by
  unfold Sled.witness at hw
  split at hw
  · exact absurd hw (by simp)
  · rename_i hrange
    rw [Option.some_inj] at hw
    subst hw
    unfold Witness.verify
    simp only [decide_eq_true_eq]
    split
    · rename_i hodd
      simpa [verify_from] using
        verify_from_witness_steps hasher s (tree_depth - 1) 1
          (s.leaf_parent position)
          (hasher.combine_hash 0 (s.leaf_hash (position - 1))
            (s.leaf_hash position))
    · split
      · rename_i hlt
        simpa [verify_from] using
          verify_from_witness_steps hasher s (tree_depth - 1) 1
            (s.leaf_parent position)
            (hasher.combine_hash 0 (s.leaf_hash position)
              (s.leaf_hash (position + 1)))
      · simpa [verify_from] using
          verify_from_witness_steps hasher s (tree_depth - 1) 1
            (s.leaf_parent position)
            (hasher.combine_hash 0 (s.leaf_hash position)
              (s.leaf_hash position))

/-- A one-leaf sled state used to instantiate the witness theorems. -/
def c2_state : Sled.SledState String String :=
  ⟨1, 1, fun _ => "a", fun _ => 0, fun _ => "a", fun _ => .Empty⟩

/-- Witness for C2: on a concrete one-leaf tree of constructor depth 4
(field 3), the witness for position 0 verifies. -/
theorem claim_C2_witness_verifies_witness :
    Witness.verify
      ⟨1, "<<<a|a-0>|<a|a-0>-1>|<<a|a-0>|<a|a-0>-1>-2>",
        [.Left "a", .Left "<a|a-0>", .Left "<<a|a-0>|<a|a-0>-1>"]⟩
      StringHasher "a" = true :=
  claim_C2_witness_verifies StringHasher c2_state 3 0 _ (by rfl)

/-- Each loop iteration of the sled witness pushes exactly one entry. -/
theorem witness_steps_length (hasher : MerkleHasher E H)
    (s : Sled.SledState E H) :
    ∀ (n d pos : ℕ) (cur : H),
      (Sled.witness_steps hasher s n d pos cur).1.length = n := by
  intro n
  induction n with
  | zero => intro d pos cur; rfl
  | succ n ih =>
      intro d pos cur
      simp only [Sled.witness_steps]
      cases s.node pos with
      | Empty => simp [ih]
      | Left hos parent => simp [ih]
      | Right hos left => simp [ih]

/-- C5: on every sled arena state, `witness` returns `none` exactly for
out-of-range positions (hence for every position on an empty tree), and a
returned witness carries `tree_size = len` and an authentication path of
exactly `tree_depth` entries (the struct field, constructor depth minus
one; 32 for the default depth-33 tree).  But the vector embodiment, whose
range check routes `len` through the `f32` `first_leaf`, returns `none` at
in-range positions: on a deque of `2^25 - 1` slots the exact leaf count is
`2^24`, yet the `f32` `len` computes 0, so `witness(0)` answers `none`. -/
theorem claim_C5_witness_shape :
    (∀ (hasher : MerkleHasher E H) (s : Sled.SledState E H)
        (tree_depth position : ℕ), 1 ≤ tree_depth →
      (Sled.witness hasher s tree_depth position = none ↔
        position ≥ s.num_leaves) ∧
      ∀ w, Sled.witness hasher s tree_depth position = some w →
        w.tree_size = s.num_leaves ∧ w.auth_path.length = tree_depth) ∧
    (∀ (hasher : MerkleHasher E H) (t : VectorTree.VectorMerkleTree E H),
      t.nodes.length = 2 ^ 25 - 1 →
      VectorTree.len t = 2 ^ 24 ∧ VectorTree.len_f32 t = 0 ∧
        VectorTree.witness_f32 hasher t 0 = .ok none) := by
  constructor
  · intro hasher s tree_depth position htd
    constructor
    · unfold Sled.witness
      split
      · rename_i hcond
        constructor
        · intro _
          rcases hcond with h0 | hge
          · omega
          · exact hge
        · intro _
          rfl
      · rename_i hcond
        push_neg at hcond
        constructor
        · intro heq
          exact absurd heq (by simp)
        · intro hge
          exact absurd hge (by omega)
    · intro w hw
      unfold Sled.witness at hw
      split at hw
      · exact absurd hw (by simp)
      · rw [Option.some_inj] at hw
        subst hw
        refine ⟨rfl, ?_⟩
        simp only [List.length_cons, witness_steps_length]
        omega
  · intro hasher t hlen
    exact ⟨VectorTree.len_at_big t hlen, VectorTree.len_f32_at_big t hlen,
      VectorTree.witness_f32_at_big hasher t hlen⟩

theorem claim_C5_witness_shape_witness :
    (1 ≤ 32 ∧
      (Sled.witness StringHasher c2_state 32 0 = none ↔ (0 : ℕ) ≥ 1) ∧
      ∀ w, Sled.witness StringHasher c2_state 32 0 = some w →
        w.tree_size = 1 ∧ w.auth_path.length = 32) ∧
    (VectorTree.len
          (⟨List.replicate (2 ^ 25 - 1) VectorTree.VNode.Empty, 33⟩ :
            VectorTree.VectorMerkleTree String String) = 2 ^ 24 ∧
      VectorTree.len_f32
          (⟨List.replicate (2 ^ 25 - 1) VectorTree.VNode.Empty, 33⟩ :
            VectorTree.VectorMerkleTree String String) = 0 ∧
      VectorTree.witness_f32 StringHasher
          (⟨List.replicate (2 ^ 25 - 1) VectorTree.VNode.Empty, 33⟩ :
            VectorTree.VectorMerkleTree String String) 0 = .ok none) :=
  ⟨⟨by decide, claim_C5_witness_shape.1 StringHasher c2_state 32 0 (by decide)⟩,
    claim_C5_witness_shape.2 StringHasher
      ⟨List.replicate (2 ^ 25 - 1) VectorTree.VNode.Empty, 33⟩
      (by rw [List.length_replicate])⟩

/-- C10: `Witness::verify` never reads `tree_size`: two witnesses agreeing
on `root_hash` and `auth_path` verify identically for every hasher and
candidate hash (and `verify` is a pure function of those data). -/
theorem claim_C10_verify_ignores_tree_size [DecidableEq H]
    (hasher : MerkleHasher E H) (ts₁ ts₂ : ℕ) (root : H)
    (path : List (WitnessNode H)) (candidate : H) :
    Witness.verify ⟨ts₁, root, path⟩ hasher candidate =
      Witness.verify ⟨ts₂, root, path⟩ hasher candidate := rfl

/-- C9: the `f32`-based `depth_at_leaf_count` deviates from the exact
integer formula of its own doc comment: at `n = 2^25` the conversion of
`n - 1 = 2^25 - 1` to `f32` rounds up to `2^25` (ties-to-even), so the code
returns 27 where `floor(log2(n-1)) + 2 = 26`. -/
theorem claim_C9_f32_deviates :
    depth_at_leaf_count_f32 (2 ^ 25) = 27 ∧
      depth_at_leaf_count (2 ^ 25) = 26 ∧
      toF32Round (2 ^ 25 - 1) = 2 ^ 25 := by
  refine ⟨?_, ?_, ?_⟩ <;> decide

/-- C1: `past_root(0)` on a non-empty tree does not return `None`: the
vector embodiment returns a garbage `Some` (folded from the internal node
just before the first leaf), and the linked embodiment panics on the
`past_size - 1` underflow.  (Only the sled embodiment checks
`past_size == 0`.) -/
theorem claim_C1_past_root_zero_diverges :
    (VectorTree.build StringHasher 4 ["a", "b"]).bind
        (fun t => VectorTree.past_root StringHasher t 0) =
      .ok (some
        "<<<<a|b-0>|<a|b-0>-0>|<<a|b-0>|<a|b-0>-0>-1>|<<<a|b-0>|<a|b-0>-0>|<<a|b-0>|<a|b-0>-0>-1>-2>") ∧
    (Linked.build StringHasher 4 ["a"]).bind
        (fun t => Linked.past_root StringHasher t 0) =
      .error .underflow := by
  constructor <;> rfl

/-- C3: on every vector tree reachable by `add` (any hasher, any
constructor depth `td ≥ 1`, any leaf sequence fitting the capacity
`2^(td-1)`), the exact-integer `root_hash` is the padded subtree hash at
level `td - 1` of the leaf hashes — vacant right subtrees filled by
self-pairing — and is `none` exactly on the empty tree; concretely both
embodiments of depth 4 holding `"a"` give the S1 root.  But the code routes
`depth_at_index` through `f32`: on a deque of `2^25 - 1` slots (a complete
tree of `2^24` leaves, in range for the default depth 33) the cast of
`2^25 - 1` rounds up to `2^25`, so the code self-pairs from depth 25 for 7
levels where the intended value self-pairs from depth 24 for 8 levels —
with the counting hasher the two roots provably differ. -/
theorem claim_C3_root_hash_padded :
    (∀ (hasher : MerkleHasher E H) (td : ℕ) (ℓ : List E)
        (t : VectorTree.VectorMerkleTree E H),
      1 ≤ td → ℓ.length ≤ 2 ^ (td - 1) →
      VectorTree.build hasher td ℓ = .ok t →
      VectorTree.root_hash hasher t =
          padHash hasher (td - 1) (ℓ.map hasher.merkle_hash) ∧
        (VectorTree.root_hash hasher t = none ↔ ℓ = [])) ∧
    (VectorTree.build StringHasher 4 ["a"]).map
        (VectorTree.root_hash StringHasher) =
      .ok (some "<<<a|a-0>|<a|a-0>-1>|<<a|a-0>|<a|a-0>-1>-2>") ∧
    (Linked.build StringHasher 4 ["a"]).bind
        (Linked.root_hash StringHasher) =
      .ok (some "<<<a|a-0>|<a|a-0>-1>|<<a|a-0>|<a|a-0>-1>-2>") ∧
    (∀ (t : VectorTree.VectorMerkleTree ℕ ℕ) (h : ℕ),
      t.nodes.length = 2 ^ 25 - 1 → t.tree_depth = 33 →
      t.nodes[0]? = some (.Internal h) →
      VectorTree.root_hash_f32 CountHasher t = some (h + 7) ∧
        VectorTree.root_hash CountHasher t = some (h + 8) ∧
        VectorTree.root_hash_f32 CountHasher t ≠
          VectorTree.root_hash CountHasher t) := by
  refine ⟨?_, rfl, rfl, ?_⟩
  · intro hasher td ℓ t htd hlen hb
    rw [VectorTree.build_canon hasher td ℓ hlen] at hb
    have ht : VectorTree.canon hasher td ℓ = t := by
      injection hb
    subst ht
    constructor
    · exact VectorTree.root_hash_canon hasher td ℓ hlen htd
    · rw [VectorTree.root_hash_canon hasher td ℓ hlen htd,
        VectorTree.padHash_eq_none_iff]
      simp
  · intro t h hlen htd h0
    have h7 : VectorTree.root_hash_f32 CountHasher t = some (h + 7) := by
      rw [VectorTree.root_hash_f32_at_big CountHasher t h hlen htd h0,
        VectorTree.lift_self_count_7]
    have h8 : VectorTree.root_hash CountHasher t = some (h + 8) := by
      rw [VectorTree.root_hash_at_big CountHasher t h hlen htd h0,
        VectorTree.lift_self_count_8]
    refine ⟨h7, h8, ?_⟩
    rw [h7, h8]
    simp

theorem claim_C3_root_hash_padded_witness :
    (VectorTree.root_hash StringHasher
          (VectorTree.canon StringHasher 3 ["a", "b"]) =
        padHash StringHasher 2 (["a", "b"].map StringHasher.merkle_hash) ∧
      (VectorTree.root_hash StringHasher
          (VectorTree.canon StringHasher 3 ["a", "b"]) = none ↔
        (["a", "b"] : List String) = [])) ∧
    (VectorTree.root_hash_f32 CountHasher
          (⟨VectorTree.VNode.Internal 7 ::
              List.replicate (2 ^ 25 - 2) VectorTree.VNode.Empty, 33⟩ :
            VectorTree.VectorMerkleTree ℕ ℕ) = some (7 + 7) ∧
      VectorTree.root_hash CountHasher
          (⟨VectorTree.VNode.Internal 7 ::
              List.replicate (2 ^ 25 - 2) VectorTree.VNode.Empty, 33⟩ :
            VectorTree.VectorMerkleTree ℕ ℕ) = some (7 + 8) ∧
      VectorTree.root_hash_f32 CountHasher
          (⟨VectorTree.VNode.Internal 7 ::
              List.replicate (2 ^ 25 - 2) VectorTree.VNode.Empty, 33⟩ :
            VectorTree.VectorMerkleTree ℕ ℕ) ≠
        VectorTree.root_hash CountHasher
          (⟨VectorTree.VNode.Internal 7 ::
              List.replicate (2 ^ 25 - 2) VectorTree.VNode.Empty, 33⟩ :
            VectorTree.VectorMerkleTree ℕ ℕ)) :=
  ⟨claim_C3_root_hash_padded.1 StringHasher 3 ["a", "b"]
      (VectorTree.canon StringHasher 3 ["a", "b"]) (by decide) (by decide) rfl,
    (claim_C3_root_hash_padded (E := ℕ) (H := ℕ)).2.2.2
      ⟨VectorTree.VNode.Internal 7 ::
        List.replicate (2 ^ 25 - 2) VectorTree.VNode.Empty, 33⟩ 7
      (by rw [List.length_cons, List.length_replicate]; decide)
      rfl (by rw [List.getElem?_cons_zero])⟩

/-- C7: on the exact-integer model, `write` emits exactly the depth byte,
the little-endian `u32` leaf count and the encoded elements, and `read` of
those bytes rebuilds (by repeated `add`) a tree identical to the original.
But the code computes `len` through the `f32` `first_leaf`: on a deque of
`2^25 - 1` slots (`2^24` leaves, in range for the default depth 33) `write`
records leaf count 0 and no elements, `read` of those bytes returns the
empty tree, and its `root_hash` (`none`) differs from the original tree
root hash (a `some`). -/
theorem claim_C7_serialization_roundtrip :
    (∀ (hasher : MerkleHasher E H) (codec : ElementCodec E) (td : ℕ)
      (ℓ : List E) (t : VectorTree.VectorMerkleTree E H),
      (∀ (e : E) (rest : List ℕ),
        codec.read_element (codec.write_element e ++ rest) = some (e, rest)) →
      1 ≤ td → td < 256 → ℓ.length < 2 ^ 32 → ℓ.length ≤ 2 ^ (td - 1) →
      VectorTree.build hasher td ℓ = .ok t →
      VectorTree.write codec t =
          .ok ([td] ++ VectorTree.le32 ℓ.length ++
            (ℓ.map codec.write_element).flatten) ∧
        VectorTree.read hasher codec
            ([td] ++ VectorTree.le32 ℓ.length ++
              (ℓ.map codec.write_element).flatten) =
          .ok (some t)) ∧
    (∀ (hasher : MerkleHasher E H) (codec : ElementCodec E)
        (t : VectorTree.VectorMerkleTree E H) (h : H),
      t.nodes.length = 2 ^ 25 - 1 → t.tree_depth = 33 →
      t.nodes[0]? = some (.Internal h) →
      VectorTree.write_f32 codec t = .ok [33, 0, 0, 0, 0] ∧
        VectorTree.read_f32 hasher codec [33, 0, 0, 0, 0] =
          .ok (some (VectorTree.new_with_size 33)) ∧
        VectorTree.root_hash_f32 hasher
            (VectorTree.new_with_size 33 : VectorTree.VectorMerkleTree E H) =
          none ∧
        VectorTree.root_hash_f32 hasher t ≠ none) := by
  constructor
  · intro hasher codec td ℓ t hcodec htd htd256 hlen32 hcap hb
    rw [VectorTree.build_canon hasher td ℓ hcap] at hb
    have ht : VectorTree.canon hasher td ℓ = t := by
      injection hb
    subst ht
    have hmod : td % 256 = td := Nat.mod_eq_of_lt htd256
    constructor
    · rw [VectorTree.write_canon hasher codec td ℓ, hmod]
    · rw [show [td] = [td % 256] by rw [hmod]]
      exact VectorTree.read_of_write hasher codec hcodec td ℓ htd256 hlen32 hcap
  · intro hasher codec t h hlen htd h0
    refine ⟨VectorTree.write_f32_at_big codec t hlen htd, rfl, rfl, ?_⟩
    rw [VectorTree.root_hash_f32_at_big hasher t h hlen htd h0]
    simp

theorem claim_C7_serialization_roundtrip_witness :
    (VectorTree.write BoolCodec
          (VectorTree.canon BoolHasher 3 [true, false]) =
        .ok ([3] ++ VectorTree.le32 ([true, false] : List Bool).length ++
          (([true, false] : List Bool).map BoolCodec.write_element).flatten) ∧
      VectorTree.read BoolHasher BoolCodec
          ([3] ++ VectorTree.le32 ([true, false] : List Bool).length ++
            (([true, false] : List Bool).map BoolCodec.write_element).flatten) =
        .ok (some (VectorTree.canon BoolHasher 3 [true, false]))) ∧
    (VectorTree.write_f32 BoolCodec
        (⟨VectorTree.VNode.Internal 7 ::
            List.replicate (2 ^ 25 - 2) VectorTree.VNode.Empty, 33⟩ :
          VectorTree.VectorMerkleTree Bool ℕ) = .ok [33, 0, 0, 0, 0] ∧
      VectorTree.read_f32 BoolHasher BoolCodec [33, 0, 0, 0, 0] =
        .ok (some (VectorTree.new_with_size 33)) ∧
      VectorTree.root_hash_f32 BoolHasher
          (VectorTree.new_with_size 33 : VectorTree.VectorMerkleTree Bool ℕ) =
        none ∧
      VectorTree.root_hash_f32 BoolHasher
          (⟨VectorTree.VNode.Internal 7 ::
              List.replicate (2 ^ 25 - 2) VectorTree.VNode.Empty, 33⟩ :
            VectorTree.VectorMerkleTree Bool ℕ) ≠ none) :=
  ⟨claim_C7_serialization_roundtrip.1 BoolHasher BoolCodec 3 [true, false]
      (VectorTree.canon BoolHasher 3 [true, false])
      (fun e rest => by cases e <;> rfl)
      (by decide) (by decide) (by decide) (by decide) rfl,
    claim_C7_serialization_roundtrip.2 BoolHasher BoolCodec
      ⟨VectorTree.VNode.Internal 7 ::
        List.replicate (2 ^ 25 - 2) VectorTree.VNode.Empty, 33⟩ 7
      (by rw [List.length_cons, List.length_replicate]; decide)
      rfl (by rw [List.getElem?_cons_zero])⟩

/-- C8: on the exact-integer model, `add` fails with the panic-class
`treeFull` exactly at capacity — the vector embodiment panics iff the leaf
count equals `2^(td-1)` and below capacity appends the leaf, and the linked
embodiment checks `2^tree_depth` before any mutation and below capacity
appends the leaf and succeeds.  But the code routes `first_leaf` through
`f32`: on a complete deque of `2^25 - 1` slots (`2^24` leaves, far below the
default capacity `2^32`), `add` succeeds yet drops every stored leaf,
returning the one-leaf tree of just the new element instead of appending
(the cast of `2^25 - 1` to `f32` rounds up to `2^25`, so the internal-prefix
drop removes the whole deque). -/
theorem claim_C8_add_capacity_panic :
    (∀ (hasher : MerkleHasher E H) (td : ℕ) (ℓ : List E) (e : E),
      1 ≤ td → ℓ.length ≤ 2 ^ (td - 1) →
      (VectorTree.add hasher (VectorTree.canon hasher td ℓ) e =
          .error .treeFull ↔ ℓ.length = 2 ^ (td - 1)) ∧
        (ℓ.length < 2 ^ (td - 1) →
          VectorTree.add hasher (VectorTree.canon hasher td ℓ) e =
            .ok (VectorTree.canon hasher td (ℓ ++ [e])))) ∧
    (∀ (hasher : MerkleHasher E H) (t : Linked.LinkedMerkleTree E H) (e : E),
      2 ^ t.tree_depth ≤ Linked.len t →
      Linked.add hasher t e = .error .treeFull) ∧
    (∀ (hasher : MerkleHasher E H) (td : ℕ) (ℓ : List E) (x : E),
      ℓ.length < 2 ^ td →
      Linked.add hasher (Linked.lcanon hasher td ℓ) x =
        .ok (Linked.lcanon hasher td (ℓ ++ [x]))) ∧
    (∀ (hasher : MerkleHasher E H) (t : VectorTree.VectorMerkleTree E H)
        (e : E),
      t.nodes.length = 2 ^ 25 - 1 → t.tree_depth = 33 →
      VectorTree.add_f32 hasher t e =
        .ok ⟨[VectorTree.VNode.Leaf e], 33⟩) := by
  refine ⟨?_, ?_, ?_, ?_⟩
  · intro hasher td ℓ e htd hlen
    constructor
    · constructor
      · intro herr
        by_contra hne
        have hlt : ℓ.length < 2 ^ (td - 1) := by omega
        rw [VectorTree.add_canon_ok hasher td ℓ e hlt] at herr
        exact absurd herr (by simp)
      · intro heq
        exact VectorTree.add_canon_full hasher td ℓ e htd heq
    · intro hlt
      exact VectorTree.add_canon_ok hasher td ℓ e hlt
  · intro hasher t e hcap
    have hcap2 : t.leaves.length ≥ 2 ^ t.tree_depth := hcap
    unfold Linked.add
    simp only [if_pos hcap2]
    rfl
  · intro hasher td ℓ x hcap
    exact Linked.add_canon_linked hasher td ℓ x hcap
  · intro hasher t e hlen htd
    exact VectorTree.add_f32_resets hasher t e hlen htd

theorem claim_C8_add_capacity_panic_witness :
    ((VectorTree.add StringHasher
          (VectorTree.canon StringHasher 2 ["a", "b"]) "c" =
        .error .treeFull ↔ (["a", "b"] : List String).length = 2 ^ (2 - 1)) ∧
      ((["a", "b"] : List String).length < 2 ^ (2 - 1) →
        VectorTree.add StringHasher
            (VectorTree.canon StringHasher 2 ["a", "b"]) "c" =
          .ok (VectorTree.canon StringHasher 2 (["a", "b"] ++ ["c"])))) ∧
    Linked.add StringHasher
        (⟨[⟨"a", 0⟩], [.Empty], 0⟩ : Linked.LinkedMerkleTree String String)
        "b" = .error .treeFull ∧
    Linked.add StringHasher (Linked.lcanon StringHasher 2 ["a"]) "b" =
      .ok (Linked.lcanon StringHasher 2 (["a"] ++ ["b"])) ∧
    VectorTree.add_f32 StringHasher
        (⟨List.replicate (2 ^ 25 - 1) VectorTree.VNode.Empty, 33⟩ :
          VectorTree.VectorMerkleTree String String) "c" =
      .ok ⟨[VectorTree.VNode.Leaf "c"], 33⟩ :=
  ⟨claim_C8_add_capacity_panic.1 StringHasher 2 ["a", "b"] "c" (by decide) (by decide),
    claim_C8_add_capacity_panic.2.1 StringHasher ⟨[⟨"a", 0⟩], [.Empty], 0⟩ "b" (by decide),
    claim_C8_add_capacity_panic.2.2.1 StringHasher 2 ["a"] "b" (by decide),
    claim_C8_add_capacity_panic.2.2.2 StringHasher
      ⟨List.replicate (2 ^ 25 - 1) VectorTree.VNode.Empty, 33⟩ "c"
      (by rw [List.length_replicate]) rfl⟩

end Claims

end MerkleNotes
